import Mathlib

/-!
# The Payload-demo image encoder: zigzag scan, Huffman tables, bit writer, colour conversion

A shallow embedding of `src/image_compression/encoder/huff.c` and `image.c` with the
properties of their specification.

Conventions of the embedding:

* machine integers are `Nat` or `Int`, with an explicit `% 2 ^ w` wherever a value is
  stored in a `w`-bit unsigned object;
* a C array is a `List`, a read or write outside its slots has no defined result, and a
  function that can meet one returns an `Option`;
* the part of the memory a function writes through a pointer is returned as its result;
* a `double` of the colour conversion is an integer in units of `2 ^ -56`, rounded to 53
  significant bits after every operation (IEEE 754, round to nearest, ties to even), and a
  conversion to `uint8_t` that C leaves undefined is a parameter of the embedding.

The definitions come first, the theorems follow.
-/

namespace PayloadDemo

/-! ## Zigzag scan (huff.c:82-97) -/

/-- The macro `BLOCK_SIZE` of huff.c:6. -/
def BLOCK_SIZE : Int := 8

/-- The local variables `row`, `col` and `d` of `zig_zag_order`. -/
structure ZigZag where
  row : Int
  col : Int
  d : Int
deriving DecidableEq

/-- The table `dirs[2][2] = {{-1, 1}, {1, -1}}` of huff.c:84. -/
def dirs (d k : Int) : Int :=
  if d = 0 then (if k = 0 then -1 else 1) else (if k = 0 then 1 else -1)

/-- Lines 89-95 of huff.c: the step along the diagonal followed by the four edge tests, in
the order of the source, each test reading the values the previous ones left. -/
def zigzagAdvance (s : ZigZag) : ZigZag :=
  let row := s.row + dirs s.d 0
  let col := s.col + dirs s.d 1
  let d := s.d
  let (row, col, d) :=
    if row ≥ BLOCK_SIZE then (BLOCK_SIZE - 1, col + 2, 1 - d) else (row, col, d)
  let (row, col, d) :=
    if col ≥ BLOCK_SIZE then (row + 2, BLOCK_SIZE - 1, 1 - d) else (row, col, d)
  let (row, d) := if row < 0 then (0, 1 - d) else (row, d)
  let (col, d) := if col < 0 then (0, 1 - d) else (col, d)
  { row := row, col := col, d := d }

/-- The initial values `row = 0, col = 0, d = 0` of huff.c:83. -/
def zigzagStart : ZigZag := { row := 0, col := 0, d := 0 }

/-- The cell `(row, col)` lies in the 8x8 block. -/
def inBlock (row col : Int) : Bool :=
  decide (0 ≤ row) && decide (row < BLOCK_SIZE) && decide (0 ≤ col) && decide (col < BLOCK_SIZE)

/-- The loop of `zig_zag_order` (huff.c:86-96) with `todo` iterations left and counter `i`.
`Matrix` is the grid behind the `float **`, `toInt` the conversion `(int)` of huff.c:87 and
`output` the memory behind `int *output`. Reading `Matrix[row][col]` outside the block has
no defined result. -/
def zigzagLoop {α : Type} (toInt : α → Int) (Matrix : Int → Int → α) :
    Nat → Nat → ZigZag → (Nat → Int) → Option (Nat → Int)
  | 0, _, _, output => some output
  | todo + 1, i, s, output =>
    if inBlock s.row s.col then
      zigzagLoop toInt Matrix todo (i + 1) (zigzagAdvance s)
        (Function.update output i (toInt (Matrix s.row s.col)))
    else none

/-- The function `zig_zag_order` of huff.c:82-97: `BLOCK_SIZE * BLOCK_SIZE = 64`
iterations from the start state. The result is the memory behind `output` afterwards. -/
def zig_zag_order {α : Type} (toInt : α → Int) (output : Nat → Int)
    (Matrix : Int → Int → α) : Option (Nat → Int) :=
  zigzagLoop toInt Matrix 64 0 zigzagStart output

/-- The cell `(row, col)` that `zig_zag_order` reads at step `i`: the state after `i`
rounds of lines 89-95. -/
def zigzagCell (i : Nat) : Int × Int :=
  ((zigzagAdvance^[i] zigzagStart).row, (zigzagAdvance^[i] zigzagStart).col)

/-- The cells of the anti-diagonal `row + col = s` of the 8x8 grid, with the row increasing
when `s` is odd and decreasing when `s` is even. -/
def jpegDiagonal (s : Nat) : List (Int × Int) :=
  let cells := ((List.range 8).filter (fun r => decide (r ≤ s) && decide (s - r < 8))).map
    (fun r => (Int.ofNat r, Int.ofNat (s - r)))
  if s % 2 = 1 then cells else cells.reverse

/-- The JPEG zigzag scan as the specification words it: the anti-diagonals
`row + col = 0, 1, ..., 14` in increasing order. -/
def jpegZigzag : List (Int × Int) := (List.range 15).flatMap jpegDiagonal

/-- The zigzag sequence of the JPEG standard (ITU-T T.81, Figure A.6) as the raster index
`8 * row + col` of each scan position. -/
def jpegNaturalOrder : List Int :=
  [ 0,  1,  8, 16,  9,  2,  3, 10,
   17, 24, 32, 25, 18, 11,  4,  5,
   12, 19, 26, 33, 40, 48, 41, 34,
   27, 20, 13,  6,  7, 14, 21, 28,
   35, 42, 49, 56, 57, 50, 43, 36,
   29, 22, 15, 23, 30, 37, 44, 51,
   58, 59, 52, 45, 38, 31, 39, 46,
   53, 60, 61, 54, 47, 55, 62, 63]

/-- Modelled from the spec: the inverse scan, which the encoder sources do not hold. With
`todo` steps left and the step counter at `i`, it puts `output[i]` back at the cell that
`zig_zag_order` reads at step `i`. -/
def inverse_scan (output : Nat → Int) : Nat → Nat → (Int → Int → Int) → (Int → Int → Int)
  | 0, _, grid => grid
  | todo + 1, i, grid =>
    inverse_scan output todo (i + 1)
      (fun r c => if (r, c) = zigzagCell i then output i else grid r c)

/-! ## Huffman tables (huff.h, huff.c:10-79) -/

inductive Table_t where
  | LUM_DC_TABLE
  | LUM_AC_TABLE
  | COL_DC_TABLE
  | COL_AC_TABLE
deriving DecidableEq

/-- The struct `HuffmanTable` of huff.h: `offsets` has 17 slots of `unsigned char`,
`symbols` 162 slots of `unsigned char`, `codes` 162 slots of `uint16_t`. -/
structure HuffmanTable where
  offsets : List Nat
  symbols : List Nat
  codes : List Nat
  EOB_code_index : Nat
  EOB_code_len : Nat
  ZRL_code_index : Nat
  ZRL_code_len : Nat
  set : Bool
deriving DecidableEq

/-- A brace initialiser shorter than the array leaves the remaining slots zero. -/
def initArray (slots : Nat) (init : List Nat) : List Nat :=
  init ++ List.replicate (slots - init.length) 0

/-- The initialiser of `huffman_tables` (huff.c:10-79); fields without an initialiser are
zero, as for every object of static storage. -/
def huffman_tables : Table_t → HuffmanTable
  | .LUM_DC_TABLE =>
    { offsets := initArray 17 [0,0,1,5,1,1,1,1,1,1,0,0,0,0,0,0,0],
      symbols := initArray 162 [0,1,2,3,4,5,6,7,8,9,10,11],
      codes := initArray 162 [0],
      EOB_code_index := 0, EOB_code_len := 0, ZRL_code_index := 0, ZRL_code_len := 0,
      set := false }
  | .LUM_AC_TABLE =>
    { offsets := initArray 17 [0,0,2,1,3,3,2,4,3,5,5,4,4,0,0,1,0x7d],
      symbols := initArray 162 [
        0x01,0x02,0x03,0x00,0x04,0x11,0x05,0x12,
        0x21,0x31,0x41,0x06,0x13,0x51,0x61,0x07,
        0x22,0x71,0x14,0x32,0x81,0x91,0xa1,0x08,
        0x23,0x42,0xb1,0xc1,0x15,0x52,0xd1,0xf0,
        0x24,0x33,0x62,0x72,0x82,0x09,0x0a,0x16,
        0x17,0x18,0x19,0x1a,0x25,0x26,0x27,0x28,
        0x29,0x2a,0x34,0x35,0x36,0x37,0x38,0x39,
        0x3a,0x43,0x44,0x45,0x46,0x47,0x48,0x49,
        0x4a,0x53,0x54,0x55,0x56,0x57,0x58,0x59,
        0x5a,0x63,0x64,0x65,0x66,0x67,0x68,0x69,
        0x6a,0x73,0x74,0x75,0x76,0x77,0x78,0x79,
        0x7a,0x83,0x84,0x85,0x86,0x87,0x88,0x89,
        0x8a,0x92,0x93,0x94,0x95,0x96,0x97,0x98,
        0x99,0x9a,0xa2,0xa3,0xa4,0xa5,0xa6,0xa7,
        0xa8,0xa9,0xaa,0xb2,0xb3,0xb4,0xb5,0xb6,
        0xb7,0xb8,0xb9,0xba,0xc2,0xc3,0xc4,0xc5,
        0xc6,0xc7,0xc8,0xc9,0xca,0xd2,0xd3,0xd4,
        0xd5,0xd6,0xd7,0xd8,0xd9,0xda,0xe1,0xe2,
        0xe3,0xe4,0xe5,0xe6,0xe7,0xe8,0xe9,0xea,
        0xf1,0xf2,0xf3,0xf4,0xf5,0xf6,0xf7,0xf8,
        0xf9,0xfa],
      codes := initArray 162 [0],
      EOB_code_index := 0, EOB_code_len := 0, ZRL_code_index := 0, ZRL_code_len := 0,
      set := false }
  | .COL_DC_TABLE =>
    { offsets := initArray 17 [0, 3, 1, 1, 1, 1, 1, 1, 1, 1, 1, 0, 0, 0, 0, 0],
      symbols := initArray 162 [0, 1, 2, 3, 4, 5, 6, 7, 8, 9, 10, 11],
      codes := initArray 162 [0],
      EOB_code_index := 0, EOB_code_len := 0, ZRL_code_index := 0, ZRL_code_len := 0,
      set := false }
  | .COL_AC_TABLE =>
    { offsets := initArray 17 [0, 0, 2, 1, 2, 4, 4, 3, 4, 7, 5, 4, 4, 0, 1, 2, 119],
      symbols := initArray 162 [
        0, 1, 2, 3, 17, 4, 5, 33,
        49, 6, 18, 65, 81, 7, 97, 113,
        19, 34, 50, 129, 8, 20, 66, 145,
        161, 177, 193, 9, 35, 51, 82, 240,
        21, 98, 114, 209, 10, 22, 36, 52,
        225, 37, 241, 23, 24, 25, 26, 38,
        39, 40, 41, 42, 53, 54, 55, 56,
        57, 58, 67, 68, 69, 70, 71, 72,
        73, 74, 83, 84, 85, 86, 87, 88,
        89, 90, 99, 100, 101, 102, 103, 104,
        105, 106, 115, 116, 117, 118, 119, 120,
        121, 122, 130, 131, 132, 133, 134, 135,
        136, 137, 138, 146, 147, 148, 149, 150,
        151, 152, 153, 154, 162, 163, 164, 165,
        166, 167, 168, 169, 170, 178, 179, 180,
        181, 182, 183, 184, 185, 186, 194, 195,
        196, 197, 198, 199, 200, 201, 202, 210,
        211, 212, 213, 214, 215, 216, 217, 218,
        226, 227, 228, 229, 230, 231, 232, 233,
        234, 242, 243, 244, 245, 246, 247, 248,
        249, 250],
      codes := initArray 162 [0],
      EOB_code_index := 0, EOB_code_len := 0, ZRL_code_index := 0, ZRL_code_len := 0,
      set := false }

/-- Inner loop of `generate_huff_codes` (huff.c:111-117) with `count` iterations left:
store the candidate at `codes[code_num]`, then increment `bit_rep` (`uint16_t`) and
`code_num` (`uint8_t`). A store outside the 162 slots of `codes` has no defined result. -/
def assignCodes : Nat → List Nat → Nat → Nat → Option (List Nat × Nat × Nat)
  | 0, codes, bit_rep, code_num => some (codes, bit_rep, code_num)
  | count + 1, codes, bit_rep, code_num =>
    if code_num < 162 then
      assignCodes count (codes.set code_num bit_rep) ((bit_rep + 1) % 65536)
        ((code_num + 1) % 256)
    else none

/-- Outer loop of `generate_huff_codes` (huff.c:109-120) with `todo` lengths left, the
current one being `i`: run the inner loop `offsets[i]` times, then shift `bit_rep` left by
one (`uint16_t`). -/
def lengthLoop (offsets : List Nat) : Nat → Nat → List Nat → Nat → Nat →
    Option (List Nat × Nat × Nat)
  | 0, _, codes, bit_rep, code_num => some (codes, bit_rep, code_num)
  | todo + 1, i, codes, bit_rep, code_num =>
    match offsets[i]? with
    | none => none
    | some count =>
      match assignCodes count codes bit_rep code_num with
      | none => none
      | some (codes, bit_rep, code_num) =>
        lengthLoop offsets todo (i + 1) codes ((bit_rep <<< 1) % 65536) code_num

/-- The linear search of huff.c:125-132 and 146-153 from position `i`, with `todo`
positions left before 162: the index of the first slot holding `fetch_bit`, and 0 (the
initial value of `index`) when no slot does. -/
def fetchIndex (symbols : List Nat) (fetch_bit : Nat) : Nat → Nat → Option Nat
  | 0, _ => some 0
  | todo + 1, i =>
    match symbols[i]? with
    | none => none
    | some s => if s = fetch_bit then some i else fetchIndex symbols fetch_bit todo (i + 1)

/-- The `while` loop of huff.c:138-141 and 159-162 (`sum_index` and `fetch_index` are
`uint8_t`); the result is `fetch_index` when the loop exits. Reading `offsets` outside its
slots has no defined result; `fuel` bounds the iterations and `fetchLength` gives it one
more than the number of slots, which the loop cannot use up. -/
def fetchLoop (offsets : List Nat) (index : Nat) : Nat → Nat → Nat → Option Nat
  | 0, _, _ => none
  | fuel + 1, sum_index, fetch_index =>
    if sum_index < index + 1 then
      match offsets[fetch_index]? with
      | none => none
      | some count =>
        fetchLoop offsets index fuel ((sum_index + count) % 256) ((fetch_index + 1) % 256)
    else some fetch_index

/-- Lines 135-142 and 156-163 of huff.c: run the loop from `sum_index = 0`,
`fetch_index = 0`, then `fetch_index--` (`uint8_t`). -/
def fetchLength (offsets : List Nat) (index : Nat) : Option Nat :=
  (fetchLoop offsets index (offsets.length + 1) 0 0).map (fun f => (f + 255) % 256)

/-- The function `generate_huff_codes` of huff.c:103-166. -/
def generate_huff_codes (table : HuffmanTable) (type : Table_t) : Option HuffmanTable :=
  match lengthLoop table.offsets 16 1 table.codes 0 0 with
  | none => none
  | some (codes, _, _) =>
    let table := { table with codes := codes, set := true }
    if type = .LUM_AC_TABLE ∨ type = .COL_AC_TABLE then
      match fetchIndex table.symbols 0xf0 162 0 with
      | none => none
      | some index =>
        match table.codes[index]?, fetchLength table.offsets index with
        | some _, some fetch_index =>
          let table := { table with ZRL_code_index := index, ZRL_code_len := fetch_index }
          match fetchIndex table.symbols 0x00 162 0 with
          | none => none
          | some index =>
            match table.codes[index]?, fetchLength table.offsets index with
            | some _, some fetch_index =>
              some { table with EOB_code_index := index, EOB_code_len := fetch_index }
            | _, _ => none
        | _, _ => none
    else some table

/-! ## The JPEG standard tables (ITU-T T.81, Annex K.3) -/

/-- The list BITS of each standard table: the number of codes of each length 1..16. -/
def jpegBits : Table_t → List Nat
  | .LUM_DC_TABLE => [0, 1, 5, 1, 1, 1, 1, 1, 1, 0, 0, 0, 0, 0, 0, 0]
  | .LUM_AC_TABLE => [0, 2, 1, 3, 3, 2, 4, 3, 5, 5, 4, 4, 0, 0, 1, 125]
  | .COL_DC_TABLE => [0, 3, 1, 1, 1, 1, 1, 1, 1, 1, 1, 0, 0, 0, 0, 0]
  | .COL_AC_TABLE => [0, 2, 1, 2, 4, 4, 3, 4, 7, 5, 4, 4, 0, 1, 2, 119]

/-- The list HUFFVAL of each standard table: the symbols in order of increasing code
length. -/
def jpegHuffval : Table_t → List Nat
  | .LUM_DC_TABLE => [0, 1, 2, 3, 4, 5, 6, 7, 8, 9, 10, 11]
  | .LUM_AC_TABLE =>
    [
     0x01, 0x02, 0x03, 0x00, 0x04, 0x11, 0x05, 0x12, 0x21, 0x31, 0x41, 0x06, 0x13, 0x51, 0x61, 0x07,
     0x22, 0x71, 0x14, 0x32, 0x81, 0x91, 0xa1, 0x08, 0x23, 0x42, 0xb1, 0xc1, 0x15, 0x52, 0xd1, 0xf0,
     0x24, 0x33, 0x62, 0x72, 0x82, 0x09, 0x0a, 0x16, 0x17, 0x18, 0x19, 0x1a, 0x25, 0x26, 0x27, 0x28,
     0x29, 0x2a, 0x34, 0x35, 0x36, 0x37, 0x38, 0x39, 0x3a, 0x43, 0x44, 0x45, 0x46, 0x47, 0x48, 0x49,
     0x4a, 0x53, 0x54, 0x55, 0x56, 0x57, 0x58, 0x59, 0x5a, 0x63, 0x64, 0x65, 0x66, 0x67, 0x68, 0x69,
     0x6a, 0x73, 0x74, 0x75, 0x76, 0x77, 0x78, 0x79, 0x7a, 0x83, 0x84, 0x85, 0x86, 0x87, 0x88, 0x89,
     0x8a, 0x92, 0x93, 0x94, 0x95, 0x96, 0x97, 0x98, 0x99, 0x9a, 0xa2, 0xa3, 0xa4, 0xa5, 0xa6, 0xa7,
     0xa8, 0xa9, 0xaa, 0xb2, 0xb3, 0xb4, 0xb5, 0xb6, 0xb7, 0xb8, 0xb9, 0xba, 0xc2, 0xc3, 0xc4, 0xc5,
     0xc6, 0xc7, 0xc8, 0xc9, 0xca, 0xd2, 0xd3, 0xd4, 0xd5, 0xd6, 0xd7, 0xd8, 0xd9, 0xda, 0xe1, 0xe2,
     0xe3, 0xe4, 0xe5, 0xe6, 0xe7, 0xe8, 0xe9, 0xea, 0xf1, 0xf2, 0xf3, 0xf4, 0xf5, 0xf6, 0xf7, 0xf8,
     0xf9, 0xfa]
  | .COL_DC_TABLE => [0, 1, 2, 3, 4, 5, 6, 7, 8, 9, 10, 11]
  | .COL_AC_TABLE =>
    [
     0x00, 0x01, 0x02, 0x03, 0x11, 0x04, 0x05, 0x21, 0x31, 0x06, 0x12, 0x41, 0x51, 0x07, 0x61, 0x71,
     0x13, 0x22, 0x32, 0x81, 0x08, 0x14, 0x42, 0x91, 0xa1, 0xb1, 0xc1, 0x09, 0x23, 0x33, 0x52, 0xf0,
     0x15, 0x62, 0x72, 0xd1, 0x0a, 0x16, 0x24, 0x34, 0xe1, 0x25, 0xf1, 0x17, 0x18, 0x19, 0x1a, 0x26,
     0x27, 0x28, 0x29, 0x2a, 0x35, 0x36, 0x37, 0x38, 0x39, 0x3a, 0x43, 0x44, 0x45, 0x46, 0x47, 0x48,
     0x49, 0x4a, 0x53, 0x54, 0x55, 0x56, 0x57, 0x58, 0x59, 0x5a, 0x63, 0x64, 0x65, 0x66, 0x67, 0x68,
     0x69, 0x6a, 0x73, 0x74, 0x75, 0x76, 0x77, 0x78, 0x79, 0x7a, 0x82, 0x83, 0x84, 0x85, 0x86, 0x87,
     0x88, 0x89, 0x8a, 0x92, 0x93, 0x94, 0x95, 0x96, 0x97, 0x98, 0x99, 0x9a, 0xa2, 0xa3, 0xa4, 0xa5,
     0xa6, 0xa7, 0xa8, 0xa9, 0xaa, 0xb2, 0xb3, 0xb4, 0xb5, 0xb6, 0xb7, 0xb8, 0xb9, 0xba, 0xc2, 0xc3,
     0xc4, 0xc5, 0xc6, 0xc7, 0xc8, 0xc9, 0xca, 0xd2, 0xd3, 0xd4, 0xd5, 0xd6, 0xd7, 0xd8, 0xd9, 0xda,
     0xe2, 0xe3, 0xe4, 0xe5, 0xe6, 0xe7, 0xe8, 0xe9, 0xea, 0xf2, 0xf3, 0xf4, 0xf5, 0xf6, 0xf7, 0xf8,
     0xf9, 0xfa]

/-- The standard Huffman codes (Tables K.3 to K.6), one entry `(symbol, length, code)` per
symbol in the order of HUFFVAL. -/
def jpegCodes : Table_t → List (Nat × Nat × Nat)
  | .LUM_DC_TABLE =>
    [
     (0x00, 2, 0b00), (0x01, 3, 0b010), (0x02, 3, 0b011),
     (0x03, 3, 0b100), (0x04, 3, 0b101), (0x05, 3, 0b110),
     (0x06, 4, 0b1110), (0x07, 5, 0b11110), (0x08, 6, 0b111110),
     (0x09, 7, 0b1111110), (0x0a, 8, 0b11111110), (0x0b, 9, 0b111111110)]
  | .LUM_AC_TABLE =>
    [
     (0x01, 2, 0b00), (0x02, 2, 0b01), (0x03, 3, 0b100),
     (0x00, 4, 0b1010), (0x04, 4, 0b1011), (0x11, 4, 0b1100),
     (0x05, 5, 0b11010), (0x12, 5, 0b11011), (0x21, 5, 0b11100),
     (0x31, 6, 0b111010), (0x41, 6, 0b111011), (0x06, 7, 0b1111000),
     (0x13, 7, 0b1111001), (0x51, 7, 0b1111010), (0x61, 7, 0b1111011),
     (0x07, 8, 0b11111000), (0x22, 8, 0b11111001), (0x71, 8, 0b11111010),
     (0x14, 9, 0b111110110), (0x32, 9, 0b111110111), (0x81, 9, 0b111111000),
     (0x91, 9, 0b111111001), (0xa1, 9, 0b111111010), (0x08, 10, 0b1111110110),
     (0x23, 10, 0b1111110111), (0x42, 10, 0b1111111000), (0xb1, 10, 0b1111111001),
     (0xc1, 10, 0b1111111010), (0x15, 11, 0b11111110110), (0x52, 11, 0b11111110111),
     (0xd1, 11, 0b11111111000), (0xf0, 11, 0b11111111001), (0x24, 12, 0b111111110100),
     (0x33, 12, 0b111111110101), (0x62, 12, 0b111111110110), (0x72, 12, 0b111111110111),
     (0x82, 15, 0b111111111000000), (0x09, 16, 0b1111111110000010), (0x0a, 16, 0b1111111110000011),
     (0x16, 16, 0b1111111110000100), (0x17, 16, 0b1111111110000101), (0x18, 16, 0b1111111110000110),
     (0x19, 16, 0b1111111110000111), (0x1a, 16, 0b1111111110001000), (0x25, 16, 0b1111111110001001),
     (0x26, 16, 0b1111111110001010), (0x27, 16, 0b1111111110001011), (0x28, 16, 0b1111111110001100),
     (0x29, 16, 0b1111111110001101), (0x2a, 16, 0b1111111110001110), (0x34, 16, 0b1111111110001111),
     (0x35, 16, 0b1111111110010000), (0x36, 16, 0b1111111110010001), (0x37, 16, 0b1111111110010010),
     (0x38, 16, 0b1111111110010011), (0x39, 16, 0b1111111110010100), (0x3a, 16, 0b1111111110010101),
     (0x43, 16, 0b1111111110010110), (0x44, 16, 0b1111111110010111), (0x45, 16, 0b1111111110011000),
     (0x46, 16, 0b1111111110011001), (0x47, 16, 0b1111111110011010), (0x48, 16, 0b1111111110011011),
     (0x49, 16, 0b1111111110011100), (0x4a, 16, 0b1111111110011101), (0x53, 16, 0b1111111110011110),
     (0x54, 16, 0b1111111110011111), (0x55, 16, 0b1111111110100000), (0x56, 16, 0b1111111110100001),
     (0x57, 16, 0b1111111110100010), (0x58, 16, 0b1111111110100011), (0x59, 16, 0b1111111110100100),
     (0x5a, 16, 0b1111111110100101), (0x63, 16, 0b1111111110100110), (0x64, 16, 0b1111111110100111),
     (0x65, 16, 0b1111111110101000), (0x66, 16, 0b1111111110101001), (0x67, 16, 0b1111111110101010),
     (0x68, 16, 0b1111111110101011), (0x69, 16, 0b1111111110101100), (0x6a, 16, 0b1111111110101101),
     (0x73, 16, 0b1111111110101110), (0x74, 16, 0b1111111110101111), (0x75, 16, 0b1111111110110000),
     (0x76, 16, 0b1111111110110001), (0x77, 16, 0b1111111110110010), (0x78, 16, 0b1111111110110011),
     (0x79, 16, 0b1111111110110100), (0x7a, 16, 0b1111111110110101), (0x83, 16, 0b1111111110110110),
     (0x84, 16, 0b1111111110110111), (0x85, 16, 0b1111111110111000), (0x86, 16, 0b1111111110111001),
     (0x87, 16, 0b1111111110111010), (0x88, 16, 0b1111111110111011), (0x89, 16, 0b1111111110111100),
     (0x8a, 16, 0b1111111110111101), (0x92, 16, 0b1111111110111110), (0x93, 16, 0b1111111110111111),
     (0x94, 16, 0b1111111111000000), (0x95, 16, 0b1111111111000001), (0x96, 16, 0b1111111111000010),
     (0x97, 16, 0b1111111111000011), (0x98, 16, 0b1111111111000100), (0x99, 16, 0b1111111111000101),
     (0x9a, 16, 0b1111111111000110), (0xa2, 16, 0b1111111111000111), (0xa3, 16, 0b1111111111001000),
     (0xa4, 16, 0b1111111111001001), (0xa5, 16, 0b1111111111001010), (0xa6, 16, 0b1111111111001011),
     (0xa7, 16, 0b1111111111001100), (0xa8, 16, 0b1111111111001101), (0xa9, 16, 0b1111111111001110),
     (0xaa, 16, 0b1111111111001111), (0xb2, 16, 0b1111111111010000), (0xb3, 16, 0b1111111111010001),
     (0xb4, 16, 0b1111111111010010), (0xb5, 16, 0b1111111111010011), (0xb6, 16, 0b1111111111010100),
     (0xb7, 16, 0b1111111111010101), (0xb8, 16, 0b1111111111010110), (0xb9, 16, 0b1111111111010111),
     (0xba, 16, 0b1111111111011000), (0xc2, 16, 0b1111111111011001), (0xc3, 16, 0b1111111111011010),
     (0xc4, 16, 0b1111111111011011), (0xc5, 16, 0b1111111111011100), (0xc6, 16, 0b1111111111011101),
     (0xc7, 16, 0b1111111111011110), (0xc8, 16, 0b1111111111011111), (0xc9, 16, 0b1111111111100000),
     (0xca, 16, 0b1111111111100001), (0xd2, 16, 0b1111111111100010), (0xd3, 16, 0b1111111111100011),
     (0xd4, 16, 0b1111111111100100), (0xd5, 16, 0b1111111111100101), (0xd6, 16, 0b1111111111100110),
     (0xd7, 16, 0b1111111111100111), (0xd8, 16, 0b1111111111101000), (0xd9, 16, 0b1111111111101001),
     (0xda, 16, 0b1111111111101010), (0xe1, 16, 0b1111111111101011), (0xe2, 16, 0b1111111111101100),
     (0xe3, 16, 0b1111111111101101), (0xe4, 16, 0b1111111111101110), (0xe5, 16, 0b1111111111101111),
     (0xe6, 16, 0b1111111111110000), (0xe7, 16, 0b1111111111110001), (0xe8, 16, 0b1111111111110010),
     (0xe9, 16, 0b1111111111110011), (0xea, 16, 0b1111111111110100), (0xf1, 16, 0b1111111111110101),
     (0xf2, 16, 0b1111111111110110), (0xf3, 16, 0b1111111111110111), (0xf4, 16, 0b1111111111111000),
     (0xf5, 16, 0b1111111111111001), (0xf6, 16, 0b1111111111111010), (0xf7, 16, 0b1111111111111011),
     (0xf8, 16, 0b1111111111111100), (0xf9, 16, 0b1111111111111101), (0xfa, 16, 0b1111111111111110)]
  | .COL_DC_TABLE =>
    [
     (0x00, 2, 0b00), (0x01, 2, 0b01), (0x02, 2, 0b10),
     (0x03, 3, 0b110), (0x04, 4, 0b1110), (0x05, 5, 0b11110),
     (0x06, 6, 0b111110), (0x07, 7, 0b1111110), (0x08, 8, 0b11111110),
     (0x09, 9, 0b111111110), (0x0a, 10, 0b1111111110), (0x0b, 11, 0b11111111110)]
  | .COL_AC_TABLE =>
    [
     (0x00, 2, 0b00), (0x01, 2, 0b01), (0x02, 3, 0b100),
     (0x03, 4, 0b1010), (0x11, 4, 0b1011), (0x04, 5, 0b11000),
     (0x05, 5, 0b11001), (0x21, 5, 0b11010), (0x31, 5, 0b11011),
     (0x06, 6, 0b111000), (0x12, 6, 0b111001), (0x41, 6, 0b111010),
     (0x51, 6, 0b111011), (0x07, 7, 0b1111000), (0x61, 7, 0b1111001),
     (0x71, 7, 0b1111010), (0x13, 8, 0b11110110), (0x22, 8, 0b11110111),
     (0x32, 8, 0b11111000), (0x81, 8, 0b11111001), (0x08, 9, 0b111110100),
     (0x14, 9, 0b111110101), (0x42, 9, 0b111110110), (0x91, 9, 0b111110111),
     (0xa1, 9, 0b111111000), (0xb1, 9, 0b111111001), (0xc1, 9, 0b111111010),
     (0x09, 10, 0b1111110110), (0x23, 10, 0b1111110111), (0x33, 10, 0b1111111000),
     (0x52, 10, 0b1111111001), (0xf0, 10, 0b1111111010), (0x15, 11, 0b11111110110),
     (0x62, 11, 0b11111110111), (0x72, 11, 0b11111111000), (0xd1, 11, 0b11111111001),
     (0x0a, 12, 0b111111110100), (0x16, 12, 0b111111110101), (0x24, 12, 0b111111110110),
     (0x34, 12, 0b111111110111), (0xe1, 14, 0b11111111100000), (0x25, 15, 0b111111111000010),
     (0xf1, 15, 0b111111111000011), (0x17, 16, 0b1111111110001000), (0x18, 16, 0b1111111110001001),
     (0x19, 16, 0b1111111110001010), (0x1a, 16, 0b1111111110001011), (0x26, 16, 0b1111111110001100),
     (0x27, 16, 0b1111111110001101), (0x28, 16, 0b1111111110001110), (0x29, 16, 0b1111111110001111),
     (0x2a, 16, 0b1111111110010000), (0x35, 16, 0b1111111110010001), (0x36, 16, 0b1111111110010010),
     (0x37, 16, 0b1111111110010011), (0x38, 16, 0b1111111110010100), (0x39, 16, 0b1111111110010101),
     (0x3a, 16, 0b1111111110010110), (0x43, 16, 0b1111111110010111), (0x44, 16, 0b1111111110011000),
     (0x45, 16, 0b1111111110011001), (0x46, 16, 0b1111111110011010), (0x47, 16, 0b1111111110011011),
     (0x48, 16, 0b1111111110011100), (0x49, 16, 0b1111111110011101), (0x4a, 16, 0b1111111110011110),
     (0x53, 16, 0b1111111110011111), (0x54, 16, 0b1111111110100000), (0x55, 16, 0b1111111110100001),
     (0x56, 16, 0b1111111110100010), (0x57, 16, 0b1111111110100011), (0x58, 16, 0b1111111110100100),
     (0x59, 16, 0b1111111110100101), (0x5a, 16, 0b1111111110100110), (0x63, 16, 0b1111111110100111),
     (0x64, 16, 0b1111111110101000), (0x65, 16, 0b1111111110101001), (0x66, 16, 0b1111111110101010),
     (0x67, 16, 0b1111111110101011), (0x68, 16, 0b1111111110101100), (0x69, 16, 0b1111111110101101),
     (0x6a, 16, 0b1111111110101110), (0x73, 16, 0b1111111110101111), (0x74, 16, 0b1111111110110000),
     (0x75, 16, 0b1111111110110001), (0x76, 16, 0b1111111110110010), (0x77, 16, 0b1111111110110011),
     (0x78, 16, 0b1111111110110100), (0x79, 16, 0b1111111110110101), (0x7a, 16, 0b1111111110110110),
     (0x82, 16, 0b1111111110110111), (0x83, 16, 0b1111111110111000), (0x84, 16, 0b1111111110111001),
     (0x85, 16, 0b1111111110111010), (0x86, 16, 0b1111111110111011), (0x87, 16, 0b1111111110111100),
     (0x88, 16, 0b1111111110111101), (0x89, 16, 0b1111111110111110), (0x8a, 16, 0b1111111110111111),
     (0x92, 16, 0b1111111111000000), (0x93, 16, 0b1111111111000001), (0x94, 16, 0b1111111111000010),
     (0x95, 16, 0b1111111111000011), (0x96, 16, 0b1111111111000100), (0x97, 16, 0b1111111111000101),
     (0x98, 16, 0b1111111111000110), (0x99, 16, 0b1111111111000111), (0x9a, 16, 0b1111111111001000),
     (0xa2, 16, 0b1111111111001001), (0xa3, 16, 0b1111111111001010), (0xa4, 16, 0b1111111111001011),
     (0xa5, 16, 0b1111111111001100), (0xa6, 16, 0b1111111111001101), (0xa7, 16, 0b1111111111001110),
     (0xa8, 16, 0b1111111111001111), (0xa9, 16, 0b1111111111010000), (0xaa, 16, 0b1111111111010001),
     (0xb2, 16, 0b1111111111010010), (0xb3, 16, 0b1111111111010011), (0xb4, 16, 0b1111111111010100),
     (0xb5, 16, 0b1111111111010101), (0xb6, 16, 0b1111111111010110), (0xb7, 16, 0b1111111111010111),
     (0xb8, 16, 0b1111111111011000), (0xb9, 16, 0b1111111111011001), (0xba, 16, 0b1111111111011010),
     (0xc2, 16, 0b1111111111011011), (0xc3, 16, 0b1111111111011100), (0xc4, 16, 0b1111111111011101),
     (0xc5, 16, 0b1111111111011110), (0xc6, 16, 0b1111111111011111), (0xc7, 16, 0b1111111111100000),
     (0xc8, 16, 0b1111111111100001), (0xc9, 16, 0b1111111111100010), (0xca, 16, 0b1111111111100011),
     (0xd2, 16, 0b1111111111100100), (0xd3, 16, 0b1111111111100101), (0xd4, 16, 0b1111111111100110),
     (0xd5, 16, 0b1111111111100111), (0xd6, 16, 0b1111111111101000), (0xd7, 16, 0b1111111111101001),
     (0xd8, 16, 0b1111111111101010), (0xd9, 16, 0b1111111111101011), (0xda, 16, 0b1111111111101100),
     (0xe2, 16, 0b1111111111101101), (0xe3, 16, 0b1111111111101110), (0xe4, 16, 0b1111111111101111),
     (0xe5, 16, 0b1111111111110000), (0xe6, 16, 0b1111111111110001), (0xe7, 16, 0b1111111111110010),
     (0xe8, 16, 0b1111111111110011), (0xe9, 16, 0b1111111111110100), (0xea, 16, 0b1111111111110101),
     (0xf2, 16, 0b1111111111110110), (0xf3, 16, 0b1111111111110111), (0xf4, 16, 0b1111111111111000),
     (0xf5, 16, 0b1111111111111001), (0xf6, 16, 0b1111111111111010), (0xf7, 16, 0b1111111111111011),
     (0xf8, 16, 0b1111111111111100), (0xf9, 16, 0b1111111111111101), (0xfa, 16, 0b1111111111111110)]
/-! ## Bit-stream writer (huff.c:168-185) -/

/-- The writer state behind the pointer arguments of `write_buffer`: the accumulator
`*buf` (`uint16_t`), the cursor `*nbit` (`uint8_t`) and the 16-bit units handed to
`fwrite` on `fptr` so far, in order. -/
structure BitWriter where
  buf : Nat
  nbit : Nat
  stream : List Nat
deriving DecidableEq

/-- One iteration of the loop of `write_buffer` (huff.c:171-183) apart from the shift of
`code_to_write`: `top` is the tested bit 15. `bitset` is `*buf |= 1 << (15-*nbit)` and
`bitclear` is `*buf &= ~(1 << (15-*nbit))`, computed in `int` and stored in a `uint16_t`.
A cursor above 15 makes the shift count negative, which has no defined result. -/
def writeBit (s : BitWriter) (top : Bool) : Option BitWriter :=
  if s.nbit > 15 then none
  else
    let buf :=
      if top then (s.buf ||| (1 <<< (15 - s.nbit))) % 65536
      else (s.buf &&& (0xFFFFFFFF ^^^ (1 <<< (15 - s.nbit)))) % 65536
    if s.nbit = 15 then
      let tmp := (buf <<< 8) % 65536
      let tmp := (tmp ||| (buf >>> 8)) % 65536
      some { buf := buf, nbit := 0, stream := s.stream ++ [tmp] }
    else
      some { buf := buf, nbit := (s.nbit + 1) % 256, stream := s.stream }

/-- The loop of `write_buffer` (huff.c:170-184) with `todo` iterations left. -/
def writeLoop : Nat → Nat → BitWriter → Option BitWriter
  | 0, _, s => some s
  | todo + 1, code_to_write, s =>
    match writeBit s (decide ((code_to_write &&& (1 <<< (16 - 1))) >>> (16 - 1) ≠ 0)) with
    | none => none
    | some s => writeLoop todo ((code_to_write <<< 1) % 65536) s

/-- The function `write_buffer` of huff.c:168-185. The first shift is by `16 - len`,
stored back in a `uint16_t`, so it is taken modulo `2 ^ 16` (this covers `len = 0`, where
the shifted `int` can pass `INT_MAX` and the store keeps the low 16 bits, all zero); for
`len > 16` the count is out of range and the call has no defined result. -/
def write_buffer (s : BitWriter) (code_to_write len : Nat) : Option BitWriter :=
  if len > 16 then none
  else writeLoop len (((code_to_write % 65536) <<< (16 - len)) % 65536) s

/-- A sequence of `write_buffer` calls `(code, len)` on one writer, in order. -/
def writeAll : BitWriter → List (Nat × Nat) → Option BitWriter
  | s, [] => some s
  | s, (code, len) :: rest =>
    match write_buffer s code len with
    | none => none
    | some s => writeAll s rest

/-- The low `len` bits of `code`, most significant first. -/
def bitsMSB (code len : Nat) : List Bool :=
  (List.range len).map (fun i => code.testBit (len - 1 - i))

/-- The number written by a bit string, most significant bit first. -/
def wordOfBits (bits : List Bool) : Nat :=
  bits.foldl (fun acc b => 2 * acc + b.toNat) 0

/-- A 16-bit word with its high and low byte exchanged. -/
def bswap16 (w : Nat) : Nat := (w % 256) * 256 + w / 256

/-- The bit string of a call sequence: the low `len` bits of each code, in call order. -/
def callBits (calls : List (Nat × Nat)) : List Bool :=
  calls.flatMap (fun c => bitsMSB c.1 c.2)

/-- The `m`-th unit of a bit string: bits `16m .. 16m+15` as a word, byte-swapped. -/
def unitAt (bits : List Bool) (m : Nat) : Nat :=
  bswap16 (wordOfBits ((bits.drop (16 * m)).take 16))

/-- The units of a bit string: one for each complete group of 16 bits. -/
def unitsOf (bits : List Bool) : List Nat :=
  (List.range (bits.length / 16)).map (unitAt bits)

/-- The bits of a list written one after the other, each as one iteration of the loop of
`write_buffer`. -/
def writeBits : BitWriter → List Bool → Option BitWriter
  | s, [] => some s
  | s, b :: rest =>
    match writeBit s b with
    | none => none
    | some s => writeBits s rest

/-- The writer invariant: the cursor counts the pending bits `P`, at most 15 of them, and
they are the top bits of the accumulator. -/
def Pending (s : BitWriter) (P : List Bool) : Prop :=
  s.nbit = P.length ∧ P.length ≤ 15 ∧ (s.buf % 65536) >>> (16 - P.length) = wordOfBits P

/-! ## Reading a generated table -/

/-- The code length of each index of a table: for every length `L` in turn, `offsets[L]`
indices lie in the bucket of `L`. -/
def bucketLengths (offsets : List Nat) : List Nat :=
  (List.range offsets.length).flatMap (fun L => List.replicate (offsets.getD L 0) L)

/-- The codes of a table read against its `offsets` and `symbols`: one entry
`(symbol, length, code)` per index that lies in a bucket. -/
def codeTable (t : HuffmanTable) : List (Nat × Nat × Nat) :=
  List.zipWith (fun s lc => (s, lc.1, lc.2)) t.symbols
    (List.zip (bucketLengths t.offsets) t.codes)

/-- The bit string of a table entry: the low `length` bits of the code, most significant
first. -/
def codeString (e : Nat × Nat × Nat) : List Bool := bitsMSB e.2.2 e.2.1

/-- No entry's bit string is the start of the bit string of an entry at another index. -/
def codesPrefixFree (entries : List (Nat × Nat × Nat)) : Prop :=
  ∀ i, i < entries.length → ∀ j, j < entries.length → i ≠ j →
    ¬ (codeString (entries.getD i (0, 0, 0)) <+: codeString (entries.getD j (0, 0, 0)))

instance (entries : List (Nat × Nat × Nat)) : Decidable (codesPrefixFree entries) :=
  inferInstanceAs (Decidable
    (∀ i, i < entries.length → ∀ j, j < entries.length → i ≠ j →
      ¬ (codeString (entries.getD i (0, 0, 0)) <+: codeString (entries.getD j (0, 0, 0)))))

/-- The call returned a value and the value satisfies `P`. -/
def returnsWith {α : Type} (o : Option α) (P : α → Prop) : Prop :=
  ∃ a, o = some a ∧ P a

instance {α : Type} (o : Option α) (P : α → Prop) [DecidablePred P] :
    Decidable (returnsWith o P) :=
  match o with
  | none => isFalse (fun ⟨_, h, _⟩ => Option.noConfusion h)
  | some a =>
    if h : P a then isTrue ⟨a, rfl, h⟩
    else isFalse (fun ⟨b, hb, hp⟩ => h (by cases hb; exact hp))

/-- The start of the range of 16-bit words whose leading bits are the bit string of the
entry. -/
def codeLo (e : Nat × Nat × Nat) : Nat := (e.2.2 % 2 ^ e.2.1) * 2 ^ (16 - e.2.1)

/-- The end (exclusive) of the range of 16-bit words whose leading bits are the bit
string of the entry. -/
def codeHi (e : Nat × Nat × Nat) : Nat := codeLo e + 2 ^ (16 - e.2.1)

/-- The ranges of `a` and of the entries after it follow one another without overlap, and
no length exceeds 16. -/
def codesStackedFrom : Nat × Nat × Nat → List (Nat × Nat × Nat) → Bool
  | a, [] => decide (a.2.1 ≤ 16)
  | a, b :: rest =>
    decide (a.2.1 ≤ 16) && decide (codeHi a ≤ codeLo b) && codesStackedFrom b rest

/-- The ranges of the entries follow one another without overlap, and no length exceeds
16. -/
def codesStacked : List (Nat × Nat × Nat) → Bool
  | [] => true
  | a :: rest => codesStackedFrom a rest

/-! ## Colour conversion (image.h, image.c:67-75) -/

inductive allocation_type where
  | NO_ALLOCATION
  | SELF_ALLOCATED
  | STB_ALLOCATED
deriving DecidableEq

inductive colour_space_type where
  | MONOCHROME
  | YCBCR
  | RGB
deriving DecidableEq

/-- The struct `Image` of image.h; `data` and `YCbCr_data` are the byte buffers behind
the two pointers. -/
structure Image where
  width : Int
  height : Int
  channels : Int
  size : Nat
  data : List Nat
  YCbCr_data : List Nat
  colour_space : colour_space_type
  allocation_ : allocation_type
deriving DecidableEq

/-- How a call ends: it returns, it leaves the program through `ON_ERROR_EXIT` with a
message, or its behaviour is not defined by C. -/
inductive Outcome (α : Type) where
  | returns (value : α)
  | exits (message : String)
  | undefined
deriving DecidableEq

/-! ### The `double` arithmetic of image.c:71-73

The weighted sums are computed in `double`. Every value that occurs is a multiple of
`2 ^ -56` (the constants have at most 56 binary places and the samples are integers), so a
`double` is kept as the integer `n` that stands for `n / 2 ^ 56`, and each operation gives
its exact result rounded to 53 significant bits. -/

/-- The number of binary digits of `a`, counted in at most `fuel` halvings. -/
def bitLengthFrom : Nat → Nat → Nat
  | 0, _ => 0
  | fuel + 1, a => if a = 0 then 0 else bitLengthFrom fuel (a / 2) + 1

/-- The number of binary digits of `a` (0 for 0). -/
def bitLength (a : Nat) : Nat := bitLengthFrom a a

/-- The integer nearest to `num / den`, a tie going to the even one. -/
def roundHalfEven (num den : Nat) : Nat :=
  if den < 2 * (num % den) ∨ (2 * (num % den) = den ∧ (num / den) % 2 = 1) then num / den + 1
  else num / den

/-- Rounding to `double` (IEEE 754 binary64, round to nearest, ties to even) on the grid of
this development, where the integer `n` stands for the value `n / 2 ^ 56`. The exact value
is `num / den` grid units; a `double` keeps 53 significant bits, so with `k` the number of
bits that `num / den` has beyond 53 the result is the multiple of `2 ^ k` nearest to it.
This is the rounding of the machine whenever `num / den` has at least 53 bits or `den`
divides `num`, which holds at every use below; the values stay below `2 ^ 9`, far from
overflow. -/
def roundDouble (num den : Nat) : Nat :=
  2 ^ (bitLength (num / den) - 53) * roundHalfEven num (den * 2 ^ (bitLength (num / den) - 53))

/-- The `double` that a decimal constant with three decimals denotes: the `double` nearest
to `thousandths / 1000`. -/
def doubleLiteral (thousandths : Nat) : Int :=
  Int.ofNat (roundDouble (thousandths * 2 ^ 56) 1000)

/-- The rounding of an exact sum, difference or product of two `double`s. -/
def doubleRound (n : Int) : Int :=
  Int.sign n * Int.ofNat (roundDouble n.natAbs 1)

/-- The product `c * s` of a `double` and a byte sample, which is promoted to `int` and
converted to `double` without loss. -/
def doubleMulSample (c : Int) (s : Nat) : Int := doubleRound (c * Int.ofNat s)

/-- The sum `a + b` of two `double`s. -/
def doubleAdd (a b : Int) : Int := doubleRound (a + b)

/-- The difference `a - b` of two `double`s. -/
def doubleSub (a b : Int) : Int := doubleRound (a - b)

/-- The weighted sum of image.c:71, `0.257 * R + 0.504 * G + 0.098 * B`, evaluated from
left to right in `double`. -/
def ySum (r g b : Nat) : Int :=
  doubleAdd (doubleAdd (doubleMulSample (doubleLiteral 257) r)
    (doubleMulSample (doubleLiteral 504) g)) (doubleMulSample (doubleLiteral 98) b)

/-- The weighted sum of image.c:72, `-0.148 * R - 0.291 * G + 0.439 * B`, evaluated from
left to right in `double`. -/
def cbSum (r g b : Nat) : Int :=
  doubleAdd (doubleSub (doubleMulSample (-(doubleLiteral 148)) r)
    (doubleMulSample (doubleLiteral 291) g)) (doubleMulSample (doubleLiteral 439) b)

/-- The weighted sum of image.c:73, `0.439 * R - 0.368 * G - 0.071 * B`, evaluated from
left to right in `double`. -/
def crSum (r g b : Nat) : Int :=
  doubleSub (doubleSub (doubleMulSample (doubleLiteral 439) r)
    (doubleMulSample (doubleLiteral 368) g)) (doubleMulSample (doubleLiteral 71) b)

/-- The conversion `(uint8_t)x` of the `double` `x / 2 ^ 56`: the fraction is discarded
(truncation toward zero) and a truncated value in `0..255` is the result. For a truncated
value `t` outside `0..255` C defines no result; `outside t` is what the conversion then
gives, `none` when nothing is assumed about it. -/
def toUint8With (outside : Int → Option Nat) (x : Int) : Option Nat :=
  if 0 ≤ Int.tdiv x (Int.ofNat (2 ^ 56)) ∧ Int.tdiv x (Int.ofNat (2 ^ 56)) ≤ 255 then
    some (Int.tdiv x (Int.ofNat (2 ^ 56))).toNat
  else outside (Int.tdiv x (Int.ofNat (2 ^ 56)))

/-- The reading of C itself: a conversion to `uint8_t` of a value whose truncation lies
outside `0..255` has no result. -/
def strictC : Int → Option Nat := fun _ => none

/-- The reading on a target: the conversion of a value whose truncation `t` lies outside
`0..255` gives the byte `conv t % 256`, whatever rule `conv` the target follows. -/
def onTarget (conv : Int → Nat) : Int → Option Nat := fun t => some (conv t % 256)

/-- The rule of a target that converts through a wider integer and keeps the low byte
(the value modulo 256), as the x86-64 conversion followed by a byte move does. -/
def wrapLowByte (t : Int) : Nat := (t % 256).toNat

/-- The conversion `(uint8_t)x` as C defines it. -/
def toUint8 (x : Int) : Option Nat := toUint8With strictC x

/-- The body of the loop of `generate_ycbcr_data` (image.c:71-73) for one pixel: each
weighted sum is converted to `uint8_t` first, the offset 16 or 128 is added afterwards (in
`int`), and the result is stored in an `unsigned char`. -/
def ycbcr_pixel_with (outside : Int → Option Nat) (r g b : Nat) : Option (Nat × Nat × Nat) :=
  match toUint8With outside (ySum r g b), toUint8With outside (cbSum r g b),
        toUint8With outside (crSum r g b) with
  | some y, some cb, some cr => some ((y + 16) % 256, (cb + 128) % 256, (cr + 128) % 256)
  | _, _, _ => none

/-- The pixel as C defines it: no result when one of the three conversions has none. -/
def ycbcr_pixel (r g b : Nat) : Option (Nat × Nat × Nat) := ycbcr_pixel_with strictC r g b

/-- The formula of the interface: the values `Y`, `Cb`, `Cr` with their offsets, in exact
arithmetic over thousandths, truncated to an integer. -/
def ycbcrFormula (r g b : Nat) : Int × Int × Int :=
  (Int.tdiv (257 * r + 504 * g + 98 * b + 16000) 1000,
   Int.tdiv (-148 * r - 291 * g + 439 * b + 128000) 1000,
   Int.tdiv (439 * r - 368 * g - 71 * b + 128000) 1000)

/-- Modelled from the spec: the macro `ON_ERROR_EXIT` of utils.h, which is not among the
sources. When the condition holds the program is left at once with the message, otherwise
the function goes on. -/
def ON_ERROR_EXIT {α : Type} (cond : Bool) (message : String) (rest : Outcome α) :
    Outcome α :=
  if cond then .exits message else rest

/-- The loop of `generate_ycbcr_data` (image.c:70-74): `p` is the offset of both pointers
from the start of their buffers, the loop ends when `p` reaches `size`, and each round
reads three bytes of `data`, stores three bytes of the output buffer and moves on by
`channels`. A read or store outside the buffers, or a conversion without a result under
`outside`, has no defined result; `fuel` bounds the rounds and `generate_ycbcr_data_with`
gives it one more than the length of `data`, which the loop cannot use up. -/
def ycbcrLoop (outside : Int → Option Nat) (img : Image) : Nat → Nat → List Nat →
    Option (List Nat)
  | 0, _, _ => none
  | fuel + 1, p, out =>
    if p = img.size then some out
    else
      match img.data[p]?, img.data[p + 1]?, img.data[p + 2]? with
      | some r, some g, some b =>
        match ycbcr_pixel_with outside r g b with
        | some (y, cb, cr) =>
          if p + 2 < out.length then
            ycbcrLoop outside img fuel (p + img.channels.toNat)
              (((out.set p y).set (p + 1) cb).set (p + 2) cr)
          else none
        | none => none
      | _, _, _ => none

/-- The function `generate_ycbcr_data` of image.c:67-75, with `outside` for the conversions
to `uint8_t` that C leaves undefined. -/
def generate_ycbcr_data_with (outside : Int → Option Nat) (img : Image) : Outcome Image :=
  ON_ERROR_EXIT
    (!(decide (img.allocation_ ≠ .NO_ALLOCATION) && decide (img.channels = 3)))
    "The input image must have 3 channels."
    (match ycbcrLoop outside img (img.data.length + 1) 0 img.YCbCr_data with
     | some out => .returns { img with YCbCr_data := out }
     | none => .undefined)

/-- The function `generate_ycbcr_data` of image.c:67-75 as C defines it: a pixel whose
conversion has no result leaves the call without a defined result. -/
def generate_ycbcr_data (img : Image) : Outcome Image := generate_ycbcr_data_with strictC img

/-! ## Further notions of the specification -/

/-- The 16-bit word completed at the last flush of a writer that has written `bits` since
cursor 0: the last complete group of 16 bits, most significant bit first (the stream gets
its byte swap), and `W` when no group is complete yet. -/
def lastWordOf (W : Nat) (bits : List Bool) : Nat :=
  if bits.length < 16 then W
  else wordOfBits ((bits.drop (16 * (bits.length / 16 - 1))).take 16)

/-- The running code value at the start of length `L` in the canonical assignment:
`first(1) = 0` and `first(L+1) = 2 * (first(L) + offsets[L]) mod 2^16`. -/
def canonFirst (offsets : List Nat) : Nat → Nat
  | 0 => 0
  | L + 1 => if L = 0 then 0 else (2 * (canonFirst offsets L + offsets.getD L 0)) % 65536

/-- The index of the first symbol of length `L`: `offsets[1] + ... + offsets[L-1]`. -/
def bucketStart (offsets : List Nat) : Nat → Nat
  | 0 => 0
  | L + 1 => if L = 0 then 0 else bucketStart offsets L + offsets.getD L 0

/-- The running code value at the start of length `L` computed without any reduction
modulo `2^16`: `first(1) = 0` and `first(L+1) = 2 * (first(L) + offsets[L])`. -/
def exactFirst (offsets : List Nat) : Nat → Nat
  | 0 => 0
  | L + 1 => if L = 0 then 0 else 2 * (exactFirst offsets L + offsets.getD L 0)

/-- The Kraft sum of the lengths `1..L`: the sum of `offsets[l] * 2^(16-l)`. -/
def kraftSum (offsets : List Nat) (L : Nat) : Nat :=
  ((List.range L).map (fun k => offsets.getD (k + 1) 0 * 2 ^ (16 - (k + 1)))).sum

/-- The sum `offsets[0] + ... + offsets[L]` of the slots up to and including `L`. -/
def offsetsUpTo (offsets : List Nat) (L : Nat) : Nat := (offsets.take (L + 1)).sum

/-- The number of symbols of each table: 12 for the DC tables, 162 for the AC tables. -/
def symbolCount : Table_t → Nat
  | .LUM_DC_TABLE => 12
  | .LUM_AC_TABLE => 162
  | .COL_DC_TABLE => 12
  | .COL_AC_TABLE => 162

/-- The position `i` is the first one of `symbols[0..161]` that holds `v`. -/
def IsFirstIndex (symbols : List Nat) (v i : Nat) : Prop :=
  i < 162 ∧ symbols[i]? = some v ∧ ∀ k, k < i → symbols[k]? ≠ some v

instance (symbols : List Nat) (v i : Nat) : Decidable (IsFirstIndex symbols v i) :=
  inferInstanceAs (Decidable
    (i < 162 ∧ symbols[i]? = some v ∧ ∀ k, k < i → symbols[k]? ≠ some v))

/-- The index that the search for `v` leaves: the first position of `v` in
`symbols[0..161]`, and 0 when `v` is at no position. -/
def IsCachedIndex (symbols : List Nat) (v i : Nat) : Prop :=
  IsFirstIndex symbols v i ∨ (i = 0 ∧ ∀ k, k < 162 → symbols[k]? ≠ some v)

/-- The length `L` is the least one with `offsets[0] + ... + offsets[L] >= i + 1`: the
bucket that holds the index `i`. -/
def IsBucketOf (offsets : List Nat) (i L : Nat) : Prop :=
  L ≤ 16 ∧ i + 1 ≤ offsetsUpTo offsets L ∧ ∀ M, M < L → offsetsUpTo offsets M < i + 1

instance (offsets : List Nat) (i L : Nat) : Decidable (IsBucketOf offsets i L) :=
  inferInstanceAs (Decidable
    (L ≤ 16 ∧ i + 1 ≤ offsetsUpTo offsets L ∧ ∀ M, M < L → offsetsUpTo offsets M < i + 1))

/-- A table with a used slot 0: `offsets[0] = 100`, `offsets[1] = 160`, the value 0x00 at
the positions 0..149 of `symbols` and the value 0xF0 at position 150. -/
def wrapTable : HuffmanTable :=
  { offsets := initArray 17 [100, 160],
    symbols := List.replicate 150 0x00 ++ [0xF0] ++ List.replicate 11 0x01,
    codes := initArray 162 [0],
    EOB_code_index := 0, EOB_code_len := 0, ZRL_code_index := 0, ZRL_code_len := 0,
    set := false }

/-! ## Theorems: zigzag scan -/

/-- The loop writes the converted sample of the cell of each step and nothing else. -/
theorem zigzagLoop_eq {α : Type} (toInt : α → Int) (Matrix : Int → Int → α) :
    ∀ (n i : Nat) (s : ZigZag) (output : Nat → Int),
      (∀ j, j < n → inBlock (zigzagAdvance^[j] s).row (zigzagAdvance^[j] s).col = true) →
      zigzagLoop toInt Matrix n i s output =
        some (fun k => if i ≤ k ∧ k < i + n then
          toInt (Matrix (zigzagAdvance^[k - i] s).row (zigzagAdvance^[k - i] s).col)
          else output k) := by
  intro n
  induction n with
  | zero =>
    intro i s output _
    simp only [zigzagLoop, Option.some.injEq]
    funext k
    have h0 : ¬ (i ≤ k ∧ k < i + 0) := by omega
    rw [if_neg h0]
  | succ n ih =>
    intro i s output h
    have h0 : inBlock s.row s.col = true := by simpa using h 0 (Nat.succ_pos n)
    have hs : ∀ j, j < n → inBlock (zigzagAdvance^[j] (zigzagAdvance s)).row
        (zigzagAdvance^[j] (zigzagAdvance s)).col = true := by
      intro j hj
      have := h (j + 1) (Nat.succ_lt_succ hj)
      simpa [Function.iterate_succ_apply] using this
    simp only [zigzagLoop, h0, if_true]
    rw [ih (i + 1) (zigzagAdvance s) _ hs]
    congr 1
    funext k
    by_cases hk : k = i
    · subst hk
      have h1 : ¬ (k + 1 ≤ k ∧ k < k + 1 + n) := by omega
      have h2 : k ≤ k ∧ k < k + (n + 1) := by omega
      simp [h1, h2]
    · by_cases hr : i + 1 ≤ k ∧ k < i + 1 + n
      · have h2 : i ≤ k ∧ k < i + (n + 1) := by omega
        have h3 : k - i = (k - (i + 1)) + 1 := by omega
        rw [if_pos hr, if_pos h2, h3, Function.iterate_succ_apply]
      · have h2 : ¬ (i ≤ k ∧ k < i + (n + 1)) := by omega
        rw [if_neg hr, if_neg h2, Function.update_noteq hk]

theorem zigzagCell_inBlock : ∀ i : Fin 64, inBlock (zigzagCell i).1 (zigzagCell i).2 = true := by
  decide

theorem zigzagCell_eq_jpeg : ∀ i : Fin 64, zigzagCell i = jpegZigzag.getD i (0, 0) := by decide

/-- Claim C1. For every 8x8 grid, `zig_zag_order` returns and leaves in `output[i]`, for
every `i` in 0..63, the converted sample of the cell at position `i` of the JPEG zigzag scan
(anti-diagonals in increasing order, the row increasing along odd and decreasing along even
diagonals). The scan has 64 cells, starts (0,0),(0,1),(1,0),(2,0),(1,1),(0,2),(0,3),(1,2),
(2,1),(3,0),(4,0), ends at (7,7), and is the zigzag sequence of the standard. For
integer-valued samples the conversion `toInt` is the identity. -/
theorem zig_zag_order_jpeg_scan {α : Type} (toInt : α → Int) (output : Nat → Int)
    (Matrix : Int → Int → α) :
    ∃ out, zig_zag_order toInt output Matrix = some out ∧
      (∀ i : Fin 64, out i =
        toInt (Matrix (jpegZigzag.getD i (0, 0)).1 (jpegZigzag.getD i (0, 0)).2)) ∧
      jpegZigzag.length = 64 ∧
      jpegZigzag.take 11 =
        [(0,0),(0,1),(1,0),(2,0),(1,1),(0,2),(0,3),(1,2),(2,1),(3,0),(4,0)] ∧
      jpegZigzag.getLast? = some (7, 7) ∧
      jpegZigzag.map (fun p => 8 * p.1 + p.2) = jpegNaturalOrder := by
  refine ⟨_, zigzagLoop_eq toInt Matrix 64 0 zigzagStart output ?_, ?_, by decide, by decide,
    by decide, by decide⟩
  · intro j hj
    exact zigzagCell_inBlock ⟨j, hj⟩
  · intro i
    have hi : (0 ≤ i.val ∧ i.val < 0 + 64) := ⟨Nat.zero_le _, by omega⟩
    have := zigzagCell_eq_jpeg i
    simp only [zigzagCell] at this
    simp only [if_pos hi, Nat.sub_zero, ← this]


theorem zigzagCell_injective : ∀ i j : Fin 64, zigzagCell i = zigzagCell j → i = j := by
  decide!

theorem zigzagCell_surjective : ∀ r c : Fin 8, ∃ i : Fin 64,
    zigzagCell i = (Int.ofNat r, Int.ofNat c) := by
  decide!

/-- A cell that no remaining step reads keeps its value in the inverse scan. -/
theorem inverse_scan_untouched (output : Nat → Int) (r c : Int) :
    ∀ (n i : Nat) (grid : Int → Int → Int),
      (∀ j, i ≤ j → j < i + n → zigzagCell j ≠ (r, c)) →
      inverse_scan output n i grid r c = grid r c := by
  intro n
  induction n with
  | zero => intro i grid _; rfl
  | succ n ih =>
    intro i grid h
    simp only [inverse_scan]
    rw [ih (i + 1) _ (fun j h1 h2 => h j (by omega) (by omega))]
    have : (r, c) ≠ zigzagCell i := fun e => h i (Nat.le_refl _) (by omega) e.symm
    rw [if_neg this]

/-- The inverse scan leaves `output[k]` at the cell of step `k` when no later step reads
that cell again. -/
theorem inverse_scan_at (output : Nat → Int) (k : Nat) :
    ∀ (n i : Nat) (grid : Int → Int → Int), i ≤ k → k < i + n →
      (∀ j, k < j → j < i + n → zigzagCell j ≠ zigzagCell k) →
      inverse_scan output n i grid (zigzagCell k).1 (zigzagCell k).2 = output k := by
  intro n
  induction n with
  | zero => intro i grid h1 h2; omega
  | succ n ih =>
    intro i grid h1 h2 h
    simp only [inverse_scan]
    by_cases hk : k = i
    · subst hk
      rw [inverse_scan_untouched output (zigzagCell k).1 (zigzagCell k).2 n (k + 1) _
        (fun j h3 h4 => h j (by omega) (by omega))]
      simp
    · exact ih (i + 1) _ (by omega) (by omega) (fun j h3 h4 => h j h3 (by omega))

/-- Claim C8. The map from step `i` to the cell read at step `i` is a bijection from 0..63
onto the 64 cells of the grid (every cell read lies in the block, no cell is read twice,
every cell is read), and for every integer-valued grid `M` the inverse scan of the output
of `zig_zag_order` gives back `M` on all 64 cells. -/
theorem zig_zag_inverse_roundtrip :
    (∀ i : Fin 64, inBlock (zigzagCell i).1 (zigzagCell i).2 = true) ∧
    (∀ i j : Fin 64, zigzagCell i = zigzagCell j → i = j) ∧
    (∀ r c : Fin 8, ∃ i : Fin 64, zigzagCell i = (Int.ofNat r, Int.ofNat c)) ∧
    ∀ (M : Int → Int → Int) (output : Nat → Int) (grid : Int → Int → Int),
      ∃ out, zig_zag_order id output M = some out ∧
        ∀ r c : Fin 8, inverse_scan out 64 0 grid (Int.ofNat r) (Int.ofNat c)
          = M (Int.ofNat r) (Int.ofNat c) := by
  refine ⟨zigzagCell_inBlock, zigzagCell_injective, zigzagCell_surjective, ?_⟩
  intro M output grid
  refine ⟨_, zigzagLoop_eq id M 64 0 zigzagStart output
    (fun j hj => zigzagCell_inBlock ⟨j, hj⟩), ?_⟩
  intro r c
  obtain ⟨i, hi⟩ := zigzagCell_surjective r c
  have h1 := inverse_scan_at
    (fun k => if 0 ≤ k ∧ k < 0 + 64 then
      id (M (zigzagAdvance^[k - 0] zigzagStart).row (zigzagAdvance^[k - 0] zigzagStart).col)
      else output k) i.val 64 0 grid (Nat.zero_le _) (by omega)
    (fun j h3 h4 e => by
      have := zigzagCell_injective ⟨j, by omega⟩ i e
      simp [Fin.ext_iff] at this
      omega)
  rw [hi] at h1
  rw [h1]
  beta_reduce
  have h2 : (0 ≤ i.val ∧ i.val < 0 + 64) := ⟨Nat.zero_le _, by omega⟩
  simp only [zigzagCell, Prod.mk.injEq] at hi
  rw [if_pos h2, Nat.sub_zero, hi.1, hi.2]
  rfl


/-! ## Theorems: bit strings and ranges of words -/

theorem bitsMSB_length (code len : Nat) : (bitsMSB code len).length = len := by
  simp [bitsMSB]

theorem bitsMSB_getElem? (code len i : Nat) (h : i < len) :
    (bitsMSB code len)[i]? = some (code.testBit (len - 1 - i)) := by
  simp [bitsMSB, List.getElem?_map, List.getElem?_range h]

/-- A bit string that starts another is, as a number, the other one shifted right. -/
theorem leading_bits_numeric (ca la cb lb : Nat) (h : bitsMSB ca la <+: bitsMSB cb lb) :
    la ≤ lb ∧ (cb % 2 ^ lb) / 2 ^ (lb - la) = ca % 2 ^ la := by
  have hle : la ≤ lb := by
    have := h.length_le
    simpa [bitsMSB_length] using this
  refine ⟨hle, ?_⟩
  obtain ⟨t, ht⟩ := h
  have hbit : ∀ i, i < la → cb.testBit (lb - 1 - i) = ca.testBit (la - 1 - i) := by
    intro i hi
    have h1 : (bitsMSB ca la ++ t)[i]? = (bitsMSB ca la)[i]? :=
      List.getElem?_append_left (by simpa [bitsMSB_length] using hi)
    rw [ht, bitsMSB_getElem? cb lb i (by omega), bitsMSB_getElem? ca la i hi] at h1
    exact Option.some.inj h1
  apply Nat.eq_of_testBit_eq
  intro k
  rw [← Nat.shiftRight_eq_div_pow, Nat.testBit_shiftRight, Nat.testBit_mod_two_pow,
    Nat.testBit_mod_two_pow]
  by_cases hk : k < la
  · have h1 : lb - la + k < lb := by omega
    have h2 := hbit (la - 1 - k) (by omega)
    have h3 : lb - 1 - (la - 1 - k) = lb - la + k := by omega
    have h4 : la - 1 - (la - 1 - k) = k := by omega
    rw [h3, h4] at h2
    simp [hk, h1, h2]
  · have h1 : ¬ lb - la + k < lb := by omega
    simp [hk, h1]

theorem codeLo_lt_codeHi (e : Nat × Nat × Nat) : codeLo e < codeHi e := by
  unfold codeHi
  exact Nat.lt_add_of_pos_right (Nat.two_pow_pos _)

/-- The range of an entry whose bit string starts with the bit string of `a` lies inside
the range of `a`. -/
theorem leading_bits_range (a b : Nat × Nat × Nat) (hb : b.2.1 ≤ 16)
    (h : codeString a <+: codeString b) : codeLo a ≤ codeLo b ∧ codeLo b < codeHi a := by
  obtain ⟨hle, hnum⟩ := leading_bits_numeric _ _ _ _ h
  unfold codeHi codeLo
  have hp : 2 ^ (16 - a.2.1) = 2 ^ (b.2.1 - a.2.1) * 2 ^ (16 - b.2.1) := by
    rw [← Nat.pow_add]
    congr 1
    omega
  have hq : 0 < 2 ^ (16 - b.2.1) := Nat.two_pow_pos _
  have hd : 0 < 2 ^ (b.2.1 - a.2.1) := Nat.two_pow_pos _
  rw [hp, ← hnum]
  generalize b.2.2 % 2 ^ b.2.1 = x
  generalize 2 ^ (b.2.1 - a.2.1) = p at hd ⊢
  generalize 2 ^ (16 - b.2.1) = q at hq ⊢
  have h1 : x / p * p ≤ x := Nat.div_mul_le_self x p
  have h2 : x < (x / p + 1) * p := by
    have := Nat.lt_succ_self (x / p)
    exact (Nat.div_lt_iff_lt_mul hd).mp this
  constructor
  · rw [← Nat.mul_assoc]
    exact Nat.mul_le_mul_right q h1
  · have h3 : x * q < (x / p + 1) * p * q := Nat.mul_lt_mul_of_pos_right h2 hq
    calc x * q < (x / p + 1) * p * q := h3
      _ = x / p * (p * q) + p * q := by ring

theorem codesStackedFrom_chain : ∀ (l : List (Nat × Nat × Nat)) (a : Nat × Nat × Nat),
    codesStackedFrom a l = true →
    List.Chain (fun a b => codeHi a ≤ codeLo b) a l ∧ ∀ e ∈ a :: l, e.2.1 ≤ 16 := by
  intro l
  induction l with
  | nil =>
    intro a h
    simp only [codesStackedFrom, decide_eq_true_eq] at h
    exact ⟨List.Chain.nil, by simpa using h⟩
  | cons b rest ih =>
    intro a h
    simp only [codesStackedFrom, Bool.and_eq_true, decide_eq_true_eq] at h
    obtain ⟨⟨h1, h2⟩, h3⟩ := h
    obtain ⟨h4, h5⟩ := ih b h3
    refine ⟨List.Chain.cons h2 h4, ?_⟩
    intro e he
    rcases List.mem_cons.mp he with rfl | he
    · exact h1
    · exact h5 e he

/-- Entries whose ranges follow one another without overlap are free of prefixes. -/
theorem codesPrefixFree_of_stacked (entries : List (Nat × Nat × Nat))
    (h : codesStacked entries = true) : codesPrefixFree entries := by
  haveI : IsTrans (Nat × Nat × Nat) (fun a b => codeHi a ≤ codeLo b) :=
    ⟨fun _ b _ h1 h2 =>
      Nat.le_trans h1 (Nat.le_trans (Nat.le_of_lt (codeLo_lt_codeHi b)) h2)⟩
  have hpair : List.Pairwise (fun a b => codeHi a ≤ codeLo b) entries ∧
      ∀ e ∈ entries, e.2.1 ≤ 16 := by
    cases entries with
    | nil => exact ⟨List.Pairwise.nil, by simp⟩
    | cons a rest =>
      obtain ⟨h1, h2⟩ := codesStackedFrom_chain rest a h
      exact ⟨List.chain'_iff_pairwise.mp h1, h2⟩
  obtain ⟨hpair, hlen⟩ := hpair
  rw [List.pairwise_iff_getElem] at hpair
  intro i hi j hj hij hpre
  have ei : entries.getD i (0, 0, 0) = entries[i] := by
    simp [List.getD_eq_getElem?_getD, List.getElem?_eq_getElem hi]
  have ej : entries.getD j (0, 0, 0) = entries[j] := by
    simp [List.getD_eq_getElem?_getD, List.getElem?_eq_getElem hj]
  rw [ei, ej] at hpre
  have hr := leading_bits_range _ _ (hlen _ (List.getElem_mem hj)) hpre
  rcases Nat.lt_or_gt_of_ne hij with hlt | hgt
  · have := hpair i j hi hj hlt
    omega
  · have := hpair j i hj hi hgt
    have h2 := codeLo_lt_codeHi entries[j]
    omega


/-! ## Theorems: the four tables -/

/-- The table generated for luminance DC, read against its offsets and symbols. -/
theorem generated_lum_dc :
    (generate_huff_codes (huffman_tables .LUM_DC_TABLE) .LUM_DC_TABLE).map codeTable
      = some (jpegCodes .LUM_DC_TABLE) := by
  decide!

/-- The table generated for luminance AC, read against its offsets and symbols. -/
theorem generated_lum_ac :
    (generate_huff_codes (huffman_tables .LUM_AC_TABLE) .LUM_AC_TABLE).map codeTable
      = some (jpegCodes .LUM_AC_TABLE) := by
  decide!

/-- The table generated for chrominance AC, read against its offsets and symbols. -/
theorem generated_col_ac :
    (generate_huff_codes (huffman_tables .COL_AC_TABLE) .COL_AC_TABLE).map codeTable
      = some (jpegCodes .COL_AC_TABLE) := by
  decide!

/-- The table generated for chrominance DC, read against its offsets and symbols: the
code values of the standard, each with a length one below the standard length. -/
theorem generated_col_dc :
    (generate_huff_codes (huffman_tables .COL_DC_TABLE) .COL_DC_TABLE).map codeTable
      = some [(0, 1, 0b00), (1, 1, 0b01), (2, 1, 0b10), (3, 2, 0b110), (4, 3, 0b1110),
          (5, 4, 0b11110), (6, 5, 0b111110), (7, 6, 0b1111110), (8, 7, 0b11111110),
          (9, 8, 0b111111110), (10, 9, 0b1111111110), (11, 10, 0b11111111110)] := by
  decide!

/-- A property of the table read from a call follows from the entries read. -/
theorem returnsWith_codeTable (o : Option HuffmanTable) (entries : List (Nat × Nat × Nat))
    (P : List (Nat × Nat × Nat) → Prop) (h : o.map codeTable = some entries)
    (hP : P entries) : returnsWith o (fun t => P (codeTable t)) := by
  cases o with
  | none => simp at h
  | some t =>
    simp only [Option.map_some', Option.some.injEq] at h
    exact ⟨t, rfl, by subst h; exact hP⟩

/-- Claim C2 (the code departs from it on the chrominance DC table). After
`generate_huff_codes` the entries `(symbol, length, code)` of the luminance DC, luminance AC
and chrominance AC tables are the standard JPEG Huffman codes. The chrominance DC table gets
the standard code values 00, 01, 10, 110, ..., but its offsets put them in the buckets of
the lengths 1, 1, 1, 2, ..., 10 where the standard has 2, 2, 2, 3, ..., 11, so its entries
are not the standard ones. -/
theorem generated_codes_vs_jpeg_standard :
    (generate_huff_codes (huffman_tables .LUM_DC_TABLE) .LUM_DC_TABLE).map codeTable
      = some (jpegCodes .LUM_DC_TABLE) ∧
    (generate_huff_codes (huffman_tables .LUM_AC_TABLE) .LUM_AC_TABLE).map codeTable
      = some (jpegCodes .LUM_AC_TABLE) ∧
    (generate_huff_codes (huffman_tables .COL_AC_TABLE) .COL_AC_TABLE).map codeTable
      = some (jpegCodes .COL_AC_TABLE) ∧
    (generate_huff_codes (huffman_tables .COL_DC_TABLE) .COL_DC_TABLE).map codeTable
      = some [(0, 1, 0b00), (1, 1, 0b01), (2, 1, 0b10), (3, 2, 0b110), (4, 3, 0b1110),
          (5, 4, 0b11110), (6, 5, 0b111110), (7, 6, 0b1111110), (8, 7, 0b11111110),
          (9, 8, 0b111111110), (10, 9, 0b1111111110), (11, 10, 0b11111111110)] ∧
    (generate_huff_codes (huffman_tables .COL_DC_TABLE) .COL_DC_TABLE).map codeTable
      ≠ some (jpegCodes .COL_DC_TABLE) := by
  refine ⟨generated_lum_dc, generated_lum_ac, generated_col_ac, generated_col_dc, ?_⟩
  rw [generated_col_dc]
  decide

/-- Claim C3 (the code departs from it on the chrominance DC table). After
`generate_huff_codes` no code of the luminance DC, luminance AC or chrominance AC table,
read as a bit string of its bucket length, starts another code of the same table. In the
chrominance DC table the symbols 0 and 2 both get the one-bit string `0`, so that table is
not free of prefixes. -/
theorem generated_codes_prefix_property :
    returnsWith (generate_huff_codes (huffman_tables .LUM_DC_TABLE) .LUM_DC_TABLE)
      (fun t => codesPrefixFree (codeTable t)) ∧
    returnsWith (generate_huff_codes (huffman_tables .LUM_AC_TABLE) .LUM_AC_TABLE)
      (fun t => codesPrefixFree (codeTable t)) ∧
    returnsWith (generate_huff_codes (huffman_tables .COL_AC_TABLE) .COL_AC_TABLE)
      (fun t => codesPrefixFree (codeTable t)) ∧
    returnsWith (generate_huff_codes (huffman_tables .COL_DC_TABLE) .COL_DC_TABLE)
      (fun t => codeString ((codeTable t).getD 0 (0, 0, 0)) = [false] ∧
        codeString ((codeTable t).getD 2 (0, 0, 0)) = [false] ∧
        ¬ codesPrefixFree (codeTable t)) := by
  refine ⟨?_, ?_, ?_, ?_⟩
  · exact returnsWith_codeTable _ _ codesPrefixFree generated_lum_dc
      (codesPrefixFree_of_stacked _ (by decide!))
  · exact returnsWith_codeTable _ _ codesPrefixFree generated_lum_ac
      (codesPrefixFree_of_stacked _ (by decide!))
  · exact returnsWith_codeTable _ _ codesPrefixFree generated_col_ac
      (codesPrefixFree_of_stacked _ (by decide!))
  · refine returnsWith_codeTable _ _
      (fun entries => codeString (entries.getD 0 (0, 0, 0)) = [false] ∧
        codeString (entries.getD 2 (0, 0, 0)) = [false] ∧ ¬ codesPrefixFree entries)
      generated_col_dc ⟨by decide, by decide, ?_⟩
    intro h
    exact h 0 (by decide) 2 (by decide) (by decide) (by decide)

/-- Claim C4 (the code departs from it on the chrominance DC table). The initialisers of
the luminance DC, luminance AC and chrominance AC tables are the standard ones: `offsets`
is the unused slot 0 followed by BITS, and `symbols` starts with HUFFVAL. The chrominance
DC table has the standard symbols and `offsets[0] = 0`, but its initialiser lacks the unused
slot: `offsets[1..16]` is BITS moved down by one length (`offsets[1] = 3` where the standard
has no code of length 1). -/
theorem huffman_tables_vs_jpeg_standard :
    ((huffman_tables .LUM_DC_TABLE).offsets = 0 :: jpegBits .LUM_DC_TABLE ∧
      (huffman_tables .LUM_DC_TABLE).symbols.take 12 = jpegHuffval .LUM_DC_TABLE) ∧
    ((huffman_tables .LUM_AC_TABLE).offsets = 0 :: jpegBits .LUM_AC_TABLE ∧
      (huffman_tables .LUM_AC_TABLE).symbols = jpegHuffval .LUM_AC_TABLE) ∧
    ((huffman_tables .COL_AC_TABLE).offsets = 0 :: jpegBits .COL_AC_TABLE ∧
      (huffman_tables .COL_AC_TABLE).symbols = jpegHuffval .COL_AC_TABLE) ∧
    ((huffman_tables .COL_DC_TABLE).symbols.take 12 = jpegHuffval .COL_DC_TABLE ∧
      (huffman_tables .COL_DC_TABLE).offsets[0]? = some 0 ∧
      (huffman_tables .COL_DC_TABLE).offsets = jpegBits .COL_DC_TABLE ++ [0] ∧
      (huffman_tables .COL_DC_TABLE).offsets[1]? = some 3 ∧
      (0 :: jpegBits .COL_DC_TABLE)[1]? = some 0 ∧
      (huffman_tables .COL_DC_TABLE).offsets ≠ 0 :: jpegBits .COL_DC_TABLE) := by
  refine ⟨⟨by decide!, by decide!⟩, ⟨by decide!, by decide!⟩, ⟨by decide!, by decide!⟩,
    ⟨by decide!, by decide!, by decide!, by decide!, by decide!, by decide!⟩⟩

/-- Claim C7. For both AC tables `generate_huff_codes` returns, `symbols[EOB_code_index]`
is 0x00 and `symbols[ZRL_code_index]` is 0xF0, and the cached lengths are the lengths of the
offsets buckets of those indices, which are the standard lengths: luminance EOB at index 3
with length 4 and code 1010, luminance ZRL at index 31 with length 11 and code 0x7F9,
chrominance EOB at index 0 with length 2 and code 00, chrominance ZRL at index 31 with
length 10 and code 0x3FA. -/
theorem generated_EOB_ZRL_entries :
    returnsWith (generate_huff_codes (huffman_tables .LUM_AC_TABLE) .LUM_AC_TABLE)
      (fun t => t.symbols[t.EOB_code_index]? = some 0x00 ∧
        t.symbols[t.ZRL_code_index]? = some 0xF0 ∧
        (bucketLengths t.offsets)[t.EOB_code_index]? = some t.EOB_code_len ∧
        (bucketLengths t.offsets)[t.ZRL_code_index]? = some t.ZRL_code_len ∧
        t.EOB_code_index = 3 ∧ t.EOB_code_len = 4 ∧ t.codes[3]? = some 0b1010 ∧
        t.ZRL_code_index = 31 ∧ t.ZRL_code_len = 11 ∧ t.codes[31]? = some 0x7F9 ∧
        (jpegCodes .LUM_AC_TABLE)[3]? = some (0x00, 4, 0b1010) ∧
        (jpegCodes .LUM_AC_TABLE)[31]? = some (0xF0, 11, 0x7F9)) ∧
    returnsWith (generate_huff_codes (huffman_tables .COL_AC_TABLE) .COL_AC_TABLE)
      (fun t => t.symbols[t.EOB_code_index]? = some 0x00 ∧
        t.symbols[t.ZRL_code_index]? = some 0xF0 ∧
        (bucketLengths t.offsets)[t.EOB_code_index]? = some t.EOB_code_len ∧
        (bucketLengths t.offsets)[t.ZRL_code_index]? = some t.ZRL_code_len ∧
        t.EOB_code_index = 0 ∧ t.EOB_code_len = 2 ∧ t.codes[0]? = some 0b00 ∧
        t.ZRL_code_index = 31 ∧ t.ZRL_code_len = 10 ∧ t.codes[31]? = some 0x3FA ∧
        (jpegCodes .COL_AC_TABLE)[0]? = some (0x00, 2, 0b00) ∧
        (jpegCodes .COL_AC_TABLE)[31]? = some (0xF0, 10, 0x3FA)) := by
  refine ⟨by decide!, by decide!⟩

/-! ## Theorems: running generate_huff_codes again -/

/-- The inner loop moves `code_num` up by one per round and leaves the slots below its
start alone. -/
theorem assignCodes_facts : ∀ (n : Nat) (codes : List Nat) (b c : Nat) (r : List Nat)
    (b1 c1 : Nat), assignCodes n codes b c = some (r, b1, c1) →
    c1 = c + n ∧ r.length = codes.length ∧ ∀ p, p < c → r[p]? = codes[p]? := by
  intro n
  induction n with
  | zero =>
    intro codes b c r b1 c1 h
    simp only [assignCodes, Option.some.injEq, Prod.mk.injEq] at h
    obtain ⟨h1, _, h3⟩ := h
    subst h1; subst h3
    exact ⟨rfl, rfl, fun _ _ => rfl⟩
  | succ n ih =>
    intro codes b c r b1 c1 h
    by_cases hc : c < 162
    · simp only [assignCodes, hc, if_true] at h
      have hm : (c + 1) % 256 = c + 1 := Nat.mod_eq_of_lt (by omega)
      rw [hm] at h
      obtain ⟨h1, h2, h3⟩ := ih _ _ _ _ _ _ h
      refine ⟨by omega, by simpa using h2, ?_⟩
      intro p hp
      rw [h3 p (by omega), List.getElem?_set_ne (by omega)]
    · simp [assignCodes, hc] at h

/-- The inner loop run on a list that already holds its results changes nothing. -/
theorem assignCodes_again : ∀ (n : Nat) (codes : List Nat) (b c : Nat) (r : List Nat)
    (b1 c1 : Nat), assignCodes n codes b c = some (r, b1, c1) →
    ∀ F : List Nat, F.length = r.length → (∀ p, c ≤ p → p < c1 → F[p]? = r[p]?) →
      assignCodes n F b c = some (F, b1, c1) := by
  intro n
  induction n with
  | zero =>
    intro codes b c r b1 c1 h F _ _
    simp only [assignCodes, Option.some.injEq, Prod.mk.injEq] at h
    obtain ⟨_, h2, h3⟩ := h
    subst h2; subst h3
    rfl
  | succ n ih =>
    intro codes b c r b1 c1 h F hF hag
    by_cases hc : c < 162
    · simp only [assignCodes, hc, if_true] at h ⊢
      have hm : (c + 1) % 256 = c + 1 := Nat.mod_eq_of_lt (by omega)
      rw [hm] at h ⊢
      obtain ⟨h1, h2, h3⟩ := assignCodes_facts _ _ _ _ _ _ _ h
      have hset : F.set c b = F := by
        apply List.ext_getElem?
        intro p
        by_cases hp : p = c
        · subst hp
          rw [hag p (Nat.le_refl _) (by omega), h3 p (by omega)]
          by_cases hlen : p < F.length
          · rw [List.getElem?_set_self hlen, List.getElem?_set_self (by
              rw [hF, h2] at hlen; simpa using hlen)]
          · have h5 : F.length ≤ p := by omega
            have h6 : (codes.set p b).length ≤ p := by rw [← h2, ← hF]; exact h5
            rw [List.getElem?_eq_none (by simpa using h5), List.getElem?_eq_none h6]
        · rw [List.getElem?_set_ne (fun e => hp e.symm)]
      rw [hset]
      exact ih _ _ _ _ _ _ h F hF (fun p hp1 hp2 => hag p (by omega) hp2)
    · simp [assignCodes, hc] at h

/-- The outer loop never moves `code_num` down and leaves the slots below its start
alone. -/
theorem lengthLoop_facts (offsets : List Nat) : ∀ (todo i : Nat) (codes : List Nat)
    (b c : Nat) (r : List Nat) (b1 c1 : Nat),
    lengthLoop offsets todo i codes b c = some (r, b1, c1) →
    c ≤ c1 ∧ r.length = codes.length ∧ ∀ p, p < c → r[p]? = codes[p]? := by
  intro todo
  induction todo with
  | zero =>
    intro i codes b c r b1 c1 h
    simp only [lengthLoop, Option.some.injEq, Prod.mk.injEq] at h
    obtain ⟨h1, _, h3⟩ := h
    subst h1; subst h3
    exact ⟨Nat.le_refl _, rfl, fun _ _ => rfl⟩
  | succ todo ih =>
    intro i codes b c r b1 c1 h
    simp only [lengthLoop] at h
    cases ho : offsets[i]? with
    | none => simp [ho] at h
    | some count =>
      simp only [ho] at h
      cases ha : assignCodes count codes b c with
      | none => simp [ha] at h
      | some res =>
        obtain ⟨r2, b2, c2⟩ := res
        simp only [ha] at h
        obtain ⟨h1, h2, h3⟩ := assignCodes_facts _ _ _ _ _ _ _ ha
        obtain ⟨h4, h5, h6⟩ := ih _ _ _ _ _ _ _ h
        exact ⟨by omega, by rw [h5, h2], fun p hp => by rw [h6 p (by omega), h3 p hp]⟩

/-- The outer loop run on a list that already holds its results changes nothing. -/
theorem lengthLoop_again (offsets : List Nat) : ∀ (todo i : Nat) (codes : List Nat)
    (b c : Nat) (r : List Nat) (b1 c1 : Nat),
    lengthLoop offsets todo i codes b c = some (r, b1, c1) →
    ∀ F : List Nat, F.length = r.length → (∀ p, c ≤ p → p < c1 → F[p]? = r[p]?) →
      lengthLoop offsets todo i F b c = some (F, b1, c1) := by
  intro todo
  induction todo with
  | zero =>
    intro i codes b c r b1 c1 h F _ _
    simp only [lengthLoop, Option.some.injEq, Prod.mk.injEq] at h
    obtain ⟨_, h2, h3⟩ := h
    subst h2; subst h3
    rfl
  | succ todo ih =>
    intro i codes b c r b1 c1 h F hF hag
    simp only [lengthLoop] at h ⊢
    cases ho : offsets[i]? with
    | none => simp [ho] at h
    | some count =>
      simp only [ho] at h ⊢
      cases ha : assignCodes count codes b c with
      | none => simp [ha] at h
      | some res =>
        obtain ⟨r2, b2, c2⟩ := res
        simp only [ha] at h
        obtain ⟨h1, h2, _⟩ := assignCodes_facts _ _ _ _ _ _ _ ha
        obtain ⟨h4, h5, h6⟩ := lengthLoop_facts offsets _ _ _ _ _ _ _ _ h
        have hag2 : ∀ p, c ≤ p → p < c2 → F[p]? = r2[p]? := by
          intro p hp1 hp2
          rw [hag p hp1 (by omega), h6 p hp2]
        rw [assignCodes_again _ _ _ _ _ _ _ ha F (by rw [hF, h5]) hag2]
        exact ih _ _ _ _ _ _ _ h F hF (fun p hp1 hp2 => hag p (by omega) hp2)

/-- Claim C9. For every table and every table type on which the result of
`generate_huff_codes` is defined, a second call on that result returns exactly the same
table state (same codes, same cached EOB and ZRL index and length, same offsets and
symbols) with `set` true: the second call changes nothing. -/
theorem generate_huff_codes_idempotent (t t1 : HuffmanTable) (type : Table_t)
    (h : generate_huff_codes t type = some t1) :
    generate_huff_codes t1 type = some t1 ∧ t1.set = true := by
  unfold generate_huff_codes at h
  cases hl : lengthLoop t.offsets 16 1 t.codes 0 0 with
  | none => simp [hl] at h
  | some res =>
    obtain ⟨r, b1, c1⟩ := res
    have hagain := lengthLoop_again t.offsets 16 1 t.codes 0 0 r b1 c1 hl r rfl (fun _ _ _ => rfl)
    simp only [hl] at h
    by_cases hty : type = .LUM_AC_TABLE ∨ type = .COL_AC_TABLE
    · simp only [hty, if_true] at h
      cases hz : fetchIndex t.symbols 0xf0 162 0 with
      | none => simp [hz] at h
      | some iz =>
        simp only [hz] at h
        cases hcz : r[iz]? with
        | none => simp [hcz] at h
        | some cz =>
          cases hfz : fetchLength t.offsets iz with
          | none => simp [hcz, hfz] at h
          | some lz =>
            simp only [hcz, hfz] at h
            cases he : fetchIndex t.symbols 0x00 162 0 with
            | none => simp [he] at h
            | some ie =>
              simp only [he] at h
              cases hce : r[ie]? with
              | none => simp [hce] at h
              | some ce =>
                cases hfe : fetchLength t.offsets ie with
                | none => simp [hce, hfe] at h
                | some le =>
                  simp only [hce, hfe, Option.some.injEq] at h
                  subst h
                  simp [generate_huff_codes, hagain, hty, hz, hcz, hfz, he, hce, hfe]
    · simp only [hty, if_false, Option.some.injEq] at h
      subst h
      simp [generate_huff_codes, hagain, hty]

/-- Witness of claim C9 on the luminance AC table. -/
theorem generate_huff_codes_idempotent_witness :
    ∃ t1, generate_huff_codes (huffman_tables .LUM_AC_TABLE) .LUM_AC_TABLE = some t1 ∧
      generate_huff_codes t1 .LUM_AC_TABLE = some t1 ∧ t1.set = true := by
  have h : (generate_huff_codes (huffman_tables .LUM_AC_TABLE) .LUM_AC_TABLE).isSome
      = true := by decide!
  obtain ⟨t1, h1⟩ := Option.isSome_iff_exists.mp h
  exact ⟨t1, h1, generate_huff_codes_idempotent _ t1 .LUM_AC_TABLE h1⟩

/-! ## Theorems: the bit writer -/

theorem writeBits_append (s : BitWriter) (l₁ l₂ : List Bool) :
    writeBits s (l₁ ++ l₂) = (writeBits s l₁).bind (fun s => writeBits s l₂) := by
  induction l₁ generalizing s with
  | nil => rfl
  | cons b l ih =>
    simp only [List.cons_append, writeBits]
    cases writeBit s b with
    | none => rfl
    | some s1 => exact ih s1

/-- The test of huff.c:171 reads bit 15 of `code_to_write`. -/
theorem top_bit_eq (w : Nat) :
    decide ((w &&& (1 <<< (16 - 1))) >>> (16 - 1) ≠ 0) = w.testBit 15 := by
  have h : (w &&& (1 <<< (16 - 1))) >>> (16 - 1) = (w.testBit 15).toNat := by
    apply Nat.eq_of_testBit_eq
    intro i
    rw [Nat.testBit_shiftRight, Nat.testBit_and, Nat.one_shiftLeft, Nat.testBit_two_pow,
      Nat.testBit_bool_to_nat]
    by_cases hi : i = 0
    · subst hi; simp
    · have : ¬ (16 - 1 = 16 - 1 + i) := by omega
      simp [hi, this]
  rw [h]
  cases w.testBit 15 <;> simp

/-- The loop writes the top `n` bits of `code_to_write`, highest first. -/
theorem writeLoop_eq_writeBits : ∀ (n w : Nat) (s : BitWriter), n ≤ 16 →
    writeLoop n w s = writeBits s ((List.range n).map (fun i => w.testBit (15 - i))) := by
  intro n
  induction n with
  | zero => intro w s _; rfl
  | succ n ih =>
    intro w s hn
    rw [List.range_succ_eq_map, List.map_cons, List.map_map]
    simp only [writeLoop, writeBits, top_bit_eq]
    have hl : (List.range n).map ((fun i => w.testBit (15 - i)) ∘ Nat.succ)
        = (List.range n).map (fun i => ((w <<< 1) % 65536).testBit (15 - i)) := by
      apply List.map_congr_left
      intro i hi
      have hi' : i < n := List.mem_range.mp hi
      have e : (65536 : Nat) = 2 ^ 16 := by norm_num
      simp only [Function.comp, e, Nat.testBit_mod_two_pow, Nat.testBit_shiftLeft]
      have h1 : 15 - i < 16 := by omega
      have h2 : 15 - i ≥ 1 := by omega
      have h3 : 15 - i - 1 = 15 - i.succ := by omega
      simp [h1, h2, h3]
    cases writeBit s (w.testBit 15) with
    | none => rfl
    | some s1 =>
      simp only [Nat.sub_zero]
      rw [hl]
      exact ih _ s1 (by omega)

/-- A call of `write_buffer` writes the low `len` bits of the code, highest first. -/
theorem write_buffer_eq_writeBits (s : BitWriter) (code len : Nat) (h : len ≤ 16) :
    write_buffer s code len = writeBits s (bitsMSB code len) := by
  have hl : ¬ len > 16 := by omega
  simp only [write_buffer, hl, if_false, bitsMSB]
  rw [writeLoop_eq_writeBits _ _ _ h]
  congr 1
  apply List.map_congr_left
  intro i hi
  have hi' : i < len := List.mem_range.mp hi
  have e : (65536 : Nat) = 2 ^ 16 := by norm_num
  simp only [e, Nat.testBit_mod_two_pow, Nat.testBit_shiftLeft]
  have h1 : 15 - i < 16 := by omega
  have h2 : 15 - i ≥ 16 - len := by omega
  have h3 : 15 - i - (16 - len) = len - 1 - i := by omega
  have h4 : len - 1 - i < 16 := by omega
  simp [h1, h2, h3, h4]

/-- A sequence of calls writes the bit string of the sequence. -/
theorem writeAll_eq_writeBits : ∀ (calls : List (Nat × Nat)) (s : BitWriter),
    (∀ c ∈ calls, c.2 ≤ 16) → writeAll s calls = writeBits s (callBits calls) := by
  intro calls
  induction calls with
  | nil => intro s _; rfl
  | cons c rest ih =>
    intro s h
    obtain ⟨code, len⟩ := c
    have hc : len ≤ 16 := h (code, len) (List.mem_cons_self _ _)
    simp only [writeAll, callBits, List.flatMap_cons]
    rw [write_buffer_eq_writeBits s code len hc, writeBits_append]
    cases writeBits s (bitsMSB code len) with
    | none => rfl
    | some s1 => exact ih s1 (fun c hc => h c (List.mem_cons_of_mem _ hc))

theorem testBit_two_mul_add_bool (x : Nat) (b : Bool) (j : Nat) :
    (2 * x + b.toNat).testBit j = if j = 0 then b else x.testBit (j - 1) := by
  cases j with
  | zero =>
    rw [Nat.testBit_zero]
    cases b
    · simp
    · simp; omega
  | succ k =>
    rw [Nat.testBit_succ]
    have : (2 * x + b.toNat) / 2 = x := by
      cases b
      · simp
      · simp; omega
    simp [this]

theorem testBit_mod_65536 (x i : Nat) :
    (x % 65536).testBit i = (decide (i < 16) && x.testBit i) :=
  Nat.testBit_mod_two_pow x 16 i

theorem testBit_mask32 (i : Nat) : (0xFFFFFFFF : Nat).testBit i = decide (i < 32) :=
  Nat.testBit_two_pow_sub_one 32 i

theorem mod_65536_shiftRight (x : Nat) : (x % 65536) >>> 16 = 0 := by
  rw [Nat.shiftRight_eq_div_pow]
  exact Nat.div_eq_of_lt (Nat.mod_lt _ (by norm_num))

/-- The accumulator after the set or clear of bit `15 - n`. -/
theorem stored_bit (buf n : Nat) (b : Bool) (hn : n ≤ 15) :
    ((if b then (buf ||| (1 <<< (15 - n))) % 65536
      else (buf &&& (0xFFFFFFFF ^^^ (1 <<< (15 - n)))) % 65536) % 65536) >>> (15 - n)
      = 2 * ((buf % 65536) >>> (16 - n)) + b.toNat := by
  apply Nat.eq_of_testBit_eq
  intro j
  rw [testBit_two_mul_add_bool, Nat.testBit_shiftRight]
  by_cases hj : j = 0
  · subst hj
    have h1 : 15 - n < 16 := by omega
    have h2 : 15 - n < 32 := by omega
    cases b
    · simp [testBit_mod_65536, testBit_mask32, Nat.testBit_and, Nat.testBit_xor,
        Nat.one_shiftLeft, Nat.testBit_two_pow, h1, h2]
    · simp [testBit_mod_65536, Nat.testBit_or, Nat.one_shiftLeft, Nat.testBit_two_pow, h1]
  · rw [if_neg hj, Nat.testBit_shiftRight]
    have h3 : 15 - n + j = 16 - n + (j - 1) := by omega
    have h4 : ¬ (15 - n = 16 - n + (j - 1)) := by omega
    rw [h3]
    by_cases h5 : 16 - n + (j - 1) < 16
    · have h6 : 16 - n + (j - 1) < 32 := by omega
      cases b
      · simp [testBit_mod_65536, testBit_mask32, Nat.testBit_and, Nat.testBit_xor,
          Nat.one_shiftLeft, Nat.testBit_two_pow, h4, h5, h6]
      · simp [testBit_mod_65536, Nat.testBit_or, Nat.one_shiftLeft, Nat.testBit_two_pow,
          h4, h5]
    · simp [testBit_mod_65536, h5]

/-- The unit of huff.c:177-178 is the accumulator with its bytes exchanged. -/
theorem flush_eq_bswap16 (buf : Nat) (h : buf < 65536) :
    (((buf <<< 8) % 65536) ||| (buf >>> 8)) % 65536 = bswap16 buf := by
  have h1 : (buf <<< 8) % 65536 = 2 ^ 8 * (buf % 256) := by
    rw [Nat.shiftLeft_eq]; omega
  have h2 : buf >>> 8 = buf / 256 := by
    rw [Nat.shiftRight_eq_div_pow]
  have h3 : buf / 256 < 2 ^ 8 := by omega
  rw [h1, h2, ← Nat.mul_add_lt_is_or h3]
  unfold bswap16
  omega

theorem wordOfBits_append (l : List Bool) (b : Bool) :
    wordOfBits (l ++ [b]) = 2 * wordOfBits l + b.toNat := by
  simp [wordOfBits, List.foldl_append]

theorem wordOfBits_lt (l : List Bool) : wordOfBits l < 2 ^ l.length := by
  induction l using List.reverseRecOn with
  | nil => simp [wordOfBits]
  | append_singleton l b ih =>
    rw [wordOfBits_append, List.length_append, List.length_singleton, Nat.pow_succ]
    cases b <;> simp <;> omega

/-- One bit written keeps the invariant: it joins the pending bits, or completes a unit
that goes to the stream. -/
theorem writeBit_pending (s : BitWriter) (P : List Bool) (b : Bool) (h : Pending s P) :
    ∃ s1, writeBit s b = some s1 ∧
      (P.length < 15 → Pending s1 (P ++ [b]) ∧ s1.stream = s.stream) ∧
      (P.length = 15 → Pending s1 [] ∧
        s1.stream = s.stream ++ [bswap16 (wordOfBits (P ++ [b]))]) := by
  obtain ⟨hn, hP, hb⟩ := h
  have hgt : ¬ s.nbit > 15 := by omega
  have key := stored_bit s.buf s.nbit b (by omega)
  by_cases h15 : s.nbit = 15
  · refine ⟨_, by simp only [writeBit, hgt, if_false, h15, if_true]; rfl, ?_, ?_⟩
    · intro hlt; omega
    · intro _
      refine ⟨⟨rfl, by simp, by simpa [wordOfBits] using mod_65536_shiftRight _⟩, ?_⟩
      simp only [List.append_cancel_left_eq, List.cons.injEq, and_true]
      rw [h15] at key
      simp only [Nat.sub_self, Nat.shiftRight_zero] at key
      rw [wordOfBits_append, ← hb, ← hn, h15]
      have hlt : (if b then (s.buf ||| (1 <<< (15 - 15))) % 65536
          else (s.buf &&& (0xFFFFFFFF ^^^ (1 <<< (15 - 15)))) % 65536) < 65536 := by
        split <;> exact Nat.mod_lt _ (by norm_num)
      rw [Nat.mod_eq_of_lt hlt] at key
      rw [← key]
      exact flush_eq_bswap16 _ hlt
  · refine ⟨_, by simp only [writeBit, hgt, if_false, h15]; rfl, ?_, ?_⟩
    · intro _
      refine ⟨⟨?_, ?_, ?_⟩, rfl⟩
      · simp only [List.length_append, List.length_singleton]
        rw [← hn]
        exact Nat.mod_eq_of_lt (by omega)
      · simp only [List.length_append, List.length_singleton]; omega
      · simp only [List.length_append, List.length_singleton]
        rw [wordOfBits_append, ← hb, ← hn]
        have : 16 - (s.nbit + 1) = 15 - s.nbit := by omega
        rw [this]
        exact key
    · intro h; omega

theorem drop_block (Q S : List Bool) (hQ : Q.length = 16) (m : Nat) :
    (Q ++ S).drop (16 * (m + 1)) = S.drop (16 * m) := by
  have : 16 * (m + 1) = Q.length + 16 * m := by omega
  rw [this, List.drop_append]

theorem unitAt_zero (Q S : List Bool) (hQ : Q.length = 16) :
    unitAt (Q ++ S) 0 = bswap16 (wordOfBits Q) := by
  unfold unitAt
  have : List.take 16 (Q ++ S) = Q := by
    rw [← hQ]; exact List.take_left' rfl
  simp [this]

theorem unitAt_succ (Q S : List Bool) (hQ : Q.length = 16) (m : Nat) :
    unitAt (Q ++ S) (m + 1) = unitAt S m := by
  unfold unitAt
  rw [drop_block Q S hQ m]

theorem unitsOf_block (Q S : List Bool) (hQ : Q.length = 16) :
    unitsOf (Q ++ S) = bswap16 (wordOfBits Q) :: unitsOf S := by
  unfold unitsOf
  have : (Q ++ S).length / 16 = S.length / 16 + 1 := by
    rw [List.length_append, hQ]; omega
  have hmap : List.map (unitAt (Q ++ S) ∘ Nat.succ) (List.range (S.length / 16))
      = List.map (unitAt S) (List.range (S.length / 16)) :=
    List.map_congr_left (fun m _ => unitAt_succ Q S hQ m)
  rw [this, List.range_succ_eq_map, List.map_cons, List.map_map, unitAt_zero Q S hQ, hmap]

/-- Writing the bits `S` after the pending bits `P`: the stream gains the units of
`P ++ S` and the bits after the last complete unit stay pending. -/
theorem writeBits_pending : ∀ (S P : List Bool) (s : BitWriter), Pending s P →
    ∃ s1, writeBits s S = some s1 ∧ s1.stream = s.stream ++ unitsOf (P ++ S) ∧
      Pending s1 ((P ++ S).drop (16 * ((P ++ S).length / 16))) := by
  intro S
  induction S with
  | nil =>
    intro P s h
    have hP : P.length ≤ 15 := h.2.1
    have h0 : P.length / 16 = 0 := by omega
    refine ⟨s, rfl, ?_, ?_⟩
    · simp [unitsOf, h0]
    · simpa [h0] using h
  | cons b S ih =>
    intro P s h
    obtain ⟨s1, hs1, hlt, heq⟩ := writeBit_pending s P b h
    have happ : P ++ b :: S = (P ++ [b]) ++ S := by simp
    by_cases h15 : P.length = 15
    · obtain ⟨hp1, hst⟩ := heq h15
      obtain ⟨s2, hs2, hst2, hp2⟩ := ih [] s1 hp1
      have hQ : (P ++ [b]).length = 16 := by simp [h15]
      refine ⟨s2, by simp only [writeBits, hs1]; exact hs2, ?_, ?_⟩
      · rw [hst2, hst, happ, unitsOf_block _ _ hQ]
        simp
      · have hlen : (P ++ b :: S).length / 16 = S.length / 16 + 1 := by
          rw [happ, List.length_append, hQ]; omega
        rw [hlen, happ, drop_block _ _ hQ]
        simpa using hp2
    · have hP : P.length ≤ 15 := h.2.1
      obtain ⟨hp1, hst⟩ := hlt (by omega)
      obtain ⟨s2, hs2, hst2, hp2⟩ := ih (P ++ [b]) s1 hp1
      refine ⟨s2, by simp only [writeBits, hs1]; exact hs2, ?_, ?_⟩
      · rw [hst2, hst, happ]
      · rw [happ]; exact hp2

theorem pending_start (buf : Nat) (stream : List Nat) :
    Pending { buf := buf, nbit := 0, stream := stream } [] :=
  ⟨rfl, by simp, by simpa [wordOfBits] using mod_65536_shiftRight buf⟩

theorem callBits_length (calls : List (Nat × Nat)) :
    (callBits calls).length = (calls.map (fun c => c.2)).sum := by
  induction calls with
  | nil => rfl
  | cons c rest ih =>
    simp only [callBits, List.flatMap_cons, List.length_append, List.map_cons, List.sum_cons]
    rw [← ih]
    simp [bitsMSB, callBits]

/-- Claim C5. From cursor 0 and any accumulator value, every sequence of `write_buffer`
calls with lengths at most 16 returns, and the stream gains exactly the units of the bit
string of the calls (the low `len` bits of each code, most significant first, in call
order): one unit per complete group of 16 bits, the `m`-th being the byte swap of the word
made of bits `16m .. 16m+15`. -/
theorem write_buffer_stream_units (buf : Nat) (stream : List Nat) (calls : List (Nat × Nat))
    (hlen : ∀ c ∈ calls, c.2 ≤ 16) :
    ∃ s, writeAll { buf := buf, nbit := 0, stream := stream } calls = some s ∧
      s.stream = stream ++ unitsOf (callBits calls) ∧
      (unitsOf (callBits calls)).length = (callBits calls).length / 16 ∧
      ∀ m, m < (callBits calls).length / 16 →
        (unitsOf (callBits calls))[m]? =
          some (bswap16 (wordOfBits (((callBits calls).drop (16 * m)).take 16))) := by
  obtain ⟨s, hs, hst, _⟩ := writeBits_pending (callBits calls) [] _ (pending_start buf stream)
  refine ⟨s, by rw [writeAll_eq_writeBits calls _ hlen]; exact hs, by simpa using hst, ?_, ?_⟩
  · simp [unitsOf]
  · intro m hm
    simp [unitsOf, hm, unitAt]

/-- Claim C6. From cursor 0, for every sequence of `write_buffer` calls with lengths at
most 16: when the lengths sum to `16 * k`, exactly `k` units are written and the cursor ends
at 0; when they sum to `16 * k - 1` (with `k >= 1`), exactly `k - 1` units are written and
the cursor ends at 15. -/
theorem write_buffer_flush_boundary (buf : Nat) (stream : List Nat)
    (calls : List (Nat × Nat)) (k : Nat) (hlen : ∀ c ∈ calls, c.2 ≤ 16) :
    ((calls.map (fun c => c.2)).sum = 16 * k →
      ∃ s, writeAll { buf := buf, nbit := 0, stream := stream } calls = some s ∧
        s.stream.length = stream.length + k ∧ s.nbit = 0) ∧
    ((calls.map (fun c => c.2)).sum + 1 = 16 * k →
      ∃ s, writeAll { buf := buf, nbit := 0, stream := stream } calls = some s ∧
        s.stream.length = stream.length + (k - 1) ∧ s.nbit = 15) := by
  obtain ⟨s, hs, hst, hp⟩ := writeBits_pending (callBits calls) [] _ (pending_start buf stream)
  rw [← writeAll_eq_writeBits calls _ hlen] at hs
  have hn := hp.1
  simp only [List.nil_append, List.length_drop, callBits_length] at hn
  have hl : s.stream.length = stream.length + (calls.map (fun c => c.2)).sum / 16 := by
    rw [hst]; simp [unitsOf, callBits_length]
  constructor
  · intro h
    exact ⟨s, hs, by rw [hl, h]; omega, by rw [hn, h]; omega⟩
  · intro h
    exact ⟨s, hs, by rw [hl]; omega, by rw [hn]; omega⟩

/-- Witness of claim C5: the calls (0b101, 3), (0x1FFF, 13), (0xFFFF, 4) have lengths at
most 16 and write the one unit 0xFFBF, the byte swap of 0xBFFF, leaving 4 bits pending. -/
theorem write_buffer_stream_units_witness :
    (∀ c ∈ [(0b101, 3), (0x1FFF, 13), (0xFFFF, 4)], c.2 ≤ 16) ∧
    writeAll { buf := 0x1234, nbit := 0, stream := [] }
        [(0b101, 3), (0x1FFF, 13), (0xFFFF, 4)]
      = some { buf := 0xFFFF, nbit := 4, stream := [0xFFBF] } ∧
    ∃ s, writeAll { buf := 0x1234, nbit := 0, stream := [] }
        [(0b101, 3), (0x1FFF, 13), (0xFFFF, 4)] = some s ∧
      s.stream = [] ++ unitsOf (callBits [(0b101, 3), (0x1FFF, 13), (0xFFFF, 4)]) ∧
      (unitsOf (callBits [(0b101, 3), (0x1FFF, 13), (0xFFFF, 4)])).length
        = (callBits [(0b101, 3), (0x1FFF, 13), (0xFFFF, 4)]).length / 16 ∧
      ∀ m, m < (callBits [(0b101, 3), (0x1FFF, 13), (0xFFFF, 4)]).length / 16 →
        (unitsOf (callBits [(0b101, 3), (0x1FFF, 13), (0xFFFF, 4)]))[m]? =
          some (bswap16 (wordOfBits
            (((callBits [(0b101, 3), (0x1FFF, 13), (0xFFFF, 4)]).drop (16 * m)).take 16))) :=
  ⟨by decide, by decide,
    write_buffer_stream_units 0x1234 [] [(0b101, 3), (0x1FFF, 13), (0xFFFF, 4)] (by decide)⟩

/-- Witness of claim C6: lengths 3 + 13 = 16 give one unit and cursor 0; lengths
3 + 12 = 15 give no unit and cursor 15. -/
theorem write_buffer_flush_boundary_witness :
    (∃ s, writeAll { buf := 0, nbit := 0, stream := [] } [(5, 3), (7, 13)] = some s ∧
      s.stream.length = ([] : List Nat).length + 1 ∧ s.nbit = 0) ∧
    (∃ s, writeAll { buf := 0, nbit := 0, stream := [] } [(5, 3), (7, 12)] = some s ∧
      s.stream.length = ([] : List Nat).length + (1 - 1) ∧ s.nbit = 15) :=
  ⟨(write_buffer_flush_boundary 0 [] [(5, 3), (7, 13)] 1 (by decide)).1 (by decide),
   (write_buffer_flush_boundary 0 [] [(5, 3), (7, 12)] 1 (by decide)).2 (by decide)⟩

/-! ## Theorems: colour conversion -/

/-- The constants of image.c:71-73 as `double`s: the 53-bit significands of the IEEE 754
values nearest to the decimals, on the grid of units `2 ^ -56`. -/
theorem doubleLiteral_values :
    doubleLiteral 257 = 0x1072b020c49ba6 * 2 ^ 2 ∧
    doubleLiteral 504 = 0x1020c49ba5e354 * 2 ^ 3 ∧
    doubleLiteral 98 = 0x1916872b020c4a ∧
    doubleLiteral 148 = 0x12f1a9fbe76c8b * 2 ∧
    doubleLiteral 291 = 0x129fbe76c8b439 * 2 ^ 2 ∧
    doubleLiteral 439 = 0x1c189374bc6a7f * 2 ^ 2 ∧
    doubleLiteral 368 = 0x178d4fdf3b645a * 2 ^ 2 ∧
    doubleLiteral 71 = 0x122d0e56041893 := by
  decide

/-- Two pixels whose weighted sums are whole numbers in exact arithmetic and fall just
short of them in `double`: for (34, 2, 23) the sum for Y is below 12 and the code stores
Y = 11 + 16, and for (6, 1, 46) the sum for Cr is above -1 and the code stores
Cr = 0 + 128. -/
theorem ycbcr_pixel_double_rounding :
    ycbcr_pixel 34 2 23 = some (27, 132, 140) ∧ ycbcr_pixel 6 1 46 = some (22, 147, 128) := by
  constructor <;> decide

/-- A conversion with a result in C has the same result whatever is assumed of the
conversions C leaves undefined. -/
theorem toUint8With_of_strict (outside : Int → Option Nat) (x : Int) (v : Nat)
    (h : toUint8 x = some v) : toUint8With outside x = some v := by
  unfold toUint8 toUint8With at h
  unfold toUint8With
  split
  · rename_i hc
    rw [if_pos hc] at h
    exact h
  · rename_i hc
    rw [if_neg hc] at h
    simp [strictC] at h

/-- A pixel with a result in C has the same result on every target. -/
theorem ycbcr_pixel_with_of_strict (outside : Int → Option Nat) (r g b : Nat)
    (px : Nat × Nat × Nat) (h : ycbcr_pixel r g b = some px) :
    ycbcr_pixel_with outside r g b = some px := by
  unfold ycbcr_pixel ycbcr_pixel_with at h
  unfold ycbcr_pixel_with
  cases hy : toUint8With strictC (ySum r g b) with
  | none => rw [hy] at h; simp at h
  | some y =>
    cases hcb : toUint8With strictC (cbSum r g b) with
    | none => rw [hy, hcb] at h; simp at h
    | some cb =>
      cases hcr : toUint8With strictC (crSum r g b) with
      | none => rw [hy, hcb, hcr] at h; simp at h
      | some cr =>
        rw [hy, hcb, hcr] at h
        rw [toUint8With_of_strict outside _ y hy, toUint8With_of_strict outside _ cb hcb,
          toUint8With_of_strict outside _ cr hcr]
        exact h

/-- On a target every pixel has a result. -/
theorem ycbcr_pixel_with_onTarget (conv : Int → Nat) (r g b : Nat) :
    (ycbcr_pixel_with (onTarget conv) r g b).isSome = true := by
  have key : ∀ x, ∃ v, toUint8With (onTarget conv) x = some v := by
    intro x
    unfold toUint8With onTarget
    split
    · exact ⟨_, rfl⟩
    · exact ⟨_, rfl⟩
  obtain ⟨y, hy⟩ := key (ySum r g b)
  obtain ⟨cb, hcb⟩ := key (cbSum r g b)
  obtain ⟨cr, hcr⟩ := key (crSum r g b)
  simp [ycbcr_pixel_with, hy, hcb, hcr]

/-- Claim C10 (the code departs from it). `generate_ycbcr_data` converts each weighted sum
to `uint8_t` before it adds the offset, so a negative chroma sum is not truncated as the
formula asks. For the pixel (1,0,0) the sum for Cb is -0.148, the conversion gives 0 and the
code stores Cb = 128 where the formula gives 127. For the witness (255,0,0) of the claim the
sums for Y and Cr convert to 65 and 111 (Y = 81, Cr = 239 as claimed), but the sum for Cb is
-37.74, whose conversion to `uint8_t` has no defined result, where the formula gives
Cb = 90. The pixel (1,0,0) is stored as (16, 128, 128) whatever a target does with the
conversions C leaves undefined, and a target that keeps the low byte stores (255,0,0) as
(81, 91, 239). -/
theorem generate_ycbcr_data_vs_formula :
    ycbcr_pixel 1 0 0 = some (16, 128, 128) ∧
    ycbcrFormula 1 0 0 = (16, 127, 128) ∧
    generate_ycbcr_data
      { width := 1, height := 1, channels := 3, size := 3, data := [1, 0, 0],
        YCbCr_data := [0, 0, 0], colour_space := .RGB, allocation_ := .STB_ALLOCATED }
      = .returns
        { width := 1, height := 1, channels := 3, size := 3, data := [1, 0, 0],
          YCbCr_data := [16, 128, 128], colour_space := .RGB,
          allocation_ := .STB_ALLOCATED } ∧
    ycbcrFormula 255 0 0 = (81, 90, 239) ∧
    toUint8 (ySum 255 0 0) = some 65 ∧
    toUint8 (crSum 255 0 0) = some 111 ∧
    toUint8 (cbSum 255 0 0) = none ∧
    ycbcr_pixel 255 0 0 = none ∧
    generate_ycbcr_data
      { width := 1, height := 1, channels := 3, size := 3, data := [255, 0, 0],
        YCbCr_data := [0, 0, 0], colour_space := .RGB, allocation_ := .STB_ALLOCATED }
      = .undefined ∧
    (∀ outside : Int → Option Nat, ycbcr_pixel_with outside 1 0 0 = some (16, 128, 128)) ∧
    ycbcr_pixel_with (onTarget wrapLowByte) 255 0 0 = some (81, 91, 239) := by
  refine ⟨by decide, by decide, by decide, by decide, by decide, by decide, by decide,
    by decide, by decide, ?_, by decide⟩
  intro outside
  exact ycbcr_pixel_with_of_strict outside 1 0 0 _ (by decide)

/-! ## Theorems: cursor, composition and stale bits of the writer -/

/-- One bit written from a cursor in range: the call returns; from cursor 15 the cursor
goes to 0 and one unit joins the stream, otherwise the cursor moves up by one. -/
theorem writeBit_cursor (s : BitWriter) (b : Bool) (h : s.nbit ≤ 15) :
    ∃ s1, writeBit s b = some s1 ∧
      (s.nbit = 15 → s1.nbit = 0 ∧ ∃ u, s1.stream = s.stream ++ [u]) ∧
      (s.nbit < 15 → s1.nbit = s.nbit + 1 ∧ s1.stream = s.stream) := by
  have hgt : ¬ s.nbit > 15 := by omega
  by_cases h15 : s.nbit = 15
  · refine ⟨_, by simp only [writeBit, hgt, if_false, h15, if_true]; rfl, ?_, ?_⟩
    · intro _; exact ⟨rfl, _, rfl⟩
    · intro hlt; omega
  · refine ⟨_, by simp only [writeBit, hgt, if_false, h15]; rfl, ?_, ?_⟩
    · intro h; exact absurd h h15
    · intro _; exact ⟨Nat.mod_eq_of_lt (by omega), rfl⟩

/-- Writing bits from a cursor in range: the call returns, the cursor moves modulo 16, and
the stream gains one unit per wrap of the cursor. -/
theorem writeBits_cursor : ∀ (S : List Bool) (s : BitWriter), s.nbit ≤ 15 →
    ∃ s1 units, writeBits s S = some s1 ∧ s1.nbit = (s.nbit + S.length) % 16 ∧
      s1.stream = s.stream ++ units ∧ units.length = (s.nbit + S.length) / 16 := by
  intro S
  induction S with
  | nil =>
    intro s h
    refine ⟨s, [], rfl, ?_, by simp, ?_⟩
    · simp only [List.length_nil, Nat.add_zero]; omega
    · simp only [List.length_nil, Nat.add_zero]; omega
  | cons b S ih =>
    intro s h
    obtain ⟨s1, hs1, h15, hlt⟩ := writeBit_cursor s b h
    by_cases hc : s.nbit = 15
    · obtain ⟨hn1, u, hu⟩ := h15 hc
      obtain ⟨s2, units, h1, h2, h3, h4⟩ := ih s1 (by omega)
      refine ⟨s2, u :: units, by simp only [writeBits, hs1]; exact h1, ?_, ?_, ?_⟩
      · simp only [List.length_cons]; omega
      · rw [h3, hu]; simp
      · simp only [List.length_cons]; omega
    · obtain ⟨hn1, hst⟩ := hlt (by omega)
      obtain ⟨s2, units, h1, h2, h3, h4⟩ := ih s1 (by omega)
      refine ⟨s2, units, by simp only [writeBits, hs1]; exact h1, ?_, by rw [h3, hst], ?_⟩
      · simp only [List.length_cons]; omega
      · simp only [List.length_cons]; omega

/-- Claim C14. When the cursor is at most 15 before a `write_buffer` call with `len` at
most 16, the call returns, the cursor afterwards is `(old nbit + len) mod 16` (so at most
15), the stream gains exactly `(old nbit + len) / 16` units and keeps what it held, and a
call with `len = 0` returns the state it was given. -/
theorem write_buffer_cursor_in_range (s : BitWriter) (code len : Nat)
    (hn : s.nbit ≤ 15) (hl : len ≤ 16) :
    (∃ s1 units, write_buffer s code len = some s1 ∧ s1.nbit = (s.nbit + len) % 16 ∧
      s1.nbit ≤ 15 ∧ s1.stream = s.stream ++ units ∧
      units.length = (s.nbit + len) / 16) ∧
    write_buffer s code 0 = some s := by
  constructor
  · obtain ⟨s1, units, h1, h2, h3, h4⟩ := writeBits_cursor (bitsMSB code len) s hn
    rw [bitsMSB_length] at h2 h4
    exact ⟨s1, units, by rw [write_buffer_eq_writeBits s code len hl]; exact h1, h2,
      by rw [h2]; omega, h3, h4⟩
  · simp [write_buffer, writeLoop]

/-- Witness of claim C14: from cursor 14 a call of length 5 leaves the cursor at 3 and
writes one unit. -/
theorem write_buffer_cursor_in_range_witness :
    (∃ s1 units, write_buffer { buf := 0xABCD, nbit := 14, stream := [7] } 0x15 5 = some s1 ∧
      s1.nbit = (14 + 5) % 16 ∧ s1.nbit ≤ 15 ∧ s1.stream = [7] ++ units ∧
      units.length = (14 + 5) / 16) ∧
    write_buffer { buf := 0xABCD, nbit := 14, stream := [7] } 0x15 0
      = some { buf := 0xABCD, nbit := 14, stream := [7] } :=
  write_buffer_cursor_in_range { buf := 0xABCD, nbit := 14, stream := [7] } 0x15 5
    (by decide) (by decide)

/-- The low `l1 + l2` bits of two codes put side by side are the bits of the first
followed by the bits of the second. -/
theorem bitsMSB_concat (c1 l1 c2 l2 : Nat) :
    bitsMSB (((c1 % 2 ^ l1) <<< l2) ||| (c2 % 2 ^ l2)) (l1 + l2)
      = bitsMSB c1 l1 ++ bitsMSB c2 l2 := by
  apply List.ext_getElem?
  intro i
  by_cases hi : i < l1 + l2
  · rw [bitsMSB_getElem? _ _ _ hi, Nat.testBit_or, Nat.testBit_shiftLeft,
      Nat.testBit_mod_two_pow, Nat.testBit_mod_two_pow]
    by_cases h1 : i < l1
    · rw [List.getElem?_append_left (by rw [bitsMSB_length]; exact h1),
        bitsMSB_getElem? _ _ _ h1]
      have e1 : l1 + l2 - 1 - i ≥ l2 := by omega
      have e2 : l1 + l2 - 1 - i - l2 = l1 - 1 - i := by omega
      have e3 : l1 - 1 - i < l1 := by omega
      have e4 : ¬ l1 + l2 - 1 - i < l2 := by omega
      simp [e1, e2, e3, e4]
    · rw [List.getElem?_append_right (by rw [bitsMSB_length]; omega), bitsMSB_length,
        bitsMSB_getElem? _ _ _ (by omega)]
      have e1 : ¬ l1 + l2 - 1 - i ≥ l2 := by omega
      have e2 : l1 + l2 - 1 - i < l2 := by omega
      have e3 : l2 - 1 - (i - l1) = l1 + l2 - 1 - i := by omega
      simp [e1, e2, e3]
  · have h1 : (bitsMSB (((c1 % 2 ^ l1) <<< l2) ||| (c2 % 2 ^ l2)) (l1 + l2)).length ≤ i := by
      rw [bitsMSB_length]; omega
    have h2 : (bitsMSB c1 l1 ++ bitsMSB c2 l2).length ≤ i := by
      rw [List.length_append, bitsMSB_length, bitsMSB_length]; omega
    rw [List.getElem?_eq_none h1, List.getElem?_eq_none h2]

/-- Claim C19. For every state with cursor at most 15 and codes `c1`, `c2` of lengths
`l1 + l2 <= 16`, the call `write_buffer(c1, l1)` followed by `write_buffer(c2, l2)` returns
the same state (accumulator, cursor and written units) as the single call
`write_buffer(((c1 mod 2^l1) << l2) | (c2 mod 2^l2), l1 + l2)`, and that call returns. -/
theorem write_buffer_concat (s : BitWriter) (c1 l1 c2 l2 : Nat) (hn : s.nbit ≤ 15)
    (hl : l1 + l2 ≤ 16) :
    ∃ s2, write_buffer s (((c1 % 2 ^ l1) <<< l2) ||| (c2 % 2 ^ l2)) (l1 + l2) = some s2 ∧
      (write_buffer s c1 l1).bind (fun s1 => write_buffer s1 c2 l2) = some s2 := by
  obtain ⟨s2, _, h1, _⟩ := writeBits_cursor (bitsMSB c1 l1 ++ bitsMSB c2 l2) s hn
  refine ⟨s2, ?_, ?_⟩
  · rw [write_buffer_eq_writeBits _ _ _ hl, bitsMSB_concat]
    exact h1
  · rw [writeBits_append] at h1
    rw [write_buffer_eq_writeBits s c1 l1 (by omega)]
    cases hw : writeBits s (bitsMSB c1 l1) with
    | none => rw [hw] at h1; simp at h1
    | some s1 =>
      rw [hw] at h1
      simp only [Option.some_bind] at h1 ⊢
      rw [write_buffer_eq_writeBits s1 c2 l2 (by omega)]
      exact h1

/-- Witness of claim C19: 0b101 on 3 bits then 0x3F on 6 bits from cursor 12, against
the single call of 0b101111111 on 9 bits. -/
theorem write_buffer_concat_witness :
    ∃ s2, write_buffer { buf := 0x1230, nbit := 12, stream := [] }
        (((0b101 % 2 ^ 3) <<< 6) ||| (0x3F % 2 ^ 6)) (3 + 6) = some s2 ∧
      (write_buffer { buf := 0x1230, nbit := 12, stream := [] } 0b101 3).bind
        (fun s1 => write_buffer s1 0x3F 6) = some s2 :=
  write_buffer_concat { buf := 0x1230, nbit := 12, stream := [] } 0b101 3 0x3F 6
    (by decide) (by decide)

/-- The set or clear of bit `15 - n` leaves the bits below it as they were. -/
theorem stored_low_bits (buf n : Nat) (b : Bool) (hn : n ≤ 15) :
    (if b then (buf ||| (1 <<< (15 - n))) % 65536
      else (buf &&& (0xFFFFFFFF ^^^ (1 <<< (15 - n)))) % 65536) % 2 ^ (15 - n)
      = buf % 2 ^ (15 - n) := by
  apply Nat.eq_of_testBit_eq
  intro j
  rw [Nat.testBit_mod_two_pow, Nat.testBit_mod_two_pow]
  by_cases hj : j < 15 - n
  · have h1 : j < 16 := by omega
    have h2 : j < 32 := by omega
    have h3 : ¬ (15 - n = j) := by omega
    cases b
    · simp [testBit_mod_65536, testBit_mask32, Nat.testBit_and, Nat.testBit_xor,
        Nat.one_shiftLeft, Nat.testBit_two_pow, h1, h2, h3, hj]
    · simp [testBit_mod_65536, Nat.testBit_or, Nat.one_shiftLeft, Nat.testBit_two_pow,
        h1, h3, hj]
  · simp [hj]

/-- A bit written below cursor 15 joins the pending bits and leaves the bits under it as
they were. -/
theorem writeBit_keep (s : BitWriter) (P : List Bool) (b : Bool) (h : Pending s P)
    (hlt : P.length < 15) :
    ∃ s1, writeBit s b = some s1 ∧ Pending s1 (P ++ [b]) ∧ s1.buf < 65536 ∧
      s1.buf % 2 ^ (15 - P.length) = s.buf % 2 ^ (15 - P.length) := by
  obtain ⟨s1, hs1, hkeep, _⟩ := writeBit_pending s P b h
  have hn : s.nbit = P.length := h.1
  have hgt : ¬ s.nbit > 15 := by omega
  have h15 : ¬ s.nbit = 15 := by omega
  refine ⟨s1, hs1, (hkeep hlt).1, ?_, ?_⟩
  · simp only [writeBit, hgt, if_false, h15, Option.some.injEq] at hs1
    rw [← hs1]
    simp only
    split <;> exact Nat.mod_lt _ (by norm_num)
  · simp only [writeBit, hgt, if_false, h15, Option.some.injEq] at hs1
    rw [← hs1, ← hn]
    exact stored_low_bits s.buf s.nbit b (by omega)

/-- The bit written at cursor 15 completes a word: the accumulator then holds that word,
and it is not cleared. -/
theorem writeBit_flush (s : BitWriter) (P : List Bool) (b : Bool) (h : Pending s P)
    (h15 : P.length = 15) :
    ∃ s1, writeBit s b = some s1 ∧ Pending s1 [] ∧ s1.buf = wordOfBits (P ++ [b]) := by
  obtain ⟨s1, hs1, _, hflush⟩ := writeBit_pending s P b h
  obtain ⟨hn, _, hb⟩ := h
  have hgt : ¬ s.nbit > 15 := by omega
  have hc : s.nbit = 15 := by omega
  refine ⟨s1, hs1, (hflush h15).1, ?_⟩
  have key := stored_bit s.buf s.nbit b (by omega)
  rw [hc] at key
  simp only [Nat.sub_self, Nat.shiftRight_zero] at key
  have hlt : (if b then (s.buf ||| (1 <<< (15 - 15))) % 65536
      else (s.buf &&& (0xFFFFFFFF ^^^ (1 <<< (15 - 15)))) % 65536) < 65536 := by
    split <;> exact Nat.mod_lt _ (by norm_num)
  rw [Nat.mod_eq_of_lt hlt] at key
  have h0 : ¬ (15 > 15) := by decide
  simp only [writeBit, hc, h0, if_false, if_true, Option.some.injEq] at hs1
  rw [← hs1, wordOfBits_append, ← hb, ← hn, hc]
  exact key

theorem lastWordOf_block (W : Nat) (Q S : List Bool) (hQ : Q.length = 16) :
    lastWordOf W (Q ++ S) = lastWordOf (wordOfBits Q) S := by
  unfold lastWordOf
  have h1 : ¬ (Q ++ S).length < 16 := by rw [List.length_append, hQ]; omega
  rw [if_neg h1]
  by_cases hS : S.length < 16
  · rw [if_pos hS]
    have h2 : (Q ++ S).length / 16 - 1 = 0 := by rw [List.length_append, hQ]; omega
    rw [h2]
    have : List.take 16 (Q ++ S) = Q := by
      rw [← hQ]; exact List.take_left' rfl
    simp [this]
  · rw [if_neg hS]
    have h2 : (Q ++ S).length / 16 - 1 = (S.length / 16 - 1) + 1 := by
      rw [List.length_append, hQ]; omega
    rw [h2, drop_block Q S hQ]

/-- Writing the bits `S` after the pending bits `P`, with the bits under the pending ones
equal to those of `W`: afterwards the bits under the pending ones are those of the word
completed at the last flush, or still those of `W` when no unit was completed. -/
theorem writeBits_stale : ∀ (S P : List Bool) (s : BitWriter) (W : Nat), Pending s P →
    s.buf < 65536 → s.buf % 2 ^ (16 - P.length) = W % 2 ^ (16 - P.length) →
    ∃ s1, writeBits s S = some s1 ∧ s1.nbit = (P.length + S.length) % 16 ∧
      s1.buf < 65536 ∧
      s1.buf % 2 ^ (16 - s1.nbit) = lastWordOf W (P ++ S) % 2 ^ (16 - s1.nbit) := by
  intro S
  induction S with
  | nil =>
    intro P s W h hb hW
    have hP : P.length ≤ 15 := h.2.1
    have hn : s.nbit = P.length := h.1
    refine ⟨s, rfl, by simp only [List.length_nil, Nat.add_zero]; omega, hb, ?_⟩
    have : lastWordOf W (P ++ []) = W := by
      simp only [lastWordOf, List.append_nil]
      rw [if_pos (by omega)]
    rw [this, hn]
    exact hW
  | cons b S ih =>
    intro P s W h hb hW
    have hP : P.length ≤ 15 := h.2.1
    have happ : P ++ b :: S = (P ++ [b]) ++ S := by simp
    by_cases h15 : P.length = 15
    · obtain ⟨s1, hs1, hp1, hbuf⟩ := writeBit_flush s P b h h15
      have hQ : (P ++ [b]).length = 16 := by simp [h15]
      have hlt : s1.buf < 65536 := by
        rw [hbuf]
        have := wordOfBits_lt (P ++ [b])
        rw [hQ] at this
        exact this
      obtain ⟨s2, hs2, hn2, hb2, hw2⟩ := ih [] s1 (wordOfBits (P ++ [b])) hp1 hlt
        (by rw [hbuf])
      have e : ([] : List Bool).length + S.length = S.length := by simp
      refine ⟨s2, by simp only [writeBits, hs1]; exact hs2, ?_, hb2, ?_⟩
      · rw [hn2, e, List.length_cons, h15]; omega
      · rw [happ, lastWordOf_block W _ S hQ]
        simpa using hw2
    · obtain ⟨s1, hs1, hp1, hlt, hlow⟩ := writeBit_keep s P b h (by omega)
      have hW1 : s1.buf % 2 ^ (16 - (P ++ [b]).length) = W % 2 ^ (16 - (P ++ [b]).length) := by
        have e : 16 - (P ++ [b]).length = 15 - P.length := by
          simp only [List.length_append, List.length_cons, List.length_nil]; omega
        rw [e, hlow]
        have hd : 2 ^ (15 - P.length) ∣ 2 ^ (16 - P.length) :=
          Nat.pow_dvd_pow 2 (by omega)
        rw [← Nat.mod_mod_of_dvd s.buf hd, hW, Nat.mod_mod_of_dvd W hd]
      obtain ⟨s2, hs2, hn2, hb2, hw2⟩ := ih (P ++ [b]) s1 W hp1 hlt hW1
      have e : (P ++ [b]).length + S.length = P.length + (b :: S).length := by
        simp only [List.length_append, List.length_cons, List.length_nil]; omega
      refine ⟨s2, by simp only [writeBits, hs1]; exact hs2, by rw [hn2, e], hb2, ?_⟩
      rw [happ]; exact hw2

theorem lastWordOf_lt (W : Nat) (bits : List Bool) (hW : W < 65536) :
    lastWordOf W bits < 65536 := by
  unfold lastWordOf
  split
  · exact hW
  · have h1 := wordOfBits_lt ((bits.drop (16 * (bits.length / 16 - 1))).take 16)
    have h2 : ((bits.drop (16 * (bits.length / 16 - 1))).take 16).length ≤ 16 := by
      rw [List.length_take]; exact Nat.min_le_left _ _
    have h3 : (2 : Nat) ^ ((bits.drop (16 * (bits.length / 16 - 1))).take 16).length
        ≤ 2 ^ 16 := Nat.pow_le_pow_right (by decide) h2
    have h4 : (2 : Nat) ^ 16 = 65536 := by norm_num
    omega

/-- Claim C15, the counterexample. From a zero accumulator and cursor 0 the calls (5, 3)
and (7, 13) fill one unit: the unit 0x07A0 is written, the cursor is back at 0, and the
accumulator still holds 0xA007, so its bits 15 down to 0 are not all zero. -/
theorem write_buffer_accumulator_not_cleared :
    writeAll { buf := 0, nbit := 0, stream := [] } [(5, 3), (7, 13)]
      = some { buf := 0xA007, nbit := 0, stream := [0x07A0] } ∧
    0xA007 % 2 ^ (16 - 0) ≠ 0 := by
  constructor <;> decide

/-- Swapping the bytes of a 16-bit word twice gives the word back. -/
theorem bswap16_bswap16 (w : Nat) (h : w < 65536) : bswap16 (bswap16 w) = w := by
  unfold bswap16
  omega

/-- The last unit of a bit string with a complete group of 16 bits is the byte swap of its
last complete group. -/
theorem unitsOf_getLast (W : Nat) (bits : List Bool) (h : 16 ≤ bits.length) :
    (unitsOf bits).getLast? = some (bswap16 (lastWordOf W bits)) := by
  have hpos : 0 < bits.length / 16 := Nat.div_pos h (by decide)
  have hlt : bits.length / 16 - 1 < bits.length / 16 := by omega
  unfold unitsOf lastWordOf
  rw [if_neg (by omega), List.getLast?_eq_getElem?, List.length_map, List.length_range,
    List.getElem?_map, List.getElem?_range hlt]
  rfl

/-- Claim C15, as amended. From a zero accumulator and cursor 0, after every sequence of
`write_buffer` calls with lengths at most 16 the stream has gained the units of the bits
written, one for every 16 bits. As long as no unit has been flushed (fewer than 16 bits
written) the accumulator bits at the positions not yet written (15 - nbit down to 0) are
all zero. Once a unit has been flushed, the bits at the positions not written since the
last flush are the corresponding bits of the byte swap of the unit `u` last appended to
the stream, which is the 16-bit word completed at that flush: the accumulator is not
cleared by a flush, and right after a flush (cursor 0) it equals that word. -/
theorem write_buffer_accumulator_stale (stream : List Nat) (calls : List (Nat × Nat))
    (hlen : ∀ c ∈ calls, c.2 ≤ 16) :
    ∃ s, writeAll { buf := 0, nbit := 0, stream := stream } calls = some s ∧
      s.nbit = (callBits calls).length % 16 ∧ s.buf < 65536 ∧
      s.stream = stream ++ unitsOf (callBits calls) ∧
      s.stream.length = stream.length + (callBits calls).length / 16 ∧
      ((callBits calls).length < 16 → s.stream = stream ∧ s.buf % 2 ^ (16 - s.nbit) = 0) ∧
      (16 ≤ (callBits calls).length →
        ∃ u, s.stream.getLast? = some u ∧ u = bswap16 (lastWordOf 0 (callBits calls)) ∧
          bswap16 u = lastWordOf 0 (callBits calls) ∧
          s.buf % 2 ^ (16 - s.nbit) = bswap16 u % 2 ^ (16 - s.nbit) ∧
          (s.nbit = 0 → s.buf = bswap16 u)) := by
  obtain ⟨s, hs, hn, hb, hw⟩ := writeBits_stale (callBits calls) []
    { buf := 0, nbit := 0, stream := stream } 0 (pending_start 0 stream)
    (by show (0 : Nat) < 65536; decide) rfl
  obtain ⟨s', hs', hst', _⟩ := writeBits_pending (callBits calls) []
    { buf := 0, nbit := 0, stream := stream } (pending_start 0 stream)
  have hss : s' = s := Option.some.inj (hs'.symm.trans hs)
  rw [hss] at hst'
  have hst : s.stream = stream ++ unitsOf (callBits calls) := by simpa using hst'
  have hw2 : s.buf % 2 ^ (16 - s.nbit) = lastWordOf 0 (callBits calls) % 2 ^ (16 - s.nbit) := by
    simpa using hw
  have hl := lastWordOf_lt 0 (callBits calls) (by decide)
  refine ⟨s, by rw [writeAll_eq_writeBits calls _ hlen]; exact hs, by simpa using hn, hb,
    hst, by rw [hst]; simp [unitsOf], ?_, ?_⟩
  · intro hlt
    have h0 : lastWordOf 0 (callBits calls) = 0 := by
      simp [lastWordOf, hlt]
    have hu : unitsOf (callBits calls) = [] := by
      have : (callBits calls).length / 16 = 0 := by omega
      simp [unitsOf, this]
    refine ⟨by rw [hst, hu, List.append_nil], ?_⟩
    rw [hw2, h0]
    simp
  · intro hge
    have hlast := unitsOf_getLast 0 (callBits calls) hge
    refine ⟨bswap16 (lastWordOf 0 (callBits calls)), ?_, rfl, bswap16_bswap16 _ hl, ?_, ?_⟩
    · rw [hst, List.getLast?_append, hlast]
      rfl
    · rw [bswap16_bswap16 _ hl]
      exact hw2
    · intro h0
      rw [bswap16_bswap16 _ hl]
      rw [h0] at hw2
      have e : (2 : Nat) ^ (16 - 0) = 65536 := by norm_num
      rw [e, Nat.mod_eq_of_lt hb, Nat.mod_eq_of_lt hl] at hw2
      exact hw2

/-- Witness of claim C15 as amended, on the calls (5, 3), (7, 13), (1, 2): the unit 0x07A0
is in the stream, the cursor is 2, the accumulator is 0x6007, and its low 14 bits are those
of 0xA007, the byte swap of that unit. -/
theorem write_buffer_accumulator_stale_witness :
    (∃ s, writeAll { buf := 0, nbit := 0, stream := [] } [(5, 3), (7, 13), (1, 2)] = some s ∧
      s.nbit = (callBits [(5, 3), (7, 13), (1, 2)]).length % 16 ∧ s.buf < 65536 ∧
      s.stream = [] ++ unitsOf (callBits [(5, 3), (7, 13), (1, 2)]) ∧
      s.stream.length
        = ([] : List Nat).length + (callBits [(5, 3), (7, 13), (1, 2)]).length / 16 ∧
      ((callBits [(5, 3), (7, 13), (1, 2)]).length < 16 →
        s.stream = [] ∧ s.buf % 2 ^ (16 - s.nbit) = 0) ∧
      (16 ≤ (callBits [(5, 3), (7, 13), (1, 2)]).length →
        ∃ u, s.stream.getLast? = some u ∧
          u = bswap16 (lastWordOf 0 (callBits [(5, 3), (7, 13), (1, 2)])) ∧
          bswap16 u = lastWordOf 0 (callBits [(5, 3), (7, 13), (1, 2)]) ∧
          s.buf % 2 ^ (16 - s.nbit) = bswap16 u % 2 ^ (16 - s.nbit) ∧
          (s.nbit = 0 → s.buf = bswap16 u))) ∧
    writeAll { buf := 0, nbit := 0, stream := [] } [(5, 3), (7, 13), (1, 2)]
      = some { buf := 0x6007, nbit := 2, stream := [0x07A0] } ∧
    bswap16 0x07A0 = 0xA007 ∧ 0x6007 % 2 ^ (16 - 2) = 0xA007 % 2 ^ (16 - 2) :=
  ⟨write_buffer_accumulator_stale [] [(5, 3), (7, 13), (1, 2)] (by decide),
    by decide, by decide, by decide⟩
/-! ## Theorems: the reads and writes of the zigzag scan -/

/-- Claim C18. Each of the 64 reads of `zig_zag_order` is at a cell with
`0 <= row <= 7` and `0 <= col <= 7`, also right after the reflections at the bottom-left
corner ((7,0) is followed by (7,1)), at the top-right corner ((0,7) is followed by (1,6))
and in the right column ((1,7) is followed by (2,7)); so the call returns for every grid,
and it writes exactly the slots 0..63 of `output`: each of them gets the converted sample
of its cell whatever it held, and every other slot keeps its value. -/
theorem zig_zag_order_in_block {α : Type} (toInt : α → Int) (output : Nat → Int)
    (Matrix : Int → Int → α) :
    (∀ i : Fin 64, 0 ≤ (zigzagCell i).1 ∧ (zigzagCell i).1 ≤ 7 ∧
      0 ≤ (zigzagCell i).2 ∧ (zigzagCell i).2 ≤ 7) ∧
    (zigzagCell 35 = (7, 0) ∧ zigzagCell 36 = (7, 1)) ∧
    (zigzagCell 28 = (0, 7) ∧ zigzagCell 29 = (1, 6)) ∧
    (zigzagCell 42 = (1, 7) ∧ zigzagCell 43 = (2, 7)) ∧
    zigzagCell 63 = (7, 7) ∧
    ∃ out, zig_zag_order toInt output Matrix = some out ∧
      (∀ i : Fin 64, out i = toInt (Matrix (zigzagCell i).1 (zigzagCell i).2)) ∧
      (∀ k, 64 ≤ k → out k = output k) := by
  refine ⟨by decide, by decide, by decide, by decide, by decide, _,
    zigzagLoop_eq toInt Matrix 64 0 zigzagStart output
      (fun j hj => zigzagCell_inBlock ⟨j, hj⟩), ?_, ?_⟩
  · intro i
    have hi : (0 ≤ i.val ∧ i.val < 0 + 64) := ⟨Nat.zero_le _, by omega⟩
    simp only [if_pos hi, Nat.sub_zero, zigzagCell]
  · intro k hk
    have hn : ¬ (0 ≤ k ∧ k < 0 + 64) := by omega
    simp only [if_neg hn]

/-! ## Theorems: what generate_huff_codes changes -/

/-- A call of `generate_huff_codes` that returns has run the two loops on the codes, set
the flag, and left `offsets` and `symbols` alone; for a DC type it has left the cached
fields alone as well. -/
theorem generate_huff_codes_some (t t1 : HuffmanTable) (type : Table_t)
    (h : generate_huff_codes t type = some t1) :
    (∃ b c, lengthLoop t.offsets 16 1 t.codes 0 0 = some (t1.codes, b, c)) ∧
      t1.set = true ∧ t1.offsets = t.offsets ∧ t1.symbols = t.symbols ∧
      ((type = .LUM_DC_TABLE ∨ type = .COL_DC_TABLE) →
        t1.EOB_code_index = t.EOB_code_index ∧ t1.EOB_code_len = t.EOB_code_len ∧
        t1.ZRL_code_index = t.ZRL_code_index ∧ t1.ZRL_code_len = t.ZRL_code_len) := by
  unfold generate_huff_codes at h
  cases hl : lengthLoop t.offsets 16 1 t.codes 0 0 with
  | none => simp [hl] at h
  | some res =>
    obtain ⟨r, b1, c1⟩ := res
    simp only [hl] at h
    by_cases hty : type = .LUM_AC_TABLE ∨ type = .COL_AC_TABLE
    · simp only [hty, if_true] at h
      have hdc : ¬ (type = .LUM_DC_TABLE ∨ type = .COL_DC_TABLE) := by
        rcases hty with e | e <;> simp [e]
      cases hz : fetchIndex t.symbols 0xf0 162 0 with
      | none => simp [hz] at h
      | some iz =>
        simp only [hz] at h
        cases hcz : r[iz]? with
        | none => simp [hcz] at h
        | some cz =>
          cases hfz : fetchLength t.offsets iz with
          | none => simp [hcz, hfz] at h
          | some lz =>
            simp only [hcz, hfz] at h
            cases he : fetchIndex t.symbols 0x00 162 0 with
            | none => simp [he] at h
            | some ie =>
              simp only [he] at h
              cases hce : r[ie]? with
              | none => simp [hce] at h
              | some ce =>
                cases hfe : fetchLength t.offsets ie with
                | none => simp [hce, hfe] at h
                | some le =>
                  simp only [hce, hfe, Option.some.injEq] at h
                  subst h
                  exact ⟨⟨b1, c1, rfl⟩, rfl, rfl, rfl, fun hd => absurd hd hdc⟩
    · simp only [hty, if_false, Option.some.injEq] at h
      subst h
      exact ⟨⟨b1, c1, rfl⟩, rfl, rfl, rfl, fun _ => ⟨rfl, rfl, rfl, rfl⟩⟩

/-- For a DC type the call returns as soon as the two loops do, with the codes of the
loops and the flag set. -/
theorem generate_huff_codes_dc (t : HuffmanTable) (type : Table_t) (r : List Nat) (b c : Nat)
    (hty : type = .LUM_DC_TABLE ∨ type = .COL_DC_TABLE)
    (hl : lengthLoop t.offsets 16 1 t.codes 0 0 = some (r, b, c)) :
    generate_huff_codes t type = some { t with codes := r, set := true } := by
  have hac : ¬ (type = .LUM_AC_TABLE ∨ type = .COL_AC_TABLE) := by
    rcases hty with e | e <;> simp [e]
  simp [generate_huff_codes, hl, hac]

/-- For an AC type the call returns as soon as the two loops and the four lookups do. -/
theorem generate_huff_codes_ac (t : HuffmanTable) (type : Table_t) (r : List Nat)
    (b c iz lz ie le : Nat) (hty : type = .LUM_AC_TABLE ∨ type = .COL_AC_TABLE)
    (hl : lengthLoop t.offsets 16 1 t.codes 0 0 = some (r, b, c))
    (hz : fetchIndex t.symbols 0xf0 162 0 = some iz) (hiz : iz < r.length)
    (hlz : fetchLength t.offsets iz = some lz)
    (he : fetchIndex t.symbols 0x00 162 0 = some ie) (hie : ie < r.length)
    (hle : fetchLength t.offsets ie = some le) :
    generate_huff_codes t type = some { t with
      codes := r, set := true, ZRL_code_index := iz, ZRL_code_len := lz,
      EOB_code_index := ie, EOB_code_len := le } := by
  have h1 : r[iz]? = some r[iz] := List.getElem?_eq_getElem hiz
  have h2 : r[ie]? = some r[ie] := List.getElem?_eq_getElem hie
  simp [generate_huff_codes, hl, hty, hz, he, hlz, hle, h1, h2]

/-! ## Theorems: the canonical assignment -/

theorem canonFirst_lt (offsets : List Nat) (L : Nat) : canonFirst offsets L < 65536 := by
  cases L with
  | zero => simp [canonFirst]
  | succ L =>
    simp only [canonFirst]
    split
    · decide
    · exact Nat.mod_lt _ (by decide)

theorem bucketStart_succ (offsets : List Nat) (L : Nat) (hL : 1 ≤ L) :
    bucketStart offsets (L + 1) = bucketStart offsets L + offsets.getD L 0 := by
  have h : ¬ L = 0 := by omega
  simp [bucketStart, h]

theorem canonFirst_succ (offsets : List Nat) (L : Nat) (hL : 1 ≤ L) :
    canonFirst offsets (L + 1) = (2 * (canonFirst offsets L + offsets.getD L 0)) % 65536 := by
  have h : ¬ L = 0 := by omega
  simp [canonFirst, h]

theorem bucketStart_mono (offsets : List Nat) (L : Nat) :
    ∀ d, bucketStart offsets L ≤ bucketStart offsets (L + d) := by
  intro d
  induction d with
  | zero => exact Nat.le_refl _
  | succ d ih =>
    by_cases h : L + d = 0
    · have h1 : L = 0 := by omega
      have h2 : d = 0 := by omega
      subst h1; subst h2
      simp [bucketStart]
    · have : L + (d + 1) = (L + d) + 1 := by omega
      rw [this, bucketStart_succ offsets (L + d) (by omega)]
      omega

theorem bucketStart_le (offsets : List Nat) (L M : Nat) (h : L ≤ M) :
    bucketStart offsets L ≤ bucketStart offsets M := by
  have := bucketStart_mono offsets L (M - L)
  rwa [Nat.add_sub_cancel' h] at this

/-- The inner loop with room for its stores: it returns, stores the running value and its
successors at `code_num` and the slots after it, and leaves every other slot alone. -/
theorem assignCodes_spec : ∀ (n : Nat) (codes : List Nat) (b c : Nat), c + n ≤ 162 →
    b < 65536 →
    ∃ r, assignCodes n codes b c = some (r, (b + n) % 65536, c + n) ∧
      r.length = codes.length ∧
      (∀ j, j < n → c + j < codes.length → r[c + j]? = some ((b + j) % 65536)) ∧
      (∀ p, p < c ∨ c + n ≤ p → r[p]? = codes[p]?) := by
  intro n
  induction n with
  | zero =>
    intro codes b c _ hb
    refine ⟨codes, ?_, rfl, fun j hj => absurd hj (Nat.not_lt_zero j), fun _ _ => rfl⟩
    simp [assignCodes, Nat.mod_eq_of_lt hb]
  | succ n ih =>
    intro codes b c hc hb
    have hc1 : c < 162 := by omega
    have hm : (c + 1) % 256 = c + 1 := Nat.mod_eq_of_lt (by omega)
    obtain ⟨r, h1, h2, h3, h4⟩ := ih (codes.set c b) ((b + 1) % 65536) (c + 1)
      (by omega) (Nat.mod_lt _ (by decide))
    refine ⟨r, ?_, by simpa using h2, ?_, ?_⟩
    · simp only [assignCodes, hc1, if_true, hm]
      rw [h1]
      have e1 : ((b + 1) % 65536 + n) % 65536 = (b + (n + 1)) % 65536 := by omega
      have e2 : c + 1 + n = c + (n + 1) := by omega
      rw [e1, e2]
    · intro j hj hlen
      cases j with
      | zero =>
        rw [Nat.add_zero, h4 c (Or.inl (by omega)), List.getElem?_set_self (by simpa using hlen),
          Nat.add_zero, Nat.mod_eq_of_lt hb]
      | succ j =>
        have e : c + (j + 1) = c + 1 + j := by omega
        rw [e, h3 j (by omega) (by simpa [e] using hlen)]
        congr 1
        omega
    · intro p hp
      rw [h4 p (by omega), List.getElem?_set_ne (by omega)]

/-- The outer loop entered at length `i` with the canonical running value and index: it
returns, every symbol of a length from `i` on gets its canonical code, and the slots
before and beyond stay as they were. -/
theorem lengthLoop_canonical (offsets : List Nat) (ho : offsets.length = 17)
    (hs : bucketStart offsets 17 ≤ 162) :
    ∀ (todo i : Nat) (codes : List Nat), 1 ≤ i → i + todo = 17 →
    ∃ r b1, lengthLoop offsets todo i codes (canonFirst offsets i) (bucketStart offsets i)
        = some (r, b1, bucketStart offsets 17) ∧
      r.length = codes.length ∧
      (∀ L j, i ≤ L → L ≤ 16 → j < offsets.getD L 0 →
        bucketStart offsets L + j < codes.length →
        r[bucketStart offsets L + j]? = some ((canonFirst offsets L + j) % 65536)) ∧
      (∀ p, p < bucketStart offsets i ∨ bucketStart offsets 17 ≤ p → r[p]? = codes[p]?) := by
  intro todo
  induction todo with
  | zero =>
    intro i codes _ hi
    have : i = 17 := by omega
    subst this
    exact ⟨codes, _, rfl, rfl, fun L j h1 h2 => by omega, fun _ _ => rfl⟩
  | succ todo ih =>
    intro i codes h1 hi
    have hget : offsets[i]? = some (offsets.getD i 0) := by
      have hlt : i < offsets.length := by omega
      simp [List.getD_eq_getElem?_getD, List.getElem?_eq_getElem hlt]
    have hnext := bucketStart_succ offsets i h1
    have hle : bucketStart offsets (i + 1) ≤ bucketStart offsets 17 :=
      bucketStart_le offsets _ _ (by omega)
    obtain ⟨r1, ha, hlen1, hval1, hkeep1⟩ := assignCodes_spec (offsets.getD i 0) codes
      (canonFirst offsets i) (bucketStart offsets i) (by omega) (canonFirst_lt offsets i)
    have hb : (((canonFirst offsets i + offsets.getD i 0) % 65536) <<< 1) % 65536
        = canonFirst offsets (i + 1) := by
      rw [canonFirst_succ offsets i h1, Nat.shiftLeft_eq]
      omega
    obtain ⟨r, b1, hl, hlen, hval, hkeep⟩ := ih (i + 1) r1 (by omega) (by omega)
    refine ⟨r, b1, ?_, by rw [hlen, hlen1], ?_, ?_⟩
    · simp only [lengthLoop, hget, ha, hb, ← hnext]
      exact hl
    · intro L j hL1 hL2 hj hidx
      by_cases hLi : L = i
      · subst hLi
        rw [hkeep _ (Or.inl (by omega))]
        exact hval1 j hj hidx
      · exact hval L j (by omega) hL2 hj (by rw [hlen1]; exact hidx)
    · intro p hp
      rw [hkeep p (by omega), hkeep1 p (by omega)]

/-- Every index below the number of symbols lies in the bucket of one length. -/
theorem bucket_cover (offsets : List Nat) : ∀ (M p : Nat), p < bucketStart offsets (M + 1) →
    ∃ L j, 1 ≤ L ∧ L ≤ M ∧ j < offsets.getD L 0 ∧ p = bucketStart offsets L + j := by
  intro M
  induction M with
  | zero =>
    intro p hp
    simp [bucketStart] at hp
  | succ M ih =>
    intro p hp
    rw [bucketStart_succ offsets (M + 1) (by omega)] at hp
    by_cases h : p < bucketStart offsets (M + 1)
    · obtain ⟨L, j, h1, h2, h3, h4⟩ := ih p h
      exact ⟨L, j, h1, by omega, h3, h4⟩
    · exact ⟨M + 1, p - bucketStart offsets (M + 1), by omega, Nat.le_refl _, by omega,
        by omega⟩

/-- Claim C12. For every table (17 offsets, 162 codes) whose `offsets[1..16]` sum to at
most 162, the two loops of `generate_huff_codes` return codes that are the canonical
assignment: the `j`-th symbol of length `L`, at index `offsets[1]+...+offsets[L-1]+j`, has
the code `(first(L) + j) mod 2^16`, every index below the sum is such an index, and the
entries from the sum on are unchanged. Whenever `generate_huff_codes` returns, for any
type, the table holds those codes with `set` true, and for a DC type it does return. -/
theorem generate_huff_codes_canonical (t : HuffmanTable) (ho : t.offsets.length = 17)
    (hc : t.codes.length = 162) (hs : bucketStart t.offsets 17 ≤ 162) :
    ∃ r b,
      lengthLoop t.offsets 16 1 t.codes 0 0 = some (r, b, bucketStart t.offsets 17) ∧
      r.length = 162 ∧
      (∀ L j, 1 ≤ L → L ≤ 16 → j < t.offsets.getD L 0 →
        r[bucketStart t.offsets L + j]? = some ((canonFirst t.offsets L + j) % 65536)) ∧
      (∀ p, p < bucketStart t.offsets 17 →
        ∃ L j, 1 ≤ L ∧ L ≤ 16 ∧ j < t.offsets.getD L 0 ∧ p = bucketStart t.offsets L + j) ∧
      (∀ p, bucketStart t.offsets 17 ≤ p → r[p]? = t.codes[p]?) ∧
      (∀ type t1, generate_huff_codes t type = some t1 → t1.codes = r ∧ t1.set = true) ∧
      (∀ type, type = .LUM_DC_TABLE ∨ type = .COL_DC_TABLE →
        generate_huff_codes t type = some { t with codes := r, set := true }) := by
  obtain ⟨r, b, hl, hlen, hval, hkeep⟩ :=
    lengthLoop_canonical t.offsets ho hs 16 1 t.codes (Nat.le_refl 1) rfl
  have hl0 : lengthLoop t.offsets 16 1 t.codes 0 0 = some (r, b, bucketStart t.offsets 17) := by
    simpa [canonFirst, bucketStart] using hl
  refine ⟨r, b, hl0, by rw [hlen, hc], ?_, bucket_cover t.offsets 16, ?_, ?_, ?_⟩
  · intro L j h1 h2 hj
    have hidx : bucketStart t.offsets L + j < t.codes.length := by
      have := bucketStart_le t.offsets (L + 1) 17 (by omega)
      rw [bucketStart_succ t.offsets L h1] at this
      omega
    exact hval L j h1 h2 hj hidx
  · intro p hp
    exact hkeep p (Or.inr hp)
  · intro type t1 h
    obtain ⟨⟨b2, c2, h1⟩, h2, _⟩ := generate_huff_codes_some t t1 type h
    rw [hl0] at h1
    simp only [Option.some.injEq, Prod.mk.injEq] at h1
    exact ⟨h1.1.symm, h2⟩
  · intro type hty
    exact generate_huff_codes_dc t type r b _ hty hl0

/-! ## Theorems: how many codes are assigned -/

/-- For an AC type, a call that returns has found both reserved symbols within the codes
and recovered both lengths, and has cached what it found. -/
theorem generate_huff_codes_ac_some (t t1 : HuffmanTable) (type : Table_t)
    (hty : type = .LUM_AC_TABLE ∨ type = .COL_AC_TABLE)
    (h : generate_huff_codes t type = some t1) :
    ∃ iz lz ie le, fetchIndex t.symbols 0xf0 162 0 = some iz ∧ iz < t1.codes.length ∧
      fetchLength t.offsets iz = some lz ∧
      fetchIndex t.symbols 0x00 162 0 = some ie ∧ ie < t1.codes.length ∧
      fetchLength t.offsets ie = some le ∧
      t1.ZRL_code_index = iz ∧ t1.ZRL_code_len = lz ∧
      t1.EOB_code_index = ie ∧ t1.EOB_code_len = le := by
  unfold generate_huff_codes at h
  cases hl : lengthLoop t.offsets 16 1 t.codes 0 0 with
  | none => simp [hl] at h
  | some res =>
    obtain ⟨r, b1, c1⟩ := res
    simp only [hl, hty, if_true] at h
    cases hz : fetchIndex t.symbols 0xf0 162 0 with
    | none => simp [hz] at h
    | some iz =>
      simp only [hz] at h
      cases hcz : r[iz]? with
      | none => simp [hcz] at h
      | some cz =>
        cases hfz : fetchLength t.offsets iz with
        | none => simp [hcz, hfz] at h
        | some lz =>
          simp only [hcz, hfz] at h
          cases he : fetchIndex t.symbols 0x00 162 0 with
          | none => simp [he] at h
          | some ie =>
            simp only [he] at h
            cases hce : r[ie]? with
            | none => simp [hce] at h
            | some ce =>
              cases hfe : fetchLength t.offsets ie with
              | none => simp [hce, hfe] at h
              | some le =>
                simp only [hce, hfe, Option.some.injEq] at h
                subst h
                have h1 : iz < r.length := by
                  by_contra hn
                  rw [List.getElem?_eq_none (by omega)] at hcz
                  exact Option.noConfusion hcz
                have h2 : ie < r.length := by
                  by_contra hn
                  rw [List.getElem?_eq_none (by omega)] at hce
                  exact Option.noConfusion hce
                exact ⟨iz, lz, ie, le, rfl, h1, hfz, rfl, h2, hfe, rfl, rfl, rfl, rfl⟩

/-- The derived fields are a function of `offsets` and `symbols`: when the call returns on
a table, it returns on every table with the same offsets and symbols and 162 codes, after
`offsets[1] + ... + offsets[16]` stores, with the same codes below that number, the codes
it was given from there on, the flag set and, for an AC type, the same cached fields. -/
theorem generate_huff_codes_any_codes (t t1 u : HuffmanTable) (type : Table_t)
    (h : generate_huff_codes t type = some t1)
    (hou : u.offsets = t.offsets) (hsu : u.symbols = t.symbols)
    (ho : t.offsets.length = 17) (hs : bucketStart t.offsets 17 ≤ 162)
    (hc : t.codes.length = 162) (h0 : u.codes.length = 162) :
    ∃ u1 b, generate_huff_codes u type = some u1 ∧
      lengthLoop t.offsets 16 1 u.codes 0 0
        = some (u1.codes, b, bucketStart t.offsets 17) ∧
      u1.codes.length = 162 ∧ u1.set = true ∧
      (∀ p, p < bucketStart t.offsets 17 → u1.codes[p]? = t1.codes[p]?) ∧
      (∀ p, bucketStart t.offsets 17 ≤ p → u1.codes[p]? = u.codes[p]?) ∧
      (type = .LUM_AC_TABLE ∨ type = .COL_AC_TABLE →
        u1.ZRL_code_index = t1.ZRL_code_index ∧ u1.ZRL_code_len = t1.ZRL_code_len ∧
        u1.EOB_code_index = t1.EOB_code_index ∧ u1.EOB_code_len = t1.EOB_code_len) := by
  obtain ⟨rA, bA, hlA, hlenA, hvalA, hkeepA⟩ :=
    lengthLoop_canonical t.offsets ho hs 16 1 t.codes (Nat.le_refl 1) rfl
  obtain ⟨rB, bB, hlB, hlenB, hvalB, hkeepB⟩ :=
    lengthLoop_canonical t.offsets ho hs 16 1 u.codes (Nat.le_refl 1) rfl
  have hlA0 : lengthLoop t.offsets 16 1 t.codes 0 0
      = some (rA, bA, bucketStart t.offsets 17) := by
    simpa [canonFirst, bucketStart] using hlA
  have hlB0 : lengthLoop t.offsets 16 1 u.codes 0 0
      = some (rB, bB, bucketStart t.offsets 17) := by
    simpa [canonFirst, bucketStart] using hlB
  have hlBu : lengthLoop u.offsets 16 1 u.codes 0 0
      = some (rB, bB, bucketStart t.offsets 17) := by
    rw [hou]; exact hlB0
  obtain ⟨⟨b2, c2, hl2⟩, _, _, _, _⟩ := generate_huff_codes_some t t1 type h
  rw [hlA0] at hl2
  simp only [Option.some.injEq, Prod.mk.injEq] at hl2
  have hrA : t1.codes = rA := hl2.1.symm
  have hsame : ∀ p, p < bucketStart t.offsets 17 → rB[p]? = rA[p]? := by
    intro p hp
    obtain ⟨L, j, h1, h2, h3, h4⟩ := bucket_cover t.offsets 16 p hp
    subst h4
    rw [hvalB L j h1 h2 h3 (by rw [h0]; omega), hvalA L j h1 h2 h3 (by rw [hc]; omega)]
  by_cases hty : type = .LUM_AC_TABLE ∨ type = .COL_AC_TABLE
  · obtain ⟨iz, lz, ie, le, hz, hiz, hlz, he, hie, hle, e1, e2, e3, e4⟩ :=
      generate_huff_codes_ac_some t t1 type hty h
    rw [hrA, hlenA, hc] at hiz hie
    have hgen := generate_huff_codes_ac u type rB bB
      (bucketStart t.offsets 17) iz lz ie le hty hlBu (by rw [hsu]; exact hz)
      (by rw [hlenB, h0]; exact hiz) (by rw [hou]; exact hlz)
      (by rw [hsu]; exact he) (by rw [hlenB, h0]; exact hie) (by rw [hou]; exact hle)
    refine ⟨_, bB, hgen, hlB0, by simp only; rw [hlenB, h0], rfl, ?_, ?_,
      fun _ => ⟨e1.symm, e2.symm, e3.symm, e4.symm⟩⟩
    · intro p hp; rw [hrA]; exact hsame p hp
    · intro p hp; exact hkeepB p (Or.inr hp)
  · have hd : type = .LUM_DC_TABLE ∨ type = .COL_DC_TABLE := by
      cases type <;> simp at hty ⊢
    have hgen := generate_huff_codes_dc u type rB bB (bucketStart t.offsets 17) hd hlBu
    refine ⟨_, bB, hgen, hlB0, by simp only; rw [hlenB, h0], rfl, ?_, ?_,
      fun hac => absurd hac hty⟩
    · intro p hp; rw [hrA]; exact hsame p hp
    · intro p hp; exact hkeepB p (Or.inr hp)

/-- The code values generated for the four tables as initialised: the code values of the
standard, in the first 12 or 162 slots. -/
theorem generated_code_values : ∀ type : Table_t,
    (generate_huff_codes (huffman_tables type) type).map
        (fun t => t.codes.take (symbolCount type))
      = some ((jpegCodes type).map (fun e => e.2.2)) := by
  intro type
  cases type <;> decide!

/-- Claim C11. For each of the four tables the offsets of the 17 slots sum to the number
of symbols of the table (12 for the DC tables, 162 for the AC tables), and whatever the 162
entries of `codes` hold before the call, `generate_huff_codes` returns after exactly that
many stores: code_num ends at that number, every entry below it holds its generated code
(the same whatever was there), and every entry from it on is unchanged. No store is at an
index of 162 or more. -/
theorem huffman_tables_code_count (type : Table_t) (codes0 : List Nat)
    (h0 : codes0.length = 162) :
    (huffman_tables type).offsets.sum = symbolCount type ∧
    ∃ t1 b, generate_huff_codes { huffman_tables type with codes := codes0 } type = some t1 ∧
      lengthLoop (huffman_tables type).offsets 16 1 codes0 0 0
        = some (t1.codes, b, symbolCount type) ∧
      t1.codes.length = 162 ∧
      (∀ p, p < symbolCount type →
        t1.codes[p]? = ((jpegCodes type)[p]?).map (fun e => e.2.2)) ∧
      (∀ p, symbolCount type ≤ p → t1.codes[p]? = codes0[p]?) := by
  have hsum : (huffman_tables type).offsets.sum = symbolCount type := by
    cases type <;> decide!
  have hN : bucketStart (huffman_tables type).offsets 17 = symbolCount type := by
    cases type <;> decide!
  have ho : (huffman_tables type).offsets.length = 17 := by
    cases type <;> decide!
  have hc : (huffman_tables type).codes.length = 162 := by
    cases type <;> decide!
  have hv := generated_code_values type
  cases hg : generate_huff_codes (huffman_tables type) type with
  | none => rw [hg] at hv; simp at hv
  | some t0 =>
    rw [hg] at hv
    simp only [Option.map_some', Option.some.injEq] at hv
    obtain ⟨u1, b, h1, h2, h3, _, h4, h5, _⟩ := generate_huff_codes_any_codes
      (huffman_tables type) t0 { huffman_tables type with codes := codes0 } type hg rfl rfl
      ho (by rw [hN]; cases type <;> decide!) hc h0
    rw [hN] at h2 h4 h5
    refine ⟨hsum, u1, b, h1, h2, h3, ?_, h5⟩
    intro p hp
    rw [h4 p hp, ← List.getElem?_map, ← hv, List.getElem?_take_of_lt hp]

/-! ## Theorems: tables within the Kraft bound -/

theorem kraftSum_succ (offsets : List Nat) (L : Nat) :
    kraftSum offsets (L + 1)
      = kraftSum offsets L + offsets.getD (L + 1) 0 * 2 ^ (16 - (L + 1)) := by
  simp [kraftSum, List.range_succ]

theorem kraftSum_mono (offsets : List Nat) (L : Nat) :
    ∀ d, kraftSum offsets L ≤ kraftSum offsets (L + d) := by
  intro d
  induction d with
  | zero => exact Nat.le_refl _
  | succ d ih =>
    have : L + (d + 1) = (L + d) + 1 := by omega
    rw [this, kraftSum_succ]
    omega

theorem kraftSum_le (offsets : List Nat) (L M : Nat) (h : L ≤ M) :
    kraftSum offsets L ≤ kraftSum offsets M := by
  have := kraftSum_mono offsets L (M - L)
  rwa [Nat.add_sub_cancel' h] at this

theorem exactFirst_succ (offsets : List Nat) (L : Nat) (hL : 1 ≤ L) :
    exactFirst offsets (L + 1) = 2 * (exactFirst offsets L + offsets.getD L 0) := by
  have h : ¬ L = 0 := by omega
  simp [exactFirst, h]

/-- The running value of length `L`, left-justified in 16 bits, is the Kraft sum of the
shorter lengths. -/
theorem exactFirst_kraft (offsets : List Nat) : ∀ L, L ≤ 15 →
    exactFirst offsets (L + 1) * 2 ^ (16 - (L + 1)) = kraftSum offsets L := by
  intro L
  induction L with
  | zero =>
    intro _
    simp [exactFirst, kraftSum]
  | succ L ih =>
    intro hL
    rw [exactFirst_succ offsets (L + 1) (by omega), kraftSum_succ, ← ih (by omega)]
    have e : 2 ^ (16 - (L + 1)) = 2 * 2 ^ (16 - (L + 1 + 1)) := by
      have : 16 - (L + 1) = (16 - (L + 1 + 1)) + 1 := by omega
      rw [this, Nat.pow_succ]
      ring
    rw [e]
    ring

theorem canonFirst_eq_mod (offsets : List Nat) :
    ∀ L, canonFirst offsets L = exactFirst offsets L % 65536 := by
  intro L
  induction L with
  | zero => simp [canonFirst, exactFirst]
  | succ L ih =>
    by_cases h : L = 0
    · subst h; simp [canonFirst, exactFirst]
    · rw [canonFirst_succ offsets L (by omega), exactFirst_succ offsets L (by omega), ih]
      omega

/-- Within the Kraft bound the `j`-th code of length `L` fits in `L` bits, and its range
of 16-bit words ends where the Kraft sum of the lengths up to `L` allows. -/
theorem exactFirst_fits (offsets : List Nat) (hk : kraftSum offsets 16 ≤ 2 ^ 16)
    (L j : Nat) (h1 : 1 ≤ L) (h2 : L ≤ 16) (hj : j < offsets.getD L 0) :
    (exactFirst offsets L + j + 1) * 2 ^ (16 - L) ≤ kraftSum offsets L ∧
    exactFirst offsets L + j < 2 ^ L := by
  obtain ⟨M, rfl⟩ : ∃ M, L = M + 1 := ⟨L - 1, by omega⟩
  have hK := exactFirst_kraft offsets M (by omega)
  have hle : (exactFirst offsets (M + 1) + j + 1) * 2 ^ (16 - (M + 1))
      ≤ kraftSum offsets (M + 1) := by
    rw [kraftSum_succ, ← hK, ← Nat.add_mul]
    exact Nat.mul_le_mul_right _ (by omega)
  refine ⟨hle, ?_⟩
  have h16 : kraftSum offsets (M + 1) ≤ 2 ^ 16 :=
    Nat.le_trans (kraftSum_le offsets _ _ h2) hk
  have hp : (2 : Nat) ^ 16 = 2 ^ (M + 1) * 2 ^ (16 - (M + 1)) := by
    rw [← Nat.pow_add]
    congr 1
    omega
  have hpos : 0 < 2 ^ (16 - (M + 1)) := Nat.two_pow_pos _
  have : (exactFirst offsets (M + 1) + j + 1) * 2 ^ (16 - (M + 1))
      ≤ 2 ^ (M + 1) * 2 ^ (16 - (M + 1)) := by
    rw [← hp]; exact Nat.le_trans hle h16
  have := Nat.le_of_mul_le_mul_right this hpos
  omega

/-- The ranges of two codes, the first one earlier in the table, do not overlap. -/
theorem canonical_ranges_stacked (offsets : List Nat) (hk : kraftSum offsets 16 ≤ 2 ^ 16)
    (L1 j1 L2 j2 : Nat) (h1 : 1 ≤ L1) (h2 : L2 ≤ 16) (hj1 : j1 < offsets.getD L1 0)
    (hj2 : j2 < offsets.getD L2 0) (hlt : L1 < L2 ∨ (L1 = L2 ∧ j1 < j2)) :
    codeHi (0, L1, exactFirst offsets L1 + j1) ≤ codeLo (0, L2, exactFirst offsets L2 + j2) := by
  have hL1 : L1 ≤ 16 := by omega
  have hL2 : 1 ≤ L2 := by omega
  obtain ⟨hle1, hfit1⟩ := exactFirst_fits offsets hk L1 j1 h1 hL1 hj1
  obtain ⟨_, hfit2⟩ := exactFirst_fits offsets hk L2 j2 hL2 h2 hj2
  simp only [codeHi, codeLo, Nat.mod_eq_of_lt hfit1, Nat.mod_eq_of_lt hfit2]
  have hhi : (exactFirst offsets L1 + j1) * 2 ^ (16 - L1) + 2 ^ (16 - L1)
      = (exactFirst offsets L1 + j1 + 1) * 2 ^ (16 - L1) := by ring
  rw [hhi]
  rcases hlt with hlt | ⟨heq, hjlt⟩
  · obtain ⟨M, rfl⟩ : ∃ M, L2 = M + 1 := ⟨L2 - 1, by omega⟩
    have hK := exactFirst_kraft offsets M (by omega)
    have hmono := kraftSum_le offsets L1 M (by omega)
    calc (exactFirst offsets L1 + j1 + 1) * 2 ^ (16 - L1)
        ≤ kraftSum offsets L1 := hle1
      _ ≤ kraftSum offsets M := hmono
      _ = exactFirst offsets (M + 1) * 2 ^ (16 - (M + 1)) := hK.symm
      _ ≤ (exactFirst offsets (M + 1) + j2) * 2 ^ (16 - (M + 1)) :=
          Nat.mul_le_mul_right _ (by omega)
  · subst heq
    exact Nat.mul_le_mul_right _ (by omega)

/-- Of two codes at different places of a table within the Kraft bound, the bit string of
the first does not start the bit string of the second. -/
theorem canonical_no_leading (offsets : List Nat) (hk : kraftSum offsets 16 ≤ 2 ^ 16)
    (L1 j1 L2 j2 : Nat) (h1 : 1 ≤ L1) (h1' : L1 ≤ 16) (h2 : 1 ≤ L2) (h2' : L2 ≤ 16)
    (hj1 : j1 < offsets.getD L1 0) (hj2 : j2 < offsets.getD L2 0)
    (hne : ¬ (L1 = L2 ∧ j1 = j2)) :
    ¬ (bitsMSB (exactFirst offsets L1 + j1) L1 <+: bitsMSB (exactFirst offsets L2 + j2) L2) := by
  intro hpre
  have hr := leading_bits_range (0, L1, exactFirst offsets L1 + j1)
    (0, L2, exactFirst offsets L2 + j2) h2' hpre
  have hlo1 := codeLo_lt_codeHi (0, L1, exactFirst offsets L1 + j1)
  have hlo2 := codeLo_lt_codeHi (0, L2, exactFirst offsets L2 + j2)
  have horder : (L1 < L2 ∨ (L1 = L2 ∧ j1 < j2)) ∨ (L2 < L1 ∨ (L2 = L1 ∧ j2 < j1)) := by
    by_cases hL : L1 = L2
    · have : j1 ≠ j2 := fun e => hne ⟨hL, e⟩
      rcases Nat.lt_or_gt_of_ne this with h | h
      · exact Or.inl (Or.inr ⟨hL, h⟩)
      · exact Or.inr (Or.inr ⟨hL.symm, h⟩)
    · rcases Nat.lt_or_gt_of_ne hL with h | h
      · exact Or.inl (Or.inl h)
      · exact Or.inr (Or.inl h)
  rcases horder with hbefore | hafter
  · have := canonical_ranges_stacked offsets hk L1 j1 L2 j2 h1 h2' hj1 hj2 hbefore
    omega
  · have := canonical_ranges_stacked offsets hk L2 j2 L1 j1 h2 h1' hj2 hj1 hafter
    omega

/-- Claim C17. For every table (17 offsets, 162 codes) whose offsets satisfy the Kraft
bound, the sum of `offsets[L] * 2^(16-L)` over `L = 1..16` being at most `2^16`, and sum to
at most 162, the two loops of `generate_huff_codes` return codes such that the `j`-th code
of length `L` is the running value computed without any reduction modulo `2^16` and is
below `2^L`, the codes of one length are strictly increasing, and no code read as a bit
string of its length starts the code of another place. Whenever `generate_huff_codes`
returns, for any type, the table holds those codes, and for a DC type it does return. -/
theorem generate_huff_codes_kraft (t : HuffmanTable) (ho : t.offsets.length = 17)
    (hc : t.codes.length = 162) (hs : bucketStart t.offsets 17 ≤ 162)
    (hk : kraftSum t.offsets 16 ≤ 2 ^ 16) :
    ∃ r b,
      lengthLoop t.offsets 16 1 t.codes 0 0 = some (r, b, bucketStart t.offsets 17) ∧
      (∀ type t1, generate_huff_codes t type = some t1 → t1.codes = r) ∧
      (∀ type, type = .LUM_DC_TABLE ∨ type = .COL_DC_TABLE →
        generate_huff_codes t type = some { t with codes := r, set := true }) ∧
      (∀ L j, 1 ≤ L → L ≤ 16 → j < t.offsets.getD L 0 →
        r[bucketStart t.offsets L + j]? = some (exactFirst t.offsets L + j) ∧
        exactFirst t.offsets L + j < 2 ^ L) ∧
      (∀ L j1 j2 c1 c2, 1 ≤ L → L ≤ 16 → j1 < j2 → j2 < t.offsets.getD L 0 →
        r[bucketStart t.offsets L + j1]? = some c1 →
        r[bucketStart t.offsets L + j2]? = some c2 → c1 < c2) ∧
      (∀ L1 j1 L2 j2 c1 c2, 1 ≤ L1 → L1 ≤ 16 → 1 ≤ L2 → L2 ≤ 16 →
        j1 < t.offsets.getD L1 0 → j2 < t.offsets.getD L2 0 → ¬ (L1 = L2 ∧ j1 = j2) →
        r[bucketStart t.offsets L1 + j1]? = some c1 →
        r[bucketStart t.offsets L2 + j2]? = some c2 →
        ¬ (bitsMSB c1 L1 <+: bitsMSB c2 L2)) := by
  obtain ⟨r, b, hl, hlen, hval, _⟩ :=
    lengthLoop_canonical t.offsets ho hs 16 1 t.codes (Nat.le_refl 1) rfl
  have hl0 : lengthLoop t.offsets 16 1 t.codes 0 0 = some (r, b, bucketStart t.offsets 17) := by
    simpa [canonFirst, bucketStart] using hl
  have hcode : ∀ L j, 1 ≤ L → L ≤ 16 → j < t.offsets.getD L 0 →
      r[bucketStart t.offsets L + j]? = some (exactFirst t.offsets L + j) ∧
      exactFirst t.offsets L + j < 2 ^ L := by
    intro L j h1 h2 hj
    have hidx : bucketStart t.offsets L + j < t.codes.length := by
      have := bucketStart_le t.offsets (L + 1) 17 (by omega)
      rw [bucketStart_succ t.offsets L h1] at this
      omega
    obtain ⟨_, hfit⟩ := exactFirst_fits t.offsets hk L j h1 h2 hj
    have h16 : (2 : Nat) ^ L ≤ 65536 := by
      have : (2 : Nat) ^ L ≤ 2 ^ 16 := Nat.pow_le_pow_right (by decide) h2
      simpa using this
    refine ⟨?_, hfit⟩
    rw [hval L j h1 h2 hj hidx, canonFirst_eq_mod]
    congr 1
    omega
  refine ⟨r, b, hl0, ?_, ?_, hcode, ?_, ?_⟩
  · intro type t1 h
    obtain ⟨⟨b2, c2, h1⟩, _⟩ := generate_huff_codes_some t t1 type h
    rw [hl0] at h1
    simp only [Option.some.injEq, Prod.mk.injEq] at h1
    exact h1.1.symm
  · intro type hty
    exact generate_huff_codes_dc t type r b _ hty hl0
  · intro L j1 j2 c1 c2 h1 h2 hj hj2 e1 e2
    rw [(hcode L j1 h1 h2 (by omega)).1] at e1
    rw [(hcode L j2 h1 h2 hj2).1] at e2
    simp only [Option.some.injEq] at e1 e2
    omega
  · intro L1 j1 L2 j2 c1 c2 h1 h1' h2 h2' hj1 hj2 hne e1 e2
    rw [(hcode L1 j1 h1 h1' hj1).1] at e1
    rw [(hcode L2 j2 h2 h2' hj2).1] at e2
    simp only [Option.some.injEq] at e1 e2
    subst e1; subst e2
    exact canonical_no_leading t.offsets hk L1 j1 L2 j2 h1 h1' h2 h2' hj1 hj2 hne

/-- Witness of claim C12 on the luminance DC table. -/
theorem generate_huff_codes_canonical_witness :
    ∃ r b,
      lengthLoop (huffman_tables .LUM_DC_TABLE).offsets 16 1
          (huffman_tables .LUM_DC_TABLE).codes 0 0
        = some (r, b, bucketStart (huffman_tables .LUM_DC_TABLE).offsets 17) ∧
      r.length = 162 ∧
      (∀ L j, 1 ≤ L → L ≤ 16 → j < (huffman_tables .LUM_DC_TABLE).offsets.getD L 0 →
        r[bucketStart (huffman_tables .LUM_DC_TABLE).offsets L + j]?
          = some ((canonFirst (huffman_tables .LUM_DC_TABLE).offsets L + j) % 65536)) ∧
      (∀ p, p < bucketStart (huffman_tables .LUM_DC_TABLE).offsets 17 →
        ∃ L j, 1 ≤ L ∧ L ≤ 16 ∧ j < (huffman_tables .LUM_DC_TABLE).offsets.getD L 0 ∧
          p = bucketStart (huffman_tables .LUM_DC_TABLE).offsets L + j) ∧
      (∀ p, bucketStart (huffman_tables .LUM_DC_TABLE).offsets 17 ≤ p →
        r[p]? = (huffman_tables .LUM_DC_TABLE).codes[p]?) ∧
      (∀ type t1, generate_huff_codes (huffman_tables .LUM_DC_TABLE) type = some t1 →
        t1.codes = r ∧ t1.set = true) ∧
      (∀ type, type = .LUM_DC_TABLE ∨ type = .COL_DC_TABLE →
        generate_huff_codes (huffman_tables .LUM_DC_TABLE) type
          = some { huffman_tables .LUM_DC_TABLE with codes := r, set := true }) :=
  generate_huff_codes_canonical (huffman_tables .LUM_DC_TABLE) (by decide!) (by decide!)
    (by decide!)

/-- Witness of claim C11 on the chrominance DC table with every entry of `codes` at 7
before the call. -/
theorem huffman_tables_code_count_witness :
    (huffman_tables .COL_DC_TABLE).offsets.sum = symbolCount .COL_DC_TABLE ∧
    ∃ t1 b, generate_huff_codes
        { huffman_tables .COL_DC_TABLE with codes := List.replicate 162 7 }
        .COL_DC_TABLE = some t1 ∧
      lengthLoop (huffman_tables .COL_DC_TABLE).offsets 16 1 (List.replicate 162 7) 0 0
        = some (t1.codes, b, symbolCount .COL_DC_TABLE) ∧
      t1.codes.length = 162 ∧
      (∀ p, p < symbolCount .COL_DC_TABLE →
        t1.codes[p]? = ((jpegCodes .COL_DC_TABLE)[p]?).map (fun e => e.2.2)) ∧
      (∀ p, symbolCount .COL_DC_TABLE ≤ p → t1.codes[p]? = (List.replicate 162 7)[p]?) :=
  huffman_tables_code_count .COL_DC_TABLE (List.replicate 162 7) (by decide!)

/-- Witness of claim C17 on the luminance AC table, whose Kraft sum is 65535. -/
theorem generate_huff_codes_kraft_witness :
    kraftSum (huffman_tables .LUM_AC_TABLE).offsets 16 = 65535 ∧
    ∃ r b,
      lengthLoop (huffman_tables .LUM_AC_TABLE).offsets 16 1
          (huffman_tables .LUM_AC_TABLE).codes 0 0
        = some (r, b, bucketStart (huffman_tables .LUM_AC_TABLE).offsets 17) ∧
      (∀ type t1, generate_huff_codes (huffman_tables .LUM_AC_TABLE) type = some t1 →
        t1.codes = r) ∧
      (∀ type, type = .LUM_DC_TABLE ∨ type = .COL_DC_TABLE →
        generate_huff_codes (huffman_tables .LUM_AC_TABLE) type
          = some { huffman_tables .LUM_AC_TABLE with codes := r, set := true }) ∧
      (∀ L j, 1 ≤ L → L ≤ 16 → j < (huffman_tables .LUM_AC_TABLE).offsets.getD L 0 →
        r[bucketStart (huffman_tables .LUM_AC_TABLE).offsets L + j]?
          = some (exactFirst (huffman_tables .LUM_AC_TABLE).offsets L + j) ∧
        exactFirst (huffman_tables .LUM_AC_TABLE).offsets L + j < 2 ^ L) ∧
      (∀ L j1 j2 c1 c2, 1 ≤ L → L ≤ 16 → j1 < j2 →
        j2 < (huffman_tables .LUM_AC_TABLE).offsets.getD L 0 →
        r[bucketStart (huffman_tables .LUM_AC_TABLE).offsets L + j1]? = some c1 →
        r[bucketStart (huffman_tables .LUM_AC_TABLE).offsets L + j2]? = some c2 → c1 < c2) ∧
      (∀ L1 j1 L2 j2 c1 c2, 1 ≤ L1 → L1 ≤ 16 → 1 ≤ L2 → L2 ≤ 16 →
        j1 < (huffman_tables .LUM_AC_TABLE).offsets.getD L1 0 →
        j2 < (huffman_tables .LUM_AC_TABLE).offsets.getD L2 0 → ¬ (L1 = L2 ∧ j1 = j2) →
        r[bucketStart (huffman_tables .LUM_AC_TABLE).offsets L1 + j1]? = some c1 →
        r[bucketStart (huffman_tables .LUM_AC_TABLE).offsets L2 + j2]? = some c2 →
        ¬ (bitsMSB c1 L1 <+: bitsMSB c2 L2)) :=
  ⟨by decide!, generate_huff_codes_kraft (huffman_tables .LUM_AC_TABLE) (by decide!)
    (by decide!) (by decide!) (by decide!)⟩

/-! ## Theorems: the fields generate_huff_codes leaves alone -/

/-- Claim C20. Whenever `generate_huff_codes` returns, for every table and type, `offsets`
and `symbols` are what they were, and for the DC table types `EOB_code_index`,
`EOB_code_len`, `ZRL_code_index` and `ZRL_code_len` are what they were too. What it derives
is a function of `offsets` and `symbols`: on any table (17 offsets summing to at most 162
over the slots 1..16, 162 codes) with the same offsets and symbols the call returns with
`set` true, the same codes below the number of symbols and, for the AC types, the same
cached fields. -/
theorem generate_huff_codes_frame (t t1 : HuffmanTable) (type : Table_t)
    (h : generate_huff_codes t type = some t1) :
    t1.offsets = t.offsets ∧ t1.symbols = t.symbols ∧
    ((type = .LUM_DC_TABLE ∨ type = .COL_DC_TABLE) →
      t1.EOB_code_index = t.EOB_code_index ∧ t1.EOB_code_len = t.EOB_code_len ∧
      t1.ZRL_code_index = t.ZRL_code_index ∧ t1.ZRL_code_len = t.ZRL_code_len) ∧
    (∀ u : HuffmanTable, u.offsets = t.offsets → u.symbols = t.symbols →
      t.offsets.length = 17 → bucketStart t.offsets 17 ≤ 162 → t.codes.length = 162 →
      u.codes.length = 162 →
      ∃ u1, generate_huff_codes u type = some u1 ∧ u1.set = t1.set ∧
        (∀ p, p < bucketStart t.offsets 17 → u1.codes[p]? = t1.codes[p]?) ∧
        (type = .LUM_AC_TABLE ∨ type = .COL_AC_TABLE →
          u1.ZRL_code_index = t1.ZRL_code_index ∧ u1.ZRL_code_len = t1.ZRL_code_len ∧
          u1.EOB_code_index = t1.EOB_code_index ∧ u1.EOB_code_len = t1.EOB_code_len)) := by
  obtain ⟨_, hset, h1, h2, h3⟩ := generate_huff_codes_some t t1 type h
  refine ⟨h1, h2, h3, ?_⟩
  intro u hou hsu ho hs hc h0
  obtain ⟨u1, _, g1, _, _, g2, g3, _, g4⟩ :=
    generate_huff_codes_any_codes t t1 u type h hou hsu ho hs hc h0
  exact ⟨u1, g1, by rw [g2, hset], g3, g4⟩

/-- Witness of claim C20 on the chrominance DC table with cached fields 5, 6, 7, 8. -/
theorem generate_huff_codes_frame_witness :
    ∃ t1, generate_huff_codes { huffman_tables .COL_DC_TABLE with
        EOB_code_index := 5, EOB_code_len := 6, ZRL_code_index := 7, ZRL_code_len := 8 }
        .COL_DC_TABLE = some t1 ∧
      t1.offsets = (huffman_tables .COL_DC_TABLE).offsets ∧
      t1.symbols = (huffman_tables .COL_DC_TABLE).symbols ∧
      t1.EOB_code_index = 5 ∧ t1.EOB_code_len = 6 ∧
      t1.ZRL_code_index = 7 ∧ t1.ZRL_code_len = 8 := by
  have h : (generate_huff_codes { huffman_tables .COL_DC_TABLE with
      EOB_code_index := 5, EOB_code_len := 6, ZRL_code_index := 7, ZRL_code_len := 8 }
      .COL_DC_TABLE).isSome = true := by decide!
  obtain ⟨t1, h1⟩ := Option.isSome_iff_exists.mp h
  obtain ⟨g1, g2, g3, _⟩ := generate_huff_codes_frame _ t1 .COL_DC_TABLE h1
  exact ⟨t1, h1, g1, g2, g3 (Or.inr rfl)⟩

/-! ## Theorems: the lookup of the reserved symbols -/

/-- The search returns the first position of a value that occurs. -/
theorem fetchIndex_first (symbols : List Nat) (v i : Nat) (hlen : symbols.length = 162)
    (h : IsFirstIndex symbols v i) :
    ∀ (todo k : Nat), k + todo = 162 → k ≤ i → fetchIndex symbols v todo k = some i := by
  obtain ⟨hi, hv, hmin⟩ := h
  intro todo
  induction todo with
  | zero => intro k h1 h2; omega
  | succ todo ih =>
    intro k h1 h2
    have hk : k < symbols.length := by omega
    simp only [fetchIndex, List.getElem?_eq_getElem hk]
    by_cases hs : symbols[k] = v
    · have : k = i := by
        by_contra hne
        exact hmin k (by omega) (by rw [List.getElem?_eq_getElem hk, hs])
      rw [if_pos hs, this]
    · have hne : k ≠ i := by
        intro e
        subst e
        rw [List.getElem?_eq_getElem hk] at hv
        exact hs (Option.some.inj hv)
      rw [if_neg hs]
      exact ih (k + 1) (by omega) (by omega)

/-- The search returns 0 for a value that occurs nowhere. -/
theorem fetchIndex_absent (symbols : List Nat) (v : Nat) (hlen : symbols.length = 162)
    (h : ∀ k, k < 162 → symbols[k]? ≠ some v) :
    ∀ (todo k : Nat), k + todo = 162 → fetchIndex symbols v todo k = some 0 := by
  intro todo
  induction todo with
  | zero => intro k _; rfl
  | succ todo ih =>
    intro k h1
    have hk : k < symbols.length := by omega
    simp only [fetchIndex, List.getElem?_eq_getElem hk]
    have hs : ¬ symbols[k] = v := by
      intro e
      exact h k (by omega) (by rw [List.getElem?_eq_getElem hk, e])
    rw [if_neg hs]
    exact ih (k + 1) (by omega)

theorem fetchIndex_cached (symbols : List Nat) (v i : Nat) (hlen : symbols.length = 162)
    (h : IsCachedIndex symbols v i) : fetchIndex symbols v 162 0 = some i ∧ i < 162 := by
  rcases h with h | ⟨h0, h⟩
  · exact ⟨fetchIndex_first symbols v i hlen h 162 0 rfl (Nat.zero_le _), h.1⟩
  · subst h0
    exact ⟨fetchIndex_absent symbols v hlen h 162 0 rfl, by decide⟩

theorem take_sum_succ (offsets : List Nat) (f : Nat) (hf : f < offsets.length) :
    (offsets.take (f + 1)).sum = (offsets.take f).sum + offsets.getD f 0 := by
  rw [List.take_succ, List.sum_append, List.getD_eq_getElem?_getD,
    List.getElem?_eq_getElem hf]
  simp

theorem take_sum_mono (offsets : List Nat) (f : Nat) :
    ∀ d, (offsets.take f).sum ≤ (offsets.take (f + d)).sum := by
  intro d
  induction d with
  | zero => exact Nat.le_refl _
  | succ d ih =>
    by_cases h : f + d < offsets.length
    · have : f + (d + 1) = (f + d) + 1 := by omega
      rw [this, take_sum_succ offsets (f + d) h]
      omega
    · have e1 : offsets.take (f + (d + 1)) = offsets := List.take_of_length_le (by omega)
      have e2 : offsets.take (f + d) = offsets := List.take_of_length_le (by omega)
      rw [e1]
      rw [e2] at ih
      exact ih

/-- The length loop entered at slot `f` with the sum of the slots before `f`, while no
bucket up to `f - 1` holds the index: it stops right after the bucket of the index,
provided the 8-bit sum cannot wrap. -/
theorem fetchLoop_bucket (offsets : List Nat) (i L : Nat) (ho : offsets.length = 17)
    (hw : offsetsUpTo offsets 16 ≤ 255) (hb : IsBucketOf offsets i L) :
    ∀ (d f fuel : Nat), f + d = L + 1 → d + 1 ≤ fuel →
      fetchLoop offsets i fuel (offsets.take f).sum f = some (L + 1) := by
  obtain ⟨hL, hreach, hmin⟩ := hb
  intro d
  induction d with
  | zero =>
    intro f fuel hf hfuel
    obtain ⟨fuel, rfl⟩ : ∃ n, fuel = n + 1 := ⟨fuel - 1, by omega⟩
    have e : f = L + 1 := by omega
    subst e
    have hnot : ¬ (offsets.take (L + 1)).sum < i + 1 := by
      unfold offsetsUpTo at hreach
      omega
    simp [fetchLoop, hnot]
  | succ d ih =>
    intro f fuel hf hfuel
    obtain ⟨fuel, rfl⟩ : ∃ n, fuel = n + 1 := ⟨fuel - 1, by omega⟩
    have hfL : f ≤ L := by omega
    have hlt : (offsets.take f).sum < i + 1 := by
      cases f with
      | zero => simp
      | succ g =>
        have := hmin g (by omega)
        unfold offsetsUpTo at this
        exact this
    have hflen : f < offsets.length := by omega
    have hget : offsets[f]? = some (offsets.getD f 0) := by
      simp [List.getD_eq_getElem?_getD, List.getElem?_eq_getElem hflen]
    have hnext := take_sum_succ offsets f hflen
    have htot : (offsets.take (f + 1)).sum ≤ 255 := by
      have := take_sum_mono offsets (f + 1) (16 - f)
      have e : f + 1 + (16 - f) = 16 + 1 := by omega
      rw [e] at this
      unfold offsetsUpTo at hw
      omega
    have hs : ((offsets.take f).sum + offsets.getD f 0) % 256 = (offsets.take (f + 1)).sum := by
      rw [← hnext]
      exact Nat.mod_eq_of_lt (by omega)
    have hf1 : (f + 1) % 256 = f + 1 := Nat.mod_eq_of_lt (by omega)
    simp only [fetchLoop, hlt, if_true, hget, hs, hf1]
    exact ih (f + 1) fuel (by omega) (by omega)

/-- The length recovery returns the bucket of the index, provided the 8-bit sum cannot
wrap. -/
theorem fetchLength_bucket (offsets : List Nat) (i L : Nat) (ho : offsets.length = 17)
    (hw : offsetsUpTo offsets 16 ≤ 255) (hb : IsBucketOf offsets i L) :
    fetchLength offsets i = some L := by
  have hL : L ≤ 16 := hb.1
  have h := fetchLoop_bucket offsets i L ho hw hb (L + 1) 0 (offsets.length + 1)
    (by omega) (by omega)
  simp only [List.take_zero, List.sum_nil] at h
  simp only [fetchLength, h, Option.map_some', Option.some.injEq]
  omega

/-- The loop of `generate_ycbcr_data` on a 3-channel image from pixel `j0` on, with `m`
pixels left, buffers that hold `size` bytes and pixels whose conversions have a result: it
returns, every pixel from `j0` on has its three bytes stored, and the other bytes are as
they were. -/
theorem ycbcrLoop_converts (outside : Int → Option Nat) (img : Image) (n : Nat)
    (hch : img.channels = 3) (hsize : img.size = 3 * n) (hdata : img.size ≤ img.data.length)
    (hpix : ∀ j, j < n → (ycbcr_pixel_with outside (img.data.getD (3 * j) 0)
      (img.data.getD (3 * j + 1) 0) (img.data.getD (3 * j + 2) 0)).isSome = true) :
    ∀ (m j0 fuel : Nat) (out : List Nat), j0 + m = n → m + 1 ≤ fuel →
      img.size ≤ out.length →
      ∃ res, ycbcrLoop outside img fuel (3 * j0) out = some res ∧ res.length = out.length ∧
        (∀ q, q < 3 * j0 ∨ img.size ≤ q → res[q]? = out[q]?) ∧
        (∀ j, j0 ≤ j → j < n →
          ycbcr_pixel_with outside (img.data.getD (3 * j) 0) (img.data.getD (3 * j + 1) 0)
            (img.data.getD (3 * j + 2) 0)
            = some (res.getD (3 * j) 0, res.getD (3 * j + 1) 0, res.getD (3 * j + 2) 0)) := by
  intro m
  induction m with
  | zero =>
    intro j0 fuel out hj hfuel hout
    obtain ⟨fuel, rfl⟩ : ∃ k, fuel = k + 1 := ⟨fuel - 1, by omega⟩
    have hp : 3 * j0 = img.size := by omega
    refine ⟨out, by simp [ycbcrLoop, hp], rfl, fun _ _ => rfl, ?_⟩
    intro j h1 h2
    omega
  | succ m ih =>
    intro j0 fuel out hj hfuel hout
    obtain ⟨fuel, rfl⟩ : ∃ k, fuel = k + 1 := ⟨fuel - 1, by omega⟩
    have hp : ¬ 3 * j0 = img.size := by omega
    have h0 : 3 * j0 < img.data.length := by omega
    have h1 : 3 * j0 + 1 < img.data.length := by omega
    have h2 : 3 * j0 + 2 < img.data.length := by omega
    have hdef := hpix j0 (by omega)
    have g0 : img.data.getD (3 * j0) 0 = img.data[3 * j0] := by
      simp [List.getD_eq_getElem?_getD, List.getElem?_eq_getElem h0]
    have g1 : img.data.getD (3 * j0 + 1) 0 = img.data[3 * j0 + 1] := by
      simp [List.getD_eq_getElem?_getD, List.getElem?_eq_getElem h1]
    have g2 : img.data.getD (3 * j0 + 2) 0 = img.data[3 * j0 + 2] := by
      simp [List.getD_eq_getElem?_getD, List.getElem?_eq_getElem h2]
    cases hpx : ycbcr_pixel_with outside (img.data.getD (3 * j0) 0)
        (img.data.getD (3 * j0 + 1) 0) (img.data.getD (3 * j0 + 2) 0) with
    | none => rw [hpx] at hdef; simp at hdef
    | some px =>
      obtain ⟨y, cb, cr⟩ := px
      have ho2 : 3 * j0 + 2 < out.length := by omega
      have hnext : 3 * j0 + img.channels.toNat = 3 * (j0 + 1) := by
        rw [hch]; simp; omega
      obtain ⟨res, hres, hlen, hkeep, hval⟩ := ih (j0 + 1) fuel
        (((out.set (3 * j0) y).set (3 * j0 + 1) cb).set (3 * j0 + 2) cr)
        (by omega) (by omega) (by simpa using hout)
      have hlen' : res.length = out.length := by simpa using hlen
      rw [g0, g1, g2] at hpx
      refine ⟨res, ?_, hlen', ?_, ?_⟩
      · simp only [ycbcrLoop, hp, if_false, List.getElem?_eq_getElem h0,
          List.getElem?_eq_getElem h1, List.getElem?_eq_getElem h2, hpx, ho2, if_true, hnext]
        exact hres
      · intro q hq
        rw [hkeep q (by omega), List.getElem?_set_ne (by omega),
          List.getElem?_set_ne (by omega), List.getElem?_set_ne (by omega)]
      · intro j hj1 hj2
        by_cases hjj : j = j0
        · subst hjj
          have e0 : res[3 * j]? = some y := by
            rw [hkeep _ (Or.inl (by omega)), List.getElem?_set_ne (by omega),
              List.getElem?_set_ne (by omega), List.getElem?_set_self (by omega)]
          have e1 : res[3 * j + 1]? = some cb := by
            rw [hkeep _ (Or.inl (by omega)), List.getElem?_set_ne (by omega),
              List.getElem?_set_self (by simpa using (by omega : 3 * j + 1 < out.length))]
          have e2 : res[3 * j + 2]? = some cr := by
            rw [hkeep _ (Or.inl (by omega)),
              List.getElem?_set_self (by simpa using ho2)]
          rw [g0, g1, g2, hpx]
          simp [List.getD_eq_getElem?_getD, e0, e1, e2]
        · exact hval j (by omega) hj2

/-- A run of the loop that has a result in C has the same result on every target. -/
theorem ycbcrLoop_of_strict (outside : Int → Option Nat) (img : Image) :
    ∀ (fuel p : Nat) (out res : List Nat), ycbcrLoop strictC img fuel p out = some res →
      ycbcrLoop outside img fuel p out = some res := by
  intro fuel
  induction fuel with
  | zero =>
    intro p out res h
    simp [ycbcrLoop] at h
  | succ fuel ih =>
    intro p out res h
    unfold ycbcrLoop at h
    unfold ycbcrLoop
    by_cases hp : p = img.size
    · rw [if_pos hp] at h
      rw [if_pos hp]
      exact h
    · rw [if_neg hp] at h
      rw [if_neg hp]
      cases h0 : img.data[p]? with
      | none => rw [h0] at h; simp at h
      | some r =>
        cases h1 : img.data[p + 1]? with
        | none => rw [h0, h1] at h; simp at h
        | some g =>
          cases h2 : img.data[p + 2]? with
          | none => rw [h0, h1, h2] at h; simp at h
          | some b =>
            rw [h0, h1, h2] at h
            cases hpx : ycbcr_pixel_with strictC r g b with
            | none => simp [hpx] at h
            | some px =>
              obtain ⟨y, cb, cr⟩ := px
              have hpx2 := ycbcr_pixel_with_of_strict outside r g b (y, cb, cr) hpx
              simp only [hpx] at h
              simp only [hpx2]
              by_cases hb : p + 2 < out.length
              · rw [if_pos hb] at h
                rw [if_pos hb]
                exact ih _ _ _ h
              · rw [if_neg hb] at h
                simp at h

/-- A call that returns in C returns the same image on every target. -/
theorem generate_ycbcr_data_with_of_strict (outside : Int → Option Nat) (img res : Image)
    (h : generate_ycbcr_data img = .returns res) :
    generate_ycbcr_data_with outside img = .returns res := by
  unfold generate_ycbcr_data generate_ycbcr_data_with ON_ERROR_EXIT at h
  unfold generate_ycbcr_data_with ON_ERROR_EXIT
  split at h
  · simp at h
  · rename_i hc
    rw [if_neg hc]
    cases hl : ycbcrLoop strictC img (img.data.length + 1) 0 img.YCbCr_data with
    | none => rw [hl] at h; simp at h
    | some out =>
      rw [hl] at h
      rw [ycbcrLoop_of_strict outside img _ _ _ _ hl]
      exact h

/-- Claim C16. Whatever is assumed of the conversions C leaves undefined,
`generate_ycbcr_data` leaves through `ON_ERROR_EXIT` with the message
`The input image must have 3 channels.`, before any pixel is read, exactly when the image
is unallocated or its channel count is not 3, and with no other message. For an allocated
3-channel image of `size = 3 * n` bytes whose two buffers hold at least `size` bytes (as
`Image_load` leaves it, image.c:15-18), on every target (every rule `conv` for the
out-of-range conversions) it returns, the output buffer keeps its length, each of the `n`
pixels has its three bytes stored at offsets `3 * j`, `3 * j + 1`, `3 * j + 2` (the `size`
bytes below `size`), and no byte from offset `size` on is changed. -/
theorem generate_ycbcr_data_guard :
    (∀ (outside : Int → Option Nat) (img : Image),
      generate_ycbcr_data_with outside img = .exits "The input image must have 3 channels."
        ↔ (img.allocation_ = .NO_ALLOCATION ∨ img.channels ≠ 3)) ∧
    (∀ (outside : Int → Option Nat) (img : Image) (message : String),
      generate_ycbcr_data_with outside img = .exits message →
        message = "The input image must have 3 channels.") ∧
    (∀ (conv : Int → Nat) (img : Image) (n : Nat), img.allocation_ ≠ .NO_ALLOCATION →
      img.channels = 3 → img.size = 3 * n → img.size ≤ img.data.length →
      img.size ≤ img.YCbCr_data.length →
      ∃ out, generate_ycbcr_data_with (onTarget conv) img
          = .returns { img with YCbCr_data := out } ∧
        out.length = img.YCbCr_data.length ∧
        (∀ q, img.size ≤ q → out[q]? = img.YCbCr_data[q]?) ∧
        ∀ j, j < n →
          ycbcr_pixel_with (onTarget conv) (img.data.getD (3 * j) 0)
            (img.data.getD (3 * j + 1) 0) (img.data.getD (3 * j + 2) 0)
            = some (out.getD (3 * j) 0, out.getD (3 * j + 1) 0, out.getD (3 * j + 2) 0)) := by
  refine ⟨?_, ?_, ?_⟩
  · intro outside img
    unfold generate_ycbcr_data_with ON_ERROR_EXIT
    by_cases ha : img.allocation_ = .NO_ALLOCATION
    · simp [ha]
    · by_cases hc : img.channels = 3
      · simp only [ha, hc, ne_eq, not_false_eq_true, decide_True, Bool.and_self, Bool.not_true,
          Bool.false_eq_true, if_false, not_true_eq_false, or_self, iff_false]
        cases ycbcrLoop outside img (img.data.length + 1) 0 img.YCbCr_data <;> simp
      · simp [ha, hc]
  · intro outside img message h
    unfold generate_ycbcr_data_with ON_ERROR_EXIT at h
    split at h
    · exact (Outcome.exits.inj h).symm
    · cases hl : ycbcrLoop outside img (img.data.length + 1) 0 img.YCbCr_data with
      | none => rw [hl] at h; simp at h
      | some out => rw [hl] at h; simp at h
  · intro conv img n ha hc hsize hdata hout
    obtain ⟨res, hres, hlen, hkeep, hval⟩ := ycbcrLoop_converts (onTarget conv) img n hc hsize
      hdata (fun j _ => ycbcr_pixel_with_onTarget conv _ _ _) n 0
      (img.data.length + 1) img.YCbCr_data (by omega) (by omega) hout
    refine ⟨res, ?_, hlen, fun q hq => hkeep q (Or.inr hq), fun j hj => hval j (Nat.zero_le _) hj⟩
    unfold generate_ycbcr_data_with ON_ERROR_EXIT
    simp only [Nat.mul_zero] at hres
    simp [ha, hc, hres]

/-- Witness of claim C16: the one-pixel image (255, 0, 0) on the target that keeps the low
byte. The call returns with the three bytes 81, 91, 239 stored. -/
theorem generate_ycbcr_data_guard_witness :
    (∃ out, generate_ycbcr_data_with (onTarget wrapLowByte)
          { width := 1, height := 1, channels := 3, size := 3, data := [255, 0, 0],
            YCbCr_data := [0, 0, 0], colour_space := .RGB, allocation_ := .STB_ALLOCATED }
          = .returns
            { width := 1, height := 1, channels := 3, size := 3, data := [255, 0, 0],
              YCbCr_data := out, colour_space := .RGB, allocation_ := .STB_ALLOCATED } ∧
        out.length = 3 ∧
        (∀ q, 3 ≤ q → out[q]? = [0, 0, 0][q]?) ∧
        ∀ j, j < 1 →
          ycbcr_pixel_with (onTarget wrapLowByte) ([255, 0, 0].getD (3 * j) 0)
            ([255, 0, 0].getD (3 * j + 1) 0) ([255, 0, 0].getD (3 * j + 2) 0)
            = some (out.getD (3 * j) 0, out.getD (3 * j + 1) 0, out.getD (3 * j + 2) 0)) ∧
    generate_ycbcr_data_with (onTarget wrapLowByte)
      { width := 1, height := 1, channels := 3, size := 3, data := [255, 0, 0],
        YCbCr_data := [0, 0, 0], colour_space := .RGB, allocation_ := .STB_ALLOCATED }
      = .returns
        { width := 1, height := 1, channels := 3, size := 3, data := [255, 0, 0],
          YCbCr_data := [81, 91, 239], colour_space := .RGB,
          allocation_ := .STB_ALLOCATED } :=
  ⟨generate_ycbcr_data_guard.2.2 wrapLowByte
      { width := 1, height := 1, channels := 3, size := 3, data := [255, 0, 0],
        YCbCr_data := [0, 0, 0], colour_space := .RGB, allocation_ := .STB_ALLOCATED } 1
      (by decide) rfl rfl (by decide) (by decide),
    by decide⟩
end PayloadDemo
